import Mathlib

/-!
# The shared-memory circular buffer of `exercise2` (cbuffer.c, cbuffer.h, supervisor.c)

A shallow embedding of `write_to_cbuf`, `read_from_cbuf` and the supervisor loop.

* The shared region (`circularBuffer`) and the three POSIX semaphores (`semaphores`) are plain
  records.  `data` is a map from array index to cell; the indices `0 .. C-1` are the array.
* `write_to_cbuf` and `read_from_cbuf` are small-step machines: one step performs at most one
  semaphore call; the plain loads and stores that stand between two semaphore calls are grouped
  into one step, except that every test of `cbuf->stop` is a step of its own.  A step returns
  `none` when the process cannot move: it is blocked in `sem_wait` on a semaphore whose value is
  `0`, or it has already returned.
* The boolean `err` given to a step says whether the semaphore call made in this step reports an
  error (returns `-1`).
* The capacity `BLOCK_SIZE` is the parameter `C` of the step functions; the source fixes it to 300.
* `int` values are modelled by `Int`, with C's truncating `%` (`Int.tmod`); the loop counters, which
  the code only counts upwards from 0 or 1, are `Nat`.  In `write_step` and `read_step` the
  arithmetic is exact.  `write_step32` and `read_step32` are the same steps on the machine:
  every result of the cursor arithmetic is reduced to the value that a 32-bit `int` holds
  (`int32`: the wrap-around of two's complement; the C standard leaves the overflow
  undefined).  The two agree as long as head and tail stay between 0 and `INT_MAX`
  (`runWriter32_eq`, `runReader32_eq`, `net_run32_eq`).
* Each process keeps a log of its semaphore calls that went through, and the reader the list of
  what it printed; both are observations, no step depends on them.
* `Sys` is the system of one write and one read, `Net` the system of any number of producers
  and the consumer in its loop; their executions are the interleavings of the steps of the
  processes.  `Net` also records the order in which the producers took the mutex and every
  store to `data`; these two lists are observations as well.
* The producer loop and the search step `getRemoveEdges` of 2-3coloring-Lutu/generator.c are
  embedded as functions: the loop over the buffers that the colourings yield, the nested loops
  of the search as recursion over the colour arrays, the record buffer as a map from index to
  cell.
* `strcasestr` of exercise1A/mygrep.c works on C strings, modelled as lists of character codes
  other than 0.
-/

namespace Cbuf

/-! ## Data model (cbuffer.h) -/

/-- The capacity of the buffer, `#define BLOCK_SIZE 300`. -/
def BLOCK_SIZE : Nat := 300

/-- The value `EXIT_FAILURE` of stdlib.h. -/
def EXIT_FAILURE : Int := 1

/-- The value `EXIT_SUCCESS` of stdlib.h. -/
def EXIT_SUCCESS : Int := 0

/-- The struct `circularBuffer`: the cells, the two cursors and the stop flag. -/
@[ext] structure circularBuffer where
  data : Int → Int
  head : Int
  tail : Int
  stop : Bool

/-- The struct `semaphores`, each semaphore given by its current value. -/
@[ext] structure semaphores where
  sem_free : Nat
  sem_used : Nat
  sem_mutex : Nat
  deriving DecidableEq, Repr

/-- The state shared by all processes. -/
@[ext] structure Shared where
  cbuf : circularBuffer
  sems : semaphores

/-- The three semaphores by name. -/
inductive Sem where
  | free
  | used
  | mutex
  deriving DecidableEq, Repr

/-- A successful semaphore call, as recorded in the log of a process. -/
inductive SemOp where
  | wait (s : Sem)
  | post (s : Sem)
  deriving DecidableEq, Repr

/-- What `read_from_cbuf` prints. -/
inductive Output where
  | colorable
  | solution (size : Int)
  | pair (a b : Int)
  | newline
  deriving DecidableEq, Repr

/-- The value of a semaphore. -/
def semaphores.val (s : semaphores) : Sem → Nat
  | .free => s.sem_free
  | .used => s.sem_used
  | .mutex => s.sem_mutex

/-- A `sem_wait` that goes through: `none` when the value is 0 (the caller stays blocked). -/
def sem_wait (s : semaphores) : Sem → Option semaphores
  | .free => if s.sem_free = 0 then none else some { s with sem_free := s.sem_free - 1 }
  | .used => if s.sem_used = 0 then none else some { s with sem_used := s.sem_used - 1 }
  | .mutex => if s.sem_mutex = 0 then none else some { s with sem_mutex := s.sem_mutex - 1 }

/-- A `sem_post` that goes through. -/
def sem_post (s : semaphores) : Sem → semaphores
  | .free => { s with sem_free := s.sem_free + 1 }
  | .used => { s with sem_used := s.sem_used + 1 }
  | .mutex => { s with sem_mutex := s.sem_mutex + 1 }

/-- The assignment `cbuf->data[idx] = v`. -/
def circularBuffer.store (cb : circularBuffer) (idx v : Int) : circularBuffer :=
  { cb with data := Function.update cb.data idx v }

/-! ## write_to_cbuf (cbuffer.c, lines 236-337) -/

/-- The program points of `write_to_cbuf`; the comments give the source lines. -/
inductive WPc where
  | lock    -- 243  sem_wait(sem_mutex)
  | stop0   -- 248  if (cbuf->stop); 255 edgeCount = removeEdges[0]
  | free0   -- 261  sem_wait(sem_free)
  | stop1   -- 269  if (cbuf->stop)
  | len     -- 278-279  data[head % BLOCK_SIZE] = edgeCount; head += 1
  | used0   -- 280  sem_post(sem_used); 285 i = 1, loop test
  | freeA   -- 287  sem_wait(sem_free)
  | stop2   -- 296  if (cbuf->stop)
  | cellA   -- 304  data[head % BLOCK_SIZE] = removeEdges[i]
  | usedA   -- 305  sem_post(sem_used)
  | freeB   -- 310  sem_wait(sem_free)
  | cellB   -- 319-320  data[(head+1) % BLOCK_SIZE] = removeEdges[i+1]; head += 2
  | usedB   -- 322  sem_post(sem_used); 285 i += 2, loop test
  | unlock  -- 329  sem_post(sem_mutex); 336 return true
  | abort   -- 249, 270, 297  sem_post(sem_mutex) after stop was seen; return 0
  | errA    -- 263  sem_post(sem_mutex) after the failed wait of 261; return EXIT_FAILURE
  | errB    -- 289, 312  sem_post(sem_mutex) after a failed wait in the loop
  | done (ret : Int)
  deriving DecidableEq, Repr

/-- The local state of one `write_to_cbuf` call: program point, the locals `edgeCount` and `i`,
and the log of the semaphore calls that went through. -/
structure Writer where
  pc : WPc
  edgeCount : Int
  i : Nat
  log : List SemOp
  deriving DecidableEq, Repr

/-- The state of a call at entry. -/
def Writer.init : Writer := { pc := .lock, edgeCount := 0, i := 0, log := [] }

/-- The test of the `for` loop of line 285: the next program point. -/
def Writer.loopPc (edgeCount : Int) (i : Nat) : WPc :=
  if (i : Int) < edgeCount * 2 + 1 then .freeA else .unlock

/-- One step of `write_to_cbuf` on the record `removeEdges`. -/
def write_step (C : Nat) (removeEdges : List Int) (err : Bool) (sh : Shared) (w : Writer) :
    Option (Shared × Writer) :=
  match w.pc with
  | .lock =>
    if err then some (sh, { w with pc := .done EXIT_FAILURE })
    else (sem_wait sh.sems .mutex).map fun s =>
      ({ sh with sems := s }, { w with pc := .stop0, log := w.log ++ [.wait .mutex] })
  | .stop0 =>
    if sh.cbuf.stop then some (sh, { w with pc := .abort })
    else some (sh, { w with pc := .free0, edgeCount := removeEdges.getD 0 0 })
  | .free0 =>
    if err then some (sh, { w with pc := .errA })
    else (sem_wait sh.sems .free).map fun s =>
      ({ sh with sems := s }, { w with pc := .stop1, log := w.log ++ [.wait .free] })
  | .stop1 =>
    if sh.cbuf.stop then some (sh, { w with pc := .abort })
    else some (sh, { w with pc := .len })
  | .len =>
    some ({ sh with cbuf :=
              { sh.cbuf.store (Int.tmod sh.cbuf.head C) w.edgeCount with
                head := sh.cbuf.head + 1 } },
          { w with pc := .used0 })
  | .used0 =>
    if err then some (sh, { w with pc := .done (-1) })
    else some ({ sh with sems := sem_post sh.sems .used },
               { w with pc := Writer.loopPc w.edgeCount 1, i := 1,
                        log := w.log ++ [.post .used] })
  | .freeA =>
    if err then some (sh, { w with pc := .errB })
    else (sem_wait sh.sems .free).map fun s =>
      ({ sh with sems := s }, { w with pc := .stop2, log := w.log ++ [.wait .free] })
  | .stop2 =>
    if sh.cbuf.stop then some (sh, { w with pc := .abort })
    else some (sh, { w with pc := .cellA })
  | .cellA =>
    some ({ sh with cbuf := sh.cbuf.store (Int.tmod sh.cbuf.head C) (removeEdges.getD w.i 0) },
          { w with pc := .usedA })
  | .usedA =>
    if err then some (sh, { w with pc := .done (-1) })
    else some ({ sh with sems := sem_post sh.sems .used },
               { w with pc := .freeB, log := w.log ++ [.post .used] })
  | .freeB =>
    if err then some (sh, { w with pc := .errB })
    else (sem_wait sh.sems .free).map fun s =>
      ({ sh with sems := s }, { w with pc := .cellB, log := w.log ++ [.wait .free] })
  | .cellB =>
    some ({ sh with cbuf :=
              { sh.cbuf.store (Int.tmod (sh.cbuf.head + 1) C) (removeEdges.getD (w.i + 1) 0) with
                head := sh.cbuf.head + 2 } },
          { w with pc := .usedB })
  | .usedB =>
    if err then some (sh, { w with pc := .done (-1) })
    else some ({ sh with sems := sem_post sh.sems .used },
               { w with pc := Writer.loopPc w.edgeCount (w.i + 2), i := w.i + 2,
                        log := w.log ++ [.post .used] })
  | .unlock =>
    if err then some (sh, { w with pc := .done (-1) })
    else some ({ sh with sems := sem_post sh.sems .mutex },
               { w with pc := .done 1, log := w.log ++ [.post .mutex] })
  | .abort =>
    if err then some (sh, { w with pc := .done (-1) })
    else some ({ sh with sems := sem_post sh.sems .mutex },
               { w with pc := .done 0, log := w.log ++ [.post .mutex] })
  | .errA =>
    if err then some (sh, { w with pc := .done EXIT_FAILURE })
    else some ({ sh with sems := sem_post sh.sems .mutex },
               { w with pc := .done EXIT_FAILURE, log := w.log ++ [.post .mutex] })
  | .errB =>
    if err then some (sh, { w with pc := .done (-1) })
    else some ({ sh with sems := sem_post sh.sems .mutex },
               { w with pc := .done EXIT_FAILURE, log := w.log ++ [.post .mutex] })
  | .done _ => none

/-- The writer running alone (no step of any other process in between) for at most `fuel`
steps; `errs` says for each step in turn whether its semaphore call fails (none fails once the
list is used up).  The run stops where the writer cannot move. -/
def runWriter (C : Nat) (removeEdges : List Int) :
    Nat → List Bool → Shared × Writer → Shared × Writer
  | 0, _, s => s
  | fuel + 1, errs, s =>
    match write_step C removeEdges (errs.headD false) s.1 s.2 with
    | none => s
    | some s' => runWriter C removeEdges fuel errs.tail s'

/-- The value returned by the call, once it has returned. -/
def Writer.ret (w : Writer) : Option Int :=
  match w.pc with
  | .done r => some r
  | _ => none

/-! ## read_from_cbuf (cbuffer.c, lines 339-418) -/

/-- The program points of `read_from_cbuf`; the comments give the source lines. -/
inductive RPc where
  | used0   -- 342  sem_wait(sem_used)
  | size    -- 346  size = data[tail % BLOCK_SIZE]
  | free0   -- 347  sem_post(sem_free); 351-360 the classification of size
  | skip    -- 361  tail += size*2 + 1; 363 i = 0, loop test
  | dUsedA  -- 364  sem_wait(sem_used)
  | dUsedB  -- 368  sem_wait(sem_used)
  | dFreeA  -- 373  sem_post(sem_free)
  | dFreeB  -- 377  sem_post(sem_free); 363 i++, loop test
  | tail1   -- 387  tail += 1; 389 i = 0, loop test
  | pUsedA  -- 390  sem_wait(sem_used)
  | pUsedB  -- 394  sem_wait(sem_used)
  | pRead   -- 399-402  print data[tail % B]-data[(tail+1) % B]; tail += 2
  | pFreeA  -- 404  sem_post(sem_free)
  | pFreeB  -- 408  sem_post(sem_free); 389 i++, loop test
  | done (ret : Int)
  deriving DecidableEq, Repr

/-- The local state of one `read_from_cbuf` call: program point, the locals `size` and `i`, the
caller's variable `*bestSolution`, what was printed, and the semaphore calls that went through. -/
structure Reader where
  pc : RPc
  size : Int
  i : Nat
  bestSolution : Int
  out : List Output
  log : List SemOp
  deriving DecidableEq, Repr

/-- The state of a call at entry, with the caller's `bestSolution`. -/
def Reader.init (best : Int) : Reader :=
  { pc := .used0, size := 0, i := 0, bestSolution := best, out := [], log := [] }

/-- The test of the draining loop of line 363; after the loop the call returns 0 (line 384). -/
def Reader.drainPc (size : Int) (i : Nat) : RPc :=
  if (i : Int) < size then .dUsedA else .done 0

/-- The test of the printing loop of line 389. -/
def Reader.printPc (size : Int) (i : Nat) : RPc :=
  if (i : Int) < size then .pUsedA else .done 0

/-- What is printed when the printing loop is left (line 413). -/
def Reader.printEnd (size : Int) (i : Nat) : List Output :=
  if (i : Int) < size then [] else [.newline]

/-- One step of `read_from_cbuf`. -/
def read_step (C : Nat) (err : Bool) (sh : Shared) (r : Reader) : Option (Shared × Reader) :=
  match r.pc with
  | .used0 =>
    if err then some (sh, { r with pc := .done EXIT_FAILURE })
    else (sem_wait sh.sems .used).map fun s =>
      ({ sh with sems := s }, { r with pc := .size, log := r.log ++ [.wait .used] })
  | .size =>
    some (sh, { r with pc := .free0, size := sh.cbuf.data (Int.tmod sh.cbuf.tail C) })
  | .free0 =>
    if err then some (sh, { r with pc := .done (-1) })
    else
      let sh' : Shared := { sh with sems := sem_post sh.sems .free }
      let log := r.log ++ [.post .free]
      if r.size = 0 then
        some (sh', { r with pc := .done 0, bestSolution := 0, out := r.out ++ [.colorable],
                            log := log })
      else if r.size < r.bestSolution then
        some (sh', { r with pc := .tail1, bestSolution := r.size,
                            out := r.out ++ [.solution r.size], log := log })
      else some (sh', { r with pc := .skip, log := log })
  | .skip =>
    some ({ sh with cbuf := { sh.cbuf with tail := sh.cbuf.tail + (r.size * 2 + 1) } },
          { r with pc := Reader.drainPc r.size 0, i := 0 })
  | .dUsedA =>
    if err then some (sh, { r with pc := .done EXIT_FAILURE })
    else (sem_wait sh.sems .used).map fun s =>
      ({ sh with sems := s }, { r with pc := .dUsedB, log := r.log ++ [.wait .used] })
  | .dUsedB =>
    if err then some (sh, { r with pc := .done EXIT_FAILURE })
    else (sem_wait sh.sems .used).map fun s =>
      ({ sh with sems := s }, { r with pc := .dFreeA, log := r.log ++ [.wait .used] })
  | .dFreeA =>
    if err then some (sh, { r with pc := .done (-1) })
    else some ({ sh with sems := sem_post sh.sems .free },
               { r with pc := .dFreeB, log := r.log ++ [.post .free] })
  | .dFreeB =>
    if err then some (sh, { r with pc := .done (-1) })
    else some ({ sh with sems := sem_post sh.sems .free },
               { r with pc := Reader.drainPc r.size (r.i + 1), i := r.i + 1,
                        log := r.log ++ [.post .free] })
  | .tail1 =>
    some ({ sh with cbuf := { sh.cbuf with tail := sh.cbuf.tail + 1 } },
          { r with pc := Reader.printPc r.size 0, i := 0,
                   out := r.out ++ Reader.printEnd r.size 0 })
  | .pUsedA =>
    if err then some (sh, { r with pc := .done EXIT_FAILURE })
    else (sem_wait sh.sems .used).map fun s =>
      ({ sh with sems := s }, { r with pc := .pUsedB, log := r.log ++ [.wait .used] })
  | .pUsedB =>
    if err then some (sh, { r with pc := .done EXIT_FAILURE })
    else (sem_wait sh.sems .used).map fun s =>
      ({ sh with sems := s }, { r with pc := .pRead, log := r.log ++ [.wait .used] })
  | .pRead =>
    some ({ sh with cbuf := { sh.cbuf with tail := sh.cbuf.tail + 2 } },
          { r with pc := .pFreeA,
                   out := r.out ++ [.pair (sh.cbuf.data (Int.tmod sh.cbuf.tail C))
                                          (sh.cbuf.data (Int.tmod (sh.cbuf.tail + 1) C))] })
  | .pFreeA =>
    if err then some (sh, { r with pc := .done (-1) })
    else some ({ sh with sems := sem_post sh.sems .free },
               { r with pc := .pFreeB, log := r.log ++ [.post .free] })
  | .pFreeB =>
    if err then some (sh, { r with pc := .done (-1) })
    else some ({ sh with sems := sem_post sh.sems .free },
               { r with pc := Reader.printPc r.size (r.i + 1), i := r.i + 1,
                        out := r.out ++ Reader.printEnd r.size (r.i + 1),
                        log := r.log ++ [.post .free] })
  | .done _ => none

/-- The reader running alone for at most `fuel` steps (see `runWriter`). -/
def runReader (C : Nat) : Nat → List Bool → Shared × Reader → Shared × Reader
  | 0, _, s => s
  | fuel + 1, errs, s =>
    match read_step C (errs.headD false) s.1 s.2 with
    | none => s
    | some s' => runReader C fuel errs.tail s'

/-- The value returned by the call, once it has returned. -/
def Reader.ret (r : Reader) : Option Int :=
  match r.pc with
  | .done v => some v
  | _ => none

/-! ## Sequential runs: auxiliary definitions -/

/-- The data after `removeEdges[lo], ..., removeEdges[lo+k-1]` were stored at the cursor
positions `base+lo, ..., base+lo+k-1`. -/
def storeCells (C : Nat) (removeEdges : List Int) (base : Int) (d : Int → Int) (lo : Nat) :
    Nat → Int → Int
  | 0 => d
  | k + 1 =>
    Function.update (storeCells C removeEdges base d lo k)
      (Int.tmod (base + ((lo + k : Nat) : Int)) C) (removeEdges.getD (lo + k) 0)

/-- The semaphore calls of `k` rounds of a loop, each round making the calls `block`. -/
def rounds (block : List SemOp) : Nat → List SemOp
  | 0 => []
  | k + 1 => rounds block k ++ block

/-- The semaphore calls of one pair in `write_to_cbuf`. -/
def writePairOps : List SemOp := [.wait .free, .post .used, .wait .free, .post .used]

/-- The call `write_to_cbuf(cbuf, removeEdges, sems)` entered in the shared state `sh` and run
without a step of any other process in between, for at most `fuel` steps. -/
def write_to_cbuf (C : Nat) (removeEdges : List Int) (fuel : Nat) (errs : List Bool)
    (sh : Shared) : Shared × Writer :=
  runWriter C removeEdges fuel errs (sh, Writer.init)

/-- The semaphore calls of a complete `write_to_cbuf` of a record with `n` pairs. -/
def writeOps (n : Nat) : List SemOp :=
  [.wait .mutex, .wait .free, .post .used] ++ rounds writePairOps n ++ [.post .mutex]

/-- The shared state after a successful `create_cbuffer_server` that created fresh objects
(lines 25-67): the region is zero-filled by `ftruncate`, head and tail are 0, stop is false, and
the semaphores start at `BLOCK_SIZE`, 0 and 1. -/
def create_cbuffer_server (C : Nat) : Shared :=
  ⟨⟨fun _ => 0, 0, 0, false⟩, ⟨C, 0, 1⟩⟩

/-- The call `read_from_cbuf(cbuf, &bestSolution, sems)` entered in the shared state `sh` with
`bestSolution = best` and run without a step of any other process in between, for at most `fuel`
steps. -/
def read_from_cbuf (C : Nat) (fuel : Nat) (errs : List Bool) (sh : Shared) (best : Int) :
    Shared × Reader :=
  runReader C fuel errs (sh, Reader.init best)

/-- The semaphore calls of one round of either loop of `read_from_cbuf`. -/
def readPairOps : List SemOp := [.wait .used, .wait .used, .post .free, .post .free]

/-- The semaphore calls of a complete `read_from_cbuf` of a record with `n` pairs. -/
def readOps (n : Nat) : List SemOp :=
  [.wait .used, .post .free] ++ rounds readPairOps n

/-- The pairs that the printing loop prints in its first `k` rounds when it starts with the
tail at `t + 1`: pair `i` is read from the cursor positions `t+1+2i` and `t+2+2i`. -/
def printedPairs (C : Nat) (d : Int → Int) (t : Int) (k : Nat) : List Output :=
  (List.range k).map fun i =>
    Output.pair (d (Int.tmod (t + 1 + 2 * (i : Int)) C)) (d (Int.tmod (t + 2 + 2 * (i : Int)) C))

/-- A well-formed record `[n, a1, b1, ..., an, bn]`: `2n+1` cells, the first of which is `n`. -/
@[reducible] def WellFormed (removeEdges : List Int) : Prop :=
  (removeEdges.length : Int) = 2 * removeEdges.getD 0 0 + 1

/-- The number of cells of a sequence of records. -/
def cells (recs : List (List Int)) : Nat := (recs.map List.length).sum

/-- The length cells of the records `recs` stand in the buffer where an undisturbed sequence of
reads starting with the tail at `t` looks for them: the first at cursor `t`, the next behind the
cells of the first, and so on. -/
def Laid (C : Nat) (d : Int → Int) : Int → List (List Int) → Prop
  | _, [] => True
  | t, removeEdges :: rest =>
    d (Int.tmod t C) = removeEdges.getD 0 0 ∧ Laid C d (t + removeEdges.length) rest

/-- The calls `write_to_cbuf` for the records of `recs`, one after the other, each run alone with
the given fuel: the last shared state and the final local state of every call. -/
def writeAll (C fuel : Nat) : List (List Int) → Shared → Shared × List Writer
  | [], sh => (sh, [])
  | removeEdges :: rest, sh =>
    ((writeAll C fuel rest (write_to_cbuf C removeEdges fuel [] sh).1).1,
     (write_to_cbuf C removeEdges fuel [] sh).2 ::
       (writeAll C fuel rest (write_to_cbuf C removeEdges fuel [] sh).1).2)

/-- The given number of calls of `read_from_cbuf`, one after the other, each run alone with the
given fuel and each handing its `bestSolution` to the next: the last shared state and the final
local state of every call. -/
def readAll (C fuel : Nat) : Nat → Shared → Int → Shared × List Reader
  | 0, sh, _ => (sh, [])
  | k + 1, sh, best =>
    ((readAll C fuel k (read_from_cbuf C fuel [] sh best).1
        (read_from_cbuf C fuel [] sh best).2.bestSolution).1,
     (read_from_cbuf C fuel [] sh best).2 ::
       (readAll C fuel k (read_from_cbuf C fuel [] sh best).1
        (read_from_cbuf C fuel [] sh best).2.bestSolution).2)

/-- How often the semaphore call `op` occurs in the given logs. -/
def countOps (op : SemOp) (logs : List (List SemOp)) : Nat :=
  (logs.map (List.count op)).sum

/-- The values of best after each read of records with the sizes `ns`, when every size is
positive: the running minimum. -/
def runningMin : Int → List Int → List Int
  | _, [] => []
  | b, n :: ns => min b n :: runningMin (min b n) ns

/-! ## The consumer loop of `supervisor` (supervisor.c, lines 90-113) -/

/-- The state of the consumer loop: the shared state, the locals `bestSolution`, `readCount`
and `solutionFound` (lines 90-92), and the final local state of every `read_from_cbuf` call made
so far. -/
structure Supervisor where
  sh : Shared
  bestSolution : Int
  readCount : Int
  solutionFound : Int
  reads : List Reader

/-- The state in which `supervisor` enters its loop (lines 90-92). -/
def Supervisor.init (sh : Shared) : Supervisor :=
  { sh := sh, bestSolution := 100000, readCount := 0, solutionFound := 0, reads := [] }

/-- How a run of the consumer loop ends. -/
inductive LoopEnd where
  | signal    -- 93   the test `stop == 0` fails: SIGINT or SIGTERM was handled
  | failed    -- 97-102  read_from_cbuf returned -1: return EXIT_FAILURE
  | terminal  -- 107-108  bestSolution == 0: break
  | limit     -- 109-110  readCount >= limit && limit != -1: break
  | blocked   -- the read in progress waits in sem_wait
  | more      -- the loop goes on: the given number of iterations is used up
  deriving DecidableEq, Repr

/-- The loop of lines 93-113, for at most the given number of iterations.  `sigs` says for each
test of line 93 in turn whether the signal flag is set, `errs` gives for each read the failures
of its semaphore calls, and `fuel` bounds the steps of each read. -/
def supervisor_loop (C fuel : Nat) (limit : Int) :
    Nat → List Bool → List (List Bool) → Supervisor → Supervisor × LoopEnd
  | 0, _, _, s => (s, .more)
  | k + 1, sigs, errs, s =>
    if sigs.headD false then (s, .signal)
    else
      match (read_from_cbuf C fuel (errs.headD []) s.sh s.bestSolution).2.ret with
      | none =>
        ({ s with sh := (read_from_cbuf C fuel (errs.headD []) s.sh s.bestSolution).1,
                  reads := s.reads ++
                    [(read_from_cbuf C fuel (errs.headD []) s.sh s.bestSolution).2] },
         .blocked)
      | some v =>
        if v = -1 then
          ({ s with sh := (read_from_cbuf C fuel (errs.headD []) s.sh s.bestSolution).1,
                    bestSolution :=
                      (read_from_cbuf C fuel (errs.headD []) s.sh s.bestSolution).2.bestSolution,
                    reads := s.reads ++
                      [(read_from_cbuf C fuel (errs.headD []) s.sh s.bestSolution).2] },
           .failed)
        else if (read_from_cbuf C fuel (errs.headD []) s.sh s.bestSolution).2.bestSolution = 0 then
          ({ sh := (read_from_cbuf C fuel (errs.headD []) s.sh s.bestSolution).1,
             bestSolution := 0,
             readCount := s.readCount + 1,
             solutionFound := 1,
             reads := s.reads ++
               [(read_from_cbuf C fuel (errs.headD []) s.sh s.bestSolution).2] },
           .terminal)
        else if s.readCount + 1 ≥ limit ∧ limit ≠ -1 then
          ({ sh := (read_from_cbuf C fuel (errs.headD []) s.sh s.bestSolution).1,
             bestSolution :=
               (read_from_cbuf C fuel (errs.headD []) s.sh s.bestSolution).2.bestSolution,
             readCount := s.readCount + 1,
             solutionFound := 1,
             reads := s.reads ++
               [(read_from_cbuf C fuel (errs.headD []) s.sh s.bestSolution).2] },
           .limit)
        else
          supervisor_loop C fuel limit k sigs.tail errs.tail
            { sh := (read_from_cbuf C fuel (errs.headD []) s.sh s.bestSolution).1,
              bestSolution :=
                (read_from_cbuf C fuel (errs.headD []) s.sh s.bestSolution).2.bestSolution,
              readCount := s.readCount + 1,
              solutionFound := 1,
              reads := s.reads ++
                [(read_from_cbuf C fuel (errs.headD []) s.sh s.bestSolution).2] }

/-- The assignment `cb->stop = true` of the supervisor (supervisor.c, line 121). -/
def set_stop (sh : Shared) : Shared :=
  { sh with cbuf := { sh.cbuf with stop := true } }

/-- The local states that a `write_to_cbuf` call on the record `removeEdges` can be in, whatever
the other processes do in between: every step of the call starts in some shared state and with
some outcome of its semaphore call. -/
inductive WReach (C : Nat) (removeEdges : List Int) : Writer → Prop where
  | entry : WReach C removeEdges Writer.init
  | step (err : Bool) (sh sh' : Shared) (w w' : Writer) :
      WReach C removeEdges w → write_step C removeEdges err sh w = some (sh', w') →
      WReach C removeEdges w'

/-- The number of free credits that a call has taken and not yet turned into a used credit, as
far as the program point tells: 1 between a wait on free and the post on used that follows. -/
def WPc.pending : WPc → Option Nat
  | .lock | .stop0 | .free0 | .freeA | .freeB | .unlock | .errA | .errB => some 0
  | .stop1 | .len | .used0 | .stop2 | .cellA | .usedA | .cellB | .usedB => some 1
  | .abort | .done _ => none

/-- A run in which stop is set while a producer is inside `write_to_cbuf`: on a fresh buffer the
producer writes the record `first` completely and runs in the call for `second` until it can go
no further; the consumer makes one read and sets stop; the producer runs on.  The result is the
state when the producer stood still and the state at the end. -/
def stopWhileWaiting (C : Nat) (first second : List Int) :
    (Shared × Writer) × (Shared × Writer) :=
  (runWriter C second 100 []
     ((write_to_cbuf C first 100 [] (create_cbuffer_server C)).1, Writer.init),
   runWriter C second 100 []
     (set_stop (read_from_cbuf C 100 []
        (runWriter C second 100 []
          ((write_to_cbuf C first 100 [] (create_cbuffer_server C)).1, Writer.init)).1
        100000).1,
      (runWriter C second 100 []
        ((write_to_cbuf C first 100 [] (create_cbuffer_server C)).1, Writer.init)).2))

/-! ## One producer and the consumer, interleaved -/

/-- The system of one `write_to_cbuf` call and one `read_from_cbuf` call on the same buffer. -/
structure Sys where
  sh : Shared
  w : Writer
  r : Reader

/-- One step of the system: the producer moves (`true`) or the consumer moves (`false`), with no
failing semaphore call; `none` when the chosen process cannot move. -/
def sys_step (C : Nat) (removeEdges : List Int) (producer : Bool) (s : Sys) : Option Sys :=
  if producer then
    (write_step C removeEdges false s.sh s.w).map fun p => { s with sh := p.1, w := p.2 }
  else
    (read_step C false s.sh s.r).map fun p => { s with sh := p.1, r := p.2 }

/-- An interleaved execution: the schedule says who makes each step; `none` when a process is
scheduled that cannot move. -/
def sys_run (C : Nat) (removeEdges : List Int) : List Bool → Sys → Option Sys
  | [], s => some s
  | producer :: rest, s => (sys_step C removeEdges producer s).bind (sys_run C removeEdges rest)

/-- The first `k` pairs of a record, as `read_from_cbuf` prints them. -/
def recPairs (removeEdges : List Int) (k : Nat) : List Output :=
  (List.range k).map fun j =>
    Output.pair (removeEdges.getD (2 * j + 1) 0) (removeEdges.getD (2 * j + 2) 0)

/-- The free credits the call has taken so far on the path without stop and errors. -/
def Writer.acquired (w : Writer) : Nat :=
  match w.pc with
  | .lock | .stop0 | .free0 => 0
  | .stop1 | .len | .used0 => 1
  | .stop2 | .cellA | .usedA | .freeB => w.i + 1
  | .cellB | .usedB => w.i + 2
  | _ => w.i

/-- The used credits the call has released so far on the path without stop and errors. -/
def Writer.released (w : Writer) : Nat :=
  match w.pc with
  | .lock | .stop0 | .free0 | .stop1 | .len | .used0 => 0
  | .freeB | .cellB | .usedB => w.i + 1
  | _ => w.i

/-- The cells the call has stored so far on the path without stop and errors. -/
def Writer.stored (w : Writer) : Nat :=
  match w.pc with
  | .lock | .stop0 | .free0 | .stop1 | .len => 0
  | .used0 => 1
  | .usedA | .freeB | .cellB => w.i + 1
  | .usedB => w.i + 2
  | _ => w.i

/-- The head, for a call that began with head 0, on the path without stop and errors. -/
def Writer.headAt (w : Writer) : Nat :=
  match w.pc with
  | .lock | .stop0 | .free0 | .stop1 | .len => 0
  | .used0 => 1
  | .usedB => w.i + 2
  | _ => w.i

/-- The value of the mutex while the only producer is at this program point. -/
def Writer.mutexAt (w : Writer) : Nat :=
  match w.pc with
  | .lock | .done _ => 1
  | _ => 0

/-- The local states of the producer on the path without stop and errors, for a record with
`n` pairs. -/
def Writer.Ok (n : Nat) (w : Writer) : Prop :=
  match w.pc with
  | .lock | .stop0 => True
  | .free0 | .stop1 | .len | .used0 => w.edgeCount = n
  | .freeA | .stop2 | .cellA | .usedA | .freeB | .cellB | .usedB =>
    w.edgeCount = n ∧ w.i % 2 = 1 ∧ w.i < 2 * n + 1
  | .unlock => w.i = 2 * n + 1
  | .done v => v = 1 ∧ w.i = 2 * n + 1
  | _ => False

/-- The used credits the read has taken so far on the improving path. -/
def Reader.acquired (r : Reader) : Nat :=
  match r.pc with
  | .used0 => 0
  | .size | .free0 | .tail1 => 1
  | .pUsedB => 2 * r.i + 2
  | .pRead | .pFreeA | .pFreeB => 2 * r.i + 3
  | _ => 2 * r.i + 1

/-- The free credits the read has released so far on the improving path. -/
def Reader.released (r : Reader) : Nat :=
  match r.pc with
  | .used0 | .size | .free0 => 0
  | .tail1 => 1
  | .pFreeB => 2 * r.i + 2
  | _ => 2 * r.i + 1

/-- The tail, for a read that began with tail 0, on the improving path. -/
def Reader.tailAt (r : Reader) : Nat :=
  match r.pc with
  | .used0 | .size | .free0 | .tail1 => 0
  | .pFreeA | .pFreeB => 2 * r.i + 3
  | _ => 2 * r.i + 1

/-- The local states of the consumer on the improving path, reading the record `removeEdges`
with `n` pairs after it was called with `bestSolution = best`. -/
def Reader.Ok (n : Nat) (removeEdges : List Int) (best : Int) (r : Reader) : Prop :=
  match r.pc with
  | .used0 | .size => r.bestSolution = best ∧ r.out = []
  | .free0 => r.bestSolution = best ∧ r.out = [] ∧ r.size = n
  | .tail1 => r.size = n ∧ r.bestSolution = n ∧ r.out = [.solution n]
  | .pUsedA | .pUsedB | .pRead =>
    r.size = n ∧ r.bestSolution = n ∧ r.i < n ∧
      r.out = [.solution n] ++ recPairs removeEdges r.i
  | .pFreeA | .pFreeB =>
    r.size = n ∧ r.bestSolution = n ∧ r.i < n ∧
      r.out = [.solution n] ++ recPairs removeEdges (r.i + 1)
  | .done v =>
    v = 0 ∧ r.i = n ∧ r.bestSolution = n ∧
      r.out = [.solution n] ++ recPairs removeEdges n ++ [.newline]
  | _ => False

/-- The invariant of the interleaved executions of one write and one read that start on a fresh
buffer: the semaphore values account for the credits taken and released, the cursors are where
the program points say, and every cell stored and not yet released by the reader holds the cell
of the record. -/
def Sys.Inv (C n : Nat) (removeEdges : List Int) (best : Int) (s : Sys) : Prop :=
  s.w.Ok n ∧ s.r.Ok n removeEdges best ∧
  s.sh.sems.sem_free + s.w.acquired = C + s.r.released ∧
  s.sh.sems.sem_used + s.r.acquired = s.w.released ∧
  s.sh.sems.sem_mutex = s.w.mutexAt ∧
  s.sh.cbuf.head = s.w.headAt ∧
  s.sh.cbuf.tail = s.r.tailAt ∧
  s.sh.cbuf.stop = false ∧
  ∀ j : Nat, s.r.released ≤ j → j < s.w.stored →
    s.sh.cbuf.data (Int.tmod j C) = removeEdges.getD j 0

/-- The number of steps the call has made so far on the path without stop and errors. -/
def Writer.pos (w : Writer) : Nat :=
  match w.pc with
  | .lock => 0
  | .stop0 => 1
  | .free0 => 2
  | .stop1 => 3
  | .len => 4
  | .used0 => 5
  | .freeA => 6 + 7 * (w.i / 2)
  | .stop2 => 7 + 7 * (w.i / 2)
  | .cellA => 8 + 7 * (w.i / 2)
  | .usedA => 9 + 7 * (w.i / 2)
  | .freeB => 10 + 7 * (w.i / 2)
  | .cellB => 11 + 7 * (w.i / 2)
  | .usedB => 12 + 7 * (w.i / 2)
  | .unlock => 6 + 7 * (w.i / 2)
  | _ => 7 + 7 * (w.i / 2)

/-- The number of steps the read has made so far on the improving path. -/
def Reader.pos (r : Reader) : Nat :=
  match r.pc with
  | .used0 => 0
  | .size => 1
  | .free0 => 2
  | .tail1 => 3
  | .pUsedA => 4 + 5 * r.i
  | .pUsedB => 5 + 5 * r.i
  | .pRead => 6 + 5 * r.i
  | .pFreeA => 7 + 5 * r.i
  | .pFreeB => 8 + 5 * r.i
  | _ => 4 + 5 * r.i

/-! ## create_cbuffer_server on the named objects of the system (cbuffer.c, lines 24-90) -/

/-- The named objects that the buffer lives in, as the operating system holds them before a
call of `create_cbuffer_server`: the shared memory object `SHM_NAME` with its content, and the
three named semaphores with their values; `none` where no object of that name exists. -/
structure Objects where
  shm : Option circularBuffer
  sem_free : Option Nat
  sem_used : Option Nat
  sem_mutex : Option Nat

/-- Which of the system calls of `create_cbuffer_server` report an error. -/
structure CreateErrors where
  shm_open : Bool
  ftruncate : Bool
  mmap : Bool
  sem_open_free : Bool
  sem_open_used : Bool
  sem_open_mutex : Bool

/-- No system call fails. -/
def CreateErrors.noErrors : CreateErrors := ⟨false, false, false, false, false, false⟩

/-- The value of the semaphore that `sem_open(name, O_CREAT, 0600, value)` returns: a semaphore
that exists under the name is opened as it is, otherwise one is created with `value`. -/
def sem_open (existing : Option Nat) (value : Nat) : Nat :=
  match existing with
  | some v => v
  | none => value

/-- The region that `shm_open(SHM_NAME, O_RDWR | O_CREAT)`, `ftruncate` and `mmap` give (lines
25-38): the content of the object that exists, or a zero-filled region. -/
def shm_region (existing : Option circularBuffer) : circularBuffer :=
  match existing with
  | some cb => cb
  | none => ⟨fun _ => 0, 0, 0, false⟩

/-- The function `create_cbuffer_server`: `none` is the return value `NULL`. -/
def Objects.create_cbuffer_server (os : Objects) (errs : CreateErrors) : Option Shared :=
  if errs.shm_open then none                                   -- 26-29
  else if errs.ftruncate then none                             -- 31-34
  else if errs.mmap then none                                  -- 38-41
  else
    let myshm : circularBuffer :=
      { shm_region os.shm with head := 0, tail := 0, stop := false }   -- 43-45
    if errs.sem_open_free then none                            -- 47-53
    else if errs.sem_open_used then none                       -- 54-66
    else if errs.sem_open_mutex then none                      -- 67-87
    else
      some ⟨myshm, ⟨sem_open os.sem_free BLOCK_SIZE, sem_open os.sem_used 0,
                     sem_open os.sem_mutex 1⟩⟩

/-! ## The producer loop of the generator (generator.c, lines 381-407) -/

/-- The constant `MAXREMOVEDEDGES` of generator.c. -/
def MAXREMOVEDEDGES : Int := 8

/-- The state of the producer loop: the shared state and the final local state of every
`write_to_cbuf` call made so far. -/
structure Generator where
  sh : Shared
  writes : List Writer

/-- How a run of the producer loop ends. -/
inductive GenEnd where
  | stopped   -- 381  the test `!cb->stop` fails: cleanup, return EXIT_SUCCESS
  | failed    -- 395-403  write_to_cbuf returned -1: exit(EXIT_FAILURE)
  | blocked   -- the write in progress waits in sem_wait
  | more      -- the loop goes on: the given iterations are used up
  deriving DecidableEq, Repr

/-- The loop of lines 381-407, the generator running alone.  Each element of the first list is
the `buffer` that `colorGraph` and `getRemoveEdges` produce in one iteration (`getRemoveEdges`
always returns 0, so the exit of lines 384-392 is never taken); `errs` gives for each
`write_to_cbuf` call the failures of its semaphore calls, and `fuel` bounds the steps of each
call. -/
def generator_loop (C fuel : Nat) :
    List (List Int) → List (List Bool) → Generator → Generator × GenEnd
  | [], _, g => (g, .more)
  | buffer :: rest, errs, g =>
    if g.sh.cbuf.stop then (g, .stopped)                                     -- 381
    else if buffer.getD 0 0 > MAXREMOVEDEDGES then                           -- 393-394
      generator_loop C fuel rest errs g
    else
      match (write_to_cbuf C buffer fuel (errs.headD []) g.sh).2.ret with    -- 395
      | none =>
        (⟨(write_to_cbuf C buffer fuel (errs.headD []) g.sh).1,
          g.writes ++ [(write_to_cbuf C buffer fuel (errs.headD []) g.sh).2]⟩, .blocked)
      | some v =>
        if v = -1 then
          (⟨(write_to_cbuf C buffer fuel (errs.headD []) g.sh).1,
            g.writes ++ [(write_to_cbuf C buffer fuel (errs.headD []) g.sh).2]⟩, .failed)
        else
          generator_loop C fuel rest errs.tail
            ⟨(write_to_cbuf C buffer fuel (errs.headD []) g.sh).1,
             g.writes ++ [(write_to_cbuf C buffer fuel (errs.headD []) g.sh).2]⟩

/-! ## The function supervisor (supervisor.c, lines 73-127) -/

/-- What `supervisor` does outside its loop, in the order in which it happens. -/
inductive Action where
  | close                 -- 84, 99, 122  close_cbuff_server(shmfd, cb, &sems)
  | noSolution            -- 115  prints "No solution found! Please check if you start generators"
  | best (size : Int)     -- 119  prints "... best solution removes %d edges."
  | setStop               -- 121  cb->stop = true
  deriving DecidableEq, Repr

/-- The function `supervisor(limit, delay)` from the return of `create_cbuffer_server` on:
`created` is the buffer that call returned (`none` for `NULL`), `closeFails` says whether
`close_cbuff_server` reports an error, the other arguments are those of `supervisor_loop`.  The
result is the return value and the actions outside the loop; `none` when the loop has not ended
within `iters` iterations or its read is blocked. -/
def supervisor (C fuel : Nat) (limit : Int) (iters : Nat) (sigs : List Bool)
    (errs : List (List Bool)) (closeFails : Bool) (created : Option Shared) :
    Option (Int × List Action) :=
  match created with
  | none => some (EXIT_FAILURE, [.close])                                      -- 82-88
  | some sh =>
    match (supervisor_loop C fuel limit iters sigs errs (Supervisor.init sh)).2 with
    | .blocked => none
    | .more => none
    | .failed => some (EXIT_FAILURE, [.close])                                 -- 97-102
    | _ =>
      if (supervisor_loop C fuel limit iters sigs errs (Supervisor.init sh)).1.solutionFound
          = 0 then
        some (EXIT_SUCCESS, [.noSolution])                                     -- 114-117
      else
        some (if closeFails then EXIT_FAILURE else EXIT_SUCCESS,               -- 122-126
              (if (supervisor_loop C fuel limit iters sigs errs
                    (Supervisor.init sh)).1.bestSolution ≠ 0
               then [.best (supervisor_loop C fuel limit iters sigs errs
                      (Supervisor.init sh)).1.bestSolution]
               else []) ++ [.setStop, .close])                                 -- 118-122

/-! ## What a write_to_cbuf call has done, counted along its steps -/

/-- The number of cells that the step taken at a program point stores: the length cell at line
278, the first cell of a pair at line 304, the second at line 319. -/
def WPc.stores : WPc → Nat
  | .len | .cellA | .cellB => 1
  | _ => 0

/-- Whether the step taken at a program point makes a semaphore call. -/
def WPc.calls : WPc → Bool
  | .stop0 | .stop1 | .len | .stop2 | .cellA | .cellB | .done _ => false
  | _ => true

/-- What a call has done so far: the number of cells it has stored, the amount by which its own
steps have moved head, and whether a semaphore call of it has reported an error. -/
structure WDone where
  cells : Nat
  advance : Int
  failed : Bool
  deriving DecidableEq, Repr

/-- The local states of a `write_to_cbuf` call together with what the call has done, whatever the
other processes do in between its steps (see `WReach`): each step adds the cells it stores, the
change of head between the state it starts in and the state it leaves, and the failure of its
semaphore call. -/
inductive WCall (C : Nat) (removeEdges : List Int) : Writer → WDone → Prop where
  | entry : WCall C removeEdges Writer.init ⟨0, 0, false⟩
  | step (err : Bool) (sh sh' : Shared) (w w' : Writer) (g : WDone) :
      WCall C removeEdges w g → write_step C removeEdges err sh w = some (sh', w') →
      WCall C removeEdges w'
        ⟨g.cells + w.pc.stores, g.advance + (sh'.cbuf.head - sh.cbuf.head),
         g.failed || (err && w.pc.calls)⟩

/-- How far the cells stored and the advance of head are ahead of the used credits released, at
each program point of a call without a failed semaphore call. -/
def Writer.Counted (w : Writer) (g : WDone) : Prop :=
  g.failed = false →
    match w.pc with
    | .used0 | .usedB =>
      g.cells = List.count (SemOp.post .used) w.log + 1 ∧
      g.advance = List.count (SemOp.post .used) w.log + 1
    | .usedA =>
      g.cells = List.count (SemOp.post .used) w.log + 1 ∧
      g.advance = List.count (SemOp.post .used) w.log
    | .freeB | .cellB =>
      g.cells = List.count (SemOp.post .used) w.log ∧
      g.advance + 1 = List.count (SemOp.post .used) w.log
    | .errA | .errB => False
    | .done r =>
      (r = 1 ∨ r = 0) ∧
      g.cells = List.count (SemOp.post .used) w.log ∧
      g.advance = List.count (SemOp.post .used) w.log
    | _ =>
      g.cells = List.count (SemOp.post .used) w.log ∧
      g.advance = List.count (SemOp.post .used) w.log

/-! ## The states between calls -/

/-- The shared states at the boundaries between calls, each with the records that were written
and not yet read, oldest first: the state after `create_cbuffer_server`, and every state in which
a `write_to_cbuf` call of a well-formed record or a `read_from_cbuf` call that found a size other
than 0 has returned, the call having started at such a boundary and run without a failing
semaphore call (any fuel, any `bestSolution`). -/
inductive Boundary (C : Nat) : Shared → List (List Int) → Prop where
  | fresh : Boundary C (create_cbuffer_server C) []
  | write (sh : Shared) (q : List (List Int)) (removeEdges : List Int) (fuel : Nat) :
      Boundary C sh q → WellFormed removeEdges →
      (write_to_cbuf C removeEdges fuel [] sh).2.ret.isSome →
      Boundary C (write_to_cbuf C removeEdges fuel [] sh).1 (q ++ [removeEdges])
  | read (sh : Shared) (q : List (List Int)) (best : Int) (fuel : Nat) :
      Boundary C sh q →
      (read_from_cbuf C fuel [] sh best).2.ret.isSome →
      (read_from_cbuf C fuel [] sh best).2.size ≠ 0 →
      Boundary C (read_from_cbuf C fuel [] sh best).1 q.tail

/-- The invariant of the boundaries: the flags and cursors, the three semaphore values and the
place of the unread records. -/
def QueueInv (C : Nat) (sh : Shared) (q : List (List Int)) : Prop :=
  sh.cbuf.stop = false ∧ sh.sems.sem_mutex = 1 ∧ 0 ≤ sh.cbuf.tail ∧
  sh.cbuf.head = sh.cbuf.tail + cells q ∧
  sh.sems.sem_used = cells q ∧
  sh.sems.sem_free + cells q = C ∧
  Laid C sh.cbuf.data sh.cbuf.tail q ∧
  ∀ rec ∈ q, WellFormed rec

/-! ## One producer and the consumer on a buffer with room for the record: every path of the
read -/

/-- The used credits the read has taken so far, on every path without errors. -/
def Reader.taken (r : Reader) : Nat :=
  match r.pc with
  | .used0 => 0
  | .size | .free0 | .skip | .tail1 => 1
  | .dUsedB | .pUsedB => 2 * r.i + 2
  | .dFreeA | .dFreeB | .pRead | .pFreeA | .pFreeB => 2 * r.i + 3
  | _ => 2 * r.i + 1

/-- The free credits the read has released so far, on every path without errors. -/
def Reader.given (r : Reader) : Nat :=
  match r.pc with
  | .used0 | .size | .free0 => 0
  | .skip | .tail1 => 1
  | .dFreeB | .pFreeB => 2 * r.i + 2
  | _ => 2 * r.i + 1

/-- The local states of the consumer on its paths without errors, reading a record with `n`
pairs: the terminal path (`n = 0`), the printing path and the draining path. -/
def Reader.Fine (n : Nat) (r : Reader) : Prop :=
  match r.pc with
  | .used0 | .size => r.i = 0
  | .free0 => r.size = n ∧ r.i = 0
  | .skip | .tail1 => r.size = n ∧ 0 < n
  | .done v => v = 0 ∧ r.i = n
  | _ => r.size = n ∧ r.i < n

/-- The invariant of the interleaved executions of one write of a record with `n` pairs and one
read, called with any `bestSolution`, that start on a fresh buffer: the semaphore values account
for the credits taken and released, the read has not moved the tail before it has read the
size, and the length cell stays in slot 0 once it is stored. -/
def Sys.InvAll (C n : Nat) (s : Sys) : Prop :=
  s.w.Ok n ∧ s.r.Fine n ∧
  s.sh.sems.sem_free + s.w.acquired = C + s.r.given ∧
  s.sh.sems.sem_used + s.r.taken = s.w.released ∧
  s.sh.sems.sem_mutex = s.w.mutexAt ∧
  s.sh.cbuf.head = s.w.headAt ∧
  s.sh.cbuf.stop = false ∧
  ((s.r.pc = .used0 ∨ s.r.pc = .size) → s.sh.cbuf.tail = 0) ∧
  (1 ≤ s.w.stored → s.sh.cbuf.data (Int.tmod 0 C) = n)

/-! ## Moves of the shared state -/

/-- One move of the shared state after creation: a step of some `write_to_cbuf` call (of any
producer, on any record, with any outcome of its semaphore call), a step of some `read_from_cbuf`
call, or the assignment `cb->stop = true` of the supervisor (supervisor.c, line 121).  The
producer loop (generator.c, lines 381-407) and the consumer loop (supervisor.c, lines 93-113)
touch the shared state only through these calls; their own accesses are reads of stop. -/
inductive Move (C : Nat) : Shared → Shared → Prop where
  | write (removeEdges : List Int) (err : Bool) (sh sh' : Shared) (w w' : Writer) :
      write_step C removeEdges err sh w = some (sh', w') → Move C sh sh'
  | read (err : Bool) (sh sh' : Shared) (r r' : Reader) :
      read_step C err sh r = some (sh', r') → Move C sh sh'
  | stop (sh : Shared) : Move C sh (set_stop sh)

/-- Any number of moves, one after the other. -/
inductive Moves (C : Nat) : Shared → Shared → Prop where
  | none (sh : Shared) : Moves C sh sh
  | more (sh sh' sh'' : Shared) : Moves C sh sh' → Move C sh' sh'' → Moves C sh sh''

/-- What the program point of a call says about the number of cells it has stored so far: the
length cell and whole pairs, except between the two cells of a pair (lines 304-320); a call that
has seen stop, or has returned 0, has stored nothing or an odd number of cells below
`2 * removeEdges[0] + 1`. -/
def Writer.Whole (removeEdges : List Int) (w : Writer) (g : WDone) : Prop :=
  match w.pc with
  | .lock | .stop0 => g.cells = 0
  | .free0 | .stop1 | .len => g.cells = 0 ∧ w.edgeCount = removeEdges.getD 0 0
  | .used0 => g.cells = 1 ∧ w.edgeCount = removeEdges.getD 0 0
  | .freeA | .stop2 | .cellA =>
    g.cells = w.i ∧ w.edgeCount = removeEdges.getD 0 0 ∧
      w.i % 2 = 1 ∧ (w.i : Int) < w.edgeCount * 2 + 1
  | .usedA | .freeB | .cellB =>
    g.cells = w.i + 1 ∧ w.edgeCount = removeEdges.getD 0 0 ∧
      w.i % 2 = 1 ∧ (w.i : Int) < w.edgeCount * 2 + 1
  | .usedB =>
    g.cells = w.i + 2 ∧ w.edgeCount = removeEdges.getD 0 0 ∧
      w.i % 2 = 1 ∧ (w.i : Int) < w.edgeCount * 2 + 1
  | .abort =>
    g.cells = 0 ∨ (g.cells % 2 = 1 ∧ (g.cells : Int) < removeEdges.getD 0 0 * 2 + 1)
  | .done r =>
    r = 0 → (g.cells = 0 ∨ (g.cells % 2 = 1 ∧ (g.cells : Int) < removeEdges.getD 0 0 * 2 + 1))
  | _ => True

/-- The program points that a call reaches only without a failed semaphore call: all but the
error paths; a call that has returned 0 has had no failed semaphore call. -/
def Writer.Clean (w : Writer) (g : WDone) : Prop :=
  match w.pc with
  | .errA | .errB => True
  | .done r => r = 0 → g.failed = false
  | _ => g.failed = false

/-! ## The cursors as objects of type int -/

/-- The largest value of an `int` of 32 bits. -/
def INT_MAX : Int := 2147483647

/-- The smallest value of an `int` of 32 bits. -/
def INT_MIN : Int := -2147483648

/-- The value that an `int` object holds when the exact result `x` of a computation is stored
in it on a two's-complement machine: `x` itself when it is representable, `x` wrapped into the
range otherwise (what an overflowing `+=` leaves there; the C standard leaves it undefined). -/
def int32 (x : Int) : Int := (x + 2147483648) % 4294967296 - 2147483648

/-- The function `tolower` of ctype.h in the "C" locale, on character codes. -/
def tolower (c : Nat) : Nat := if 65 ≤ c ∧ c ≤ 90 then c + 32 else c

/-- The inner loop of lines 184-192, entered with `continueH` and `continueN`: whether
`*continueN == '\0'` holds when the loop is left (line 193).  `none` stands for a `continueH++`
that would move past the terminator of the haystack. -/
def strcasestr_inner : List Nat → List Nat → Option Bool
  | _, [] => some true
  | [], n :: _ => if tolower 0 ≠ tolower n then some false else none
  | h :: hs, n :: ns => if tolower h ≠ tolower n then some false else strcasestr_inner hs ns

/-- The outer loop of lines 179-198 with `haystack` standing `k` characters behind the start:
the offset of the position that `res` points to, or `none` for `NULL`; the outer `none` is
passed on from the inner loop. -/
def strcasestr_outer : Nat → List Nat → List Nat → Option (Option Nat)
  | _, [], _ => some none
  | k, h :: hs, needle =>
    if tolower h = tolower (needle.headD 0) then
      match strcasestr_inner (h :: hs) needle with
      | none => none
      | some true => some (some k)
      | some false => strcasestr_outer (k + 1) hs needle
    else strcasestr_outer (k + 1) hs needle

/-- The function `strcasestr(haystack, needle)`: the offset in the haystack of the pointer
returned, `none` for `NULL`. -/
def strcasestr (haystack needle : List Nat) : Option (Option Nat) :=
  match needle with
  | [] => some (some 0)                                  -- 174
  | _ :: _ => strcasestr_outer 0 haystack needle

/-- The needle stands in the haystack at offset `k` when both are compared character by
character after `tolower`. -/
def FoldedMatchAt (haystack needle : List Nat) (k : Nat) : Prop :=
  k + needle.length ≤ haystack.length ∧
  ((haystack.drop k).take needle.length).map tolower = needle.map tolower

/-! ## getRemoveEdges (2-3coloring-Lutu/generator.c, lines 137-166) -/

/-- The struct `Graph`: `matrix` is the adjacency matrix, and each colour array with its size
is the list of its vertices. -/
structure Graph where
  V : Nat
  E : Int
  matrix : Nat → Nat → Int
  red : List Nat
  green : List Nat
  blue : List Nat

/-- The inner loop of `getRemoveEdgesColor` (lines 139-147) for one `i`: `node1` is `color[i]`
and the list holds `color[i+1], ..., color[colorSize-1]`.  The state is the array that the
parameter `buffer` points to and `*count`. -/
def getRemoveEdgesInner (matrix : Nat → Nat → Int) (node1 : Nat) :
    List Nat → (Nat → Int) × Nat → (Nat → Int) × Nat
  | [], s => s
  | node2 :: rest, s =>
    getRemoveEdgesInner matrix node1 rest
      (if matrix node1 node2 = 1 then
        (Function.update (Function.update s.1 s.2 (node1 : Int)) (s.2 + 1) (node2 : Int),
         s.2 + 2)
       else s)

/-- The function `getRemoveEdgesColor`: the outer loop of line 138 over the colour array. -/
def getRemoveEdgesColor (matrix : Nat → Nat → Int) :
    List Nat → (Nat → Int) × Nat → (Nat → Int) × Nat
  | [], s => s
  | node1 :: rest, s =>
    getRemoveEdgesColor matrix rest (getRemoveEdgesInner matrix node1 rest s)

/-- The function `getRemoveEdges`: the content of the array `buffer` after the call.  The three
calls get the pointer `buffer+1` and share `size`, which starts at 0 (lines 160-163); line 164
stores `size/2` in `buffer[0]`. -/
def getRemoveEdges (g : Graph) (buffer : Nat → Int) : Nat → Int :=
  fun k =>
    if k = 0 then
      (((getRemoveEdgesColor g.matrix g.blue
          (getRemoveEdgesColor g.matrix g.green
            (getRemoveEdgesColor g.matrix g.red (fun j => buffer (j + 1), 0)))).2 / 2 : Nat) : Int)
    else
      (getRemoveEdgesColor g.matrix g.blue
        (getRemoveEdgesColor g.matrix g.green
          (getRemoveEdgesColor g.matrix g.red (fun j => buffer (j + 1), 0)))).1 (k - 1)

/-- The vertices `u` and `v` are in the same colour list. -/
def Graph.sameColour (g : Graph) (u v : Nat) : Prop :=
  (u ∈ g.red ∧ v ∈ g.red) ∨ (u ∈ g.green ∧ v ∈ g.green) ∨ (u ∈ g.blue ∧ v ∈ g.blue)

instance (g : Graph) (u v : Nat) : Decidable (g.sameColour u v) := by
  unfold Graph.sameColour
  infer_instance

/-- The edges `{u, v}`, `u != v`, of the graph whose two endpoints are in the same colour list,
each given once as the pair with `u < v`. -/
def Graph.conflictEdges (g : Graph) : Finset (Nat × Nat) :=
  (Finset.range g.V ×ˢ Finset.range g.V).filter
    (fun p => p.1 < p.2 ∧ g.sameColour p.1 p.2 ∧ g.matrix p.1 p.2 = 1)

/-- The edges between different vertices that the adjacency matrix holds, each given once as
the pair with `u < v`. -/
def Graph.edges (g : Graph) : Finset (Nat × Nat) :=
  (Finset.range g.V ×ˢ Finset.range g.V).filter
    (fun p => p.1 < p.2 ∧ (g.matrix p.1 p.2 = 1 ∨ g.matrix p.2 p.1 = 1))

/-- The pairs that the inner loops find in one colour list, in the order in which they are
found. -/
def foundPairs (matrix : Nat → Nat → Int) : List Nat → List (Nat × Nat)
  | [] => []
  | node1 :: rest =>
    (rest.filter (fun node2 => matrix node1 node2 = 1)).map (fun node2 => (node1, node2)) ++
      foundPairs matrix rest

/-- The cells of a list of pairs. -/
def pairCells (ps : List (Nat × Nat)) : List Int :=
  ps.flatMap (fun p => [(p.1 : Int), (p.2 : Int)])

/-- The array `buf` with the cells `cells` stored from index `c` on. -/
def storeFrom (buf : Nat → Int) (c : Nat) (cells : List Int) : Nat → Int :=
  fun k => if c ≤ k ∧ k < c + cells.length then cells.getD (k - c) 0 else buf k

/-- The pair `{u, v}` with the smaller vertex first. -/
def ordered (p : Nat × Nat) : Nat × Nat := (min p.1 p.2, max p.1 p.2)

/-- The pairs that `getRemoveEdges` finds, in the order of the three calls. -/
def Graph.found (g : Graph) : List (Nat × Nat) :=
  foundPairs g.matrix g.red ++ foundPairs g.matrix g.green ++ foundPairs g.matrix g.blue

/-- The edge that the pair of cells number `k` of a record holds, the smaller vertex first;
the pair stands in the cells `2k+1` and `2k+2`. -/
def recordEdge (buffer : Nat → Int) (k : Nat) : Nat × Nat :=
  ordered ((buffer (2 * k + 1)).toNat, (buffer (2 * k + 2)).toNat)

/-- A triangle on the vertices 0, 1, 2 in which 0 and 1 are red and 2 is green: the one edge
with both endpoints of the same colour is the edge 0-1. -/
def triangle : Graph where
  V := 3
  E := 3
  matrix := fun u v => if u ≠ v ∧ u < 3 ∧ v < 3 then 1 else 0
  red := [0, 1]
  green := [2]
  blue := []

/-! ## Any number of producers and the consumer, interleaved -/

/-- The system of the producers and the consumer on one buffer.  Producer `i` is in a
`write_to_cbuf` call at the local state `ws i`, the consumer in the `read_from_cbuf` call `r`
of its loop, and `reads` holds the final local states of the calls of the consumer that have
returned.  A process that makes several `write_to_cbuf` calls one after the other is
represented by several producers, the steps of a later call being scheduled after the earlier
call has returned.  Two logs only record what happened: `order` lists the producers in the
order in which their `sem_wait(sem_mutex)` of line 243 went through, and `stores` lists every
store to `data` in the order of the stores, as the index and the value stored. -/
structure Net where
  sh : Shared
  ws : Nat → Writer
  r : Reader
  reads : List Reader
  order : List Nat
  stores : List (Int × Int)

/-- The initial state: the fresh buffer, every producer at the entry of its call, and the
consumer at the entry of its first call with `bestSolution = best`. -/
def Net.init (C : Nat) (best : Int) : Net :=
  { sh := create_cbuffer_server C, ws := fun _ => Writer.init, r := Reader.init best,
    reads := [], order := [], stores := [] }

/-- The number of pairs of a record, from its length cell. -/
def pairsOf (removeEdges : List Int) : Nat := (removeEdges.getD 0 0).toNat

/-- The sum of a count over the producers. -/
def Net.total (f : Writer → Nat) (N : Nat) (s : Net) : Nat :=
  Finset.sum (Finset.range N) fun i => f (s.ws i)

/-- The cells that the producers listed in `order` have stored, in this order, when producer
`j` has stored the first `st j` cells of its record. -/
def laidOf (recs : List (List Int)) (st : Nat → Nat) (order : List Nat) : List Int :=
  (order.map fun j => (recs.getD j []).take (st j)).flatten

/-- The cells stored so far, in the order of the cursor positions: those of the producers in
the order in which they took the mutex. -/
def Net.laid (recs : List (List Int)) (s : Net) : List Int :=
  laidOf recs (fun j => (s.ws j).stored) s.order

/-- The cursor position at which the record that the consumer is reading begins: behind the
records that its earlier calls have read or skipped. -/
def Net.base (recs : List (List Int)) (s : Net) : Nat :=
  cells ((s.order.take s.reads.length).map fun j => recs.getD j [])

/-- The record that the call of the consumer is reading: that of the producer which took the
mutex after those whose records the earlier calls have read or skipped. -/
def Net.cur (recs : List (List Int)) (s : Net) : List Int :=
  recs.getD (s.order.getD s.reads.length 0) []

/-- The distance of the tail from the cursor position at which the read began, on the paths
without errors, reading a record with `n` pairs. -/
def Reader.tailOff (n : Nat) (r : Reader) : Nat :=
  match r.pc with
  | .used0 | .size | .free0 | .skip | .tail1 => 0
  | .pUsedA | .pUsedB | .pRead => 2 * r.i + 1
  | .pFreeA | .pFreeB => 2 * r.i + 3
  | .done _ => if n = 0 then 0 else 2 * n + 1
  | _ => 2 * n + 1

/-- What a read of the record `removeEdges` with `n` pairs has printed, on the paths without
errors; a call that has returned has read the terminal record, has skipped the record, or has
printed its pairs. -/
def Reader.Seen (n : Nat) (removeEdges : List Int) (r : Reader) : Prop :=
  match r.pc with
  | .tail1 => r.out = [.solution n]
  | .pUsedA | .pUsedB | .pRead => r.out = [.solution n] ++ recPairs removeEdges r.i
  | .pFreeA | .pFreeB => r.out = [.solution n] ++ recPairs removeEdges (r.i + 1)
  | .done _ =>
    r.size = n ∧
    ((n = 0 ∧ r.out = [.colorable] ∧ r.bestSolution = 0) ∨
     (0 < n ∧ (r.out = [] ∨ r.out = [.solution n] ++ recPairs removeEdges n ++ [.newline])))
  | _ => r.out = []

/-- A returned call of the consumer has handled the record `removeEdges`: it has read its
length cell, and has either skipped the record without printing or printed the size and all the
pairs of this record. -/
def Reader.Drained (removeEdges : List Int) (r : Reader) : Prop :=
  r.ret = some 0 ∧ r.size = removeEdges.getD 0 0 ∧
  (r.out = [] ∨
   r.out = [.solution (removeEdges.getD 0 0)] ++
     recPairs removeEdges (pairsOf removeEdges) ++ [.newline])

/-- The invariant of the executions without a failing semaphore call and with stop false, on
well-formed records. -/
structure Net.Inv (C : Nat) (recs : List (List Int)) (s : Net) : Prop where
  ok : ∀ i, (s.ws i).Ok (pairsOf (recs.getD i []))
  stop : s.sh.cbuf.stop = false
  mutex : s.sh.sems.sem_mutex ≤ 1
  held : ∀ i, (s.ws i).mutexAt = 0 → s.sh.sems.sem_mutex = 0
  excl : ∀ i j, (s.ws i).mutexAt = 0 → (s.ws j).mutexAt = 0 → i = j
  free : s.sh.sems.sem_free + s.total Writer.acquired recs.length =
    C + s.base recs + s.r.given
  used : s.sh.sems.sem_used + s.base recs + s.r.taken = s.total Writer.released recs.length
  head : s.sh.cbuf.head = s.total Writer.headAt recs.length
  tail : s.sh.cbuf.tail = s.base recs + s.r.tailOff (pairsOf (s.cur recs))
  fine : s.r.Fine (pairsOf (s.cur recs))
  seen : s.r.Seen (pairsOf (s.cur recs)) (s.cur recs)
  begun : s.r.pc ≠ .used0 → s.reads.length < s.order.length
  drained : ∀ (k : Nat) (r : Reader), s.reads[k]? = some r →
    ∃ j, s.order[k]? = some j ∧ r.Drained (recs.getD j [])
  started : ∀ j ∈ s.order, j < recs.length ∧ (s.ws j).pc ≠ .lock
  listed : ∀ i, (s.ws i).pc ≠ .lock → i ∈ s.order
  nodup : s.order.Nodup
  last : ∀ i, (s.ws i).mutexAt = 0 → s.order.getLast? = some i
  full : ∀ k j, k + 1 < s.order.length → s.order[k]? = some j →
    (s.ws j).stored = (recs.getD j []).length
  stores : s.stores =
    (List.range (s.laid recs).length).map fun p : Nat =>
      (Int.tmod (p : Int) (C : Int), (s.laid recs).getD p 0)
  len : (s.laid recs).length = s.total Writer.stored recs.length
  data : ∀ q : Nat, s.base recs + s.r.given ≤ q → q < (s.laid recs).length →
    s.sh.cbuf.data (Int.tmod q C) = (s.laid recs).getD q 0

/-! ## The calls on a machine whose `int` has 32 bits

The cursors are objects of type `int` (cbuffer.h, lines 23-24).  The functions of this section
are `write_step` and `read_step` with every result of the cursor arithmetic reduced to the value
that a 32-bit `int` holds (`int32`, the wrap-around of two's complement); they differ from
`write_step` and `read_step` only where a result leaves the range `INT_MIN .. INT_MAX`. -/

/-- One step of `write_to_cbuf` on the machine: `head += 1` (line 279), `head + 1` (line 319)
and `head += 2` (line 320) are computed in `int`. -/
def write_step32 (C : Nat) (removeEdges : List Int) (err : Bool) (sh : Shared) (w : Writer) :
    Option (Shared × Writer) :=
  match w.pc with
  | .len =>
    some ({ sh with cbuf :=
              { sh.cbuf.store (Int.tmod sh.cbuf.head C) w.edgeCount with
                head := int32 (sh.cbuf.head + 1) } },
          { w with pc := .used0 })
  | .cellB =>
    some ({ sh with cbuf :=
              { sh.cbuf.store (Int.tmod (int32 (sh.cbuf.head + 1)) C)
                  (removeEdges.getD (w.i + 1) 0) with
                head := int32 (sh.cbuf.head + 2) } },
          { w with pc := .usedB })
  | _ => write_step C removeEdges err sh w

/-- The writer running alone on the machine (see `runWriter`). -/
def runWriter32 (C : Nat) (removeEdges : List Int) :
    Nat → List Bool → Shared × Writer → Shared × Writer
  | 0, _, s => s
  | fuel + 1, errs, s =>
    match write_step32 C removeEdges (errs.headD false) s.1 s.2 with
    | none => s
    | some s' => runWriter32 C removeEdges fuel errs.tail s'

/-- The call `write_to_cbuf(cbuf, removeEdges, sems)` on the machine. -/
def write_to_cbuf32 (C : Nat) (removeEdges : List Int) (fuel : Nat) (errs : List Bool)
    (sh : Shared) : Shared × Writer :=
  runWriter32 C removeEdges fuel errs (sh, Writer.init)

/-- One step of `read_from_cbuf` on the machine: `tail += size*2 + 1` (line 361),
`tail += 1` (line 387), `tail + 1` (line 400) and `tail += 2` (line 402) are computed in
`int`. -/
def read_step32 (C : Nat) (err : Bool) (sh : Shared) (r : Reader) : Option (Shared × Reader) :=
  match r.pc with
  | .skip =>
    some ({ sh with cbuf :=
              { sh.cbuf with tail := int32 (sh.cbuf.tail + int32 (int32 (r.size * 2) + 1)) } },
          { r with pc := Reader.drainPc r.size 0, i := 0 })
  | .tail1 =>
    some ({ sh with cbuf := { sh.cbuf with tail := int32 (sh.cbuf.tail + 1) } },
          { r with pc := Reader.printPc r.size 0, i := 0,
                   out := r.out ++ Reader.printEnd r.size 0 })
  | .pRead =>
    some ({ sh with cbuf := { sh.cbuf with tail := int32 (sh.cbuf.tail + 2) } },
          { r with pc := .pFreeA,
                   out := r.out ++ [.pair (sh.cbuf.data (Int.tmod sh.cbuf.tail C))
                                          (sh.cbuf.data (Int.tmod (int32 (sh.cbuf.tail + 1)) C))] })
  | _ => read_step C err sh r

/-- The reader running alone on the machine (see `runReader`). -/
def runReader32 (C : Nat) : Nat → List Bool → Shared × Reader → Shared × Reader
  | 0, _, s => s
  | fuel + 1, errs, s =>
    match read_step32 C (errs.headD false) s.1 s.2 with
    | none => s
    | some s' => runReader32 C fuel errs.tail s'

/-- The call `read_from_cbuf(cbuf, &bestSolution, sems)` on the machine. -/
def read_from_cbuf32 (C : Nat) (fuel : Nat) (errs : List Bool) (sh : Shared) (best : Int) :
    Shared × Reader :=
  runReader32 C fuel errs (sh, Reader.init best)

/-- The amount that the step taken at a program point adds to head: 1 at line 279, 2 at
line 320. -/
def WPc.advance : WPc → Int
  | .len => 1
  | .cellB => 2
  | _ => 0

/-- The local states of a `write_to_cbuf` call on the machine together with what the call has
done, whatever the other processes do in between its steps (see `WCall`).  The boolean says
whether every step so far found a head that an `int` can hold and left one: no `head += 1` or
`head += 2` of the call has overflowed. -/
inductive WCall32 (C : Nat) (removeEdges : List Int) : Writer → WDone → Bool → Prop where
  | entry : WCall32 C removeEdges Writer.init ⟨0, 0, false⟩ true
  | step (err : Bool) (sh sh' : Shared) (w w' : Writer) (g : WDone) (inRange : Bool) :
      WCall32 C removeEdges w g inRange →
      write_step32 C removeEdges err sh w = some (sh', w') →
      WCall32 C removeEdges w'
        ⟨g.cells + w.pc.stores, g.advance + (sh'.cbuf.head - sh.cbuf.head),
         g.failed || (err && w.pc.calls)⟩
        (inRange && decide (INT_MIN ≤ sh.cbuf.head ∧ sh.cbuf.head + w.pc.advance ≤ INT_MAX))

/-- The shared states at the boundaries between calls on the machine (see `Boundary`), each
with the records that were written and not yet read and with the number of cells that the
calls of `write_to_cbuf` have written since `create_cbuffer_server`. -/
inductive Boundary32 (C : Nat) : Shared → List (List Int) → Nat → Prop where
  | fresh : Boundary32 C (create_cbuffer_server C) [] 0
  | write (sh : Shared) (q : List (List Int)) (removeEdges : List Int) (fuel n : Nat) :
      Boundary32 C sh q n → WellFormed removeEdges →
      (write_to_cbuf32 C removeEdges fuel [] sh).2.ret.isSome →
      Boundary32 C (write_to_cbuf32 C removeEdges fuel [] sh).1 (q ++ [removeEdges])
        (n + removeEdges.length)
  | read (sh : Shared) (q : List (List Int)) (best : Int) (fuel n : Nat) :
      Boundary32 C sh q n →
      (read_from_cbuf32 C fuel [] sh best).2.ret.isSome →
      (read_from_cbuf32 C fuel [] sh best).2.size ≠ 0 →
      Boundary32 C (read_from_cbuf32 C fuel [] sh best).1 q.tail n

/-! ## The consumer loop with its record-count limit, and the system on the machine -/

theorem runWriter_step (C : Nat) (rec : List Int) (k : Nat) (s : Shared × Writer) :
    runWriter C rec (k + 1) [] s =
      match write_step C rec false s.1 s.2 with
      | none => s
      | some s' => runWriter C rec k [] s' := rfl

theorem runWriter_stuck (C : Nat) (rec : List Int) (k : Nat) (s : Shared × Writer)
    (h : write_step C rec false s.1 s.2 = none) : runWriter C rec k [] s = s := by
  cases k with
  | zero => rfl
  | succ k => rw [runWriter_step, h]

theorem runWriter_add (C : Nat) (rec : List Int) (a b : Nat) (s : Shared × Writer) :
    runWriter C rec (a + b) [] s = runWriter C rec b [] (runWriter C rec a [] s) := by
  induction a generalizing s with
  | zero => simp [runWriter]
  | succ a ih =>
    rw [Nat.add_right_comm, runWriter_step, runWriter_step]
    cases hstep : write_step C rec false s.1 s.2 with
    | none => simp only []; rw [runWriter_stuck C rec b s hstep]
    | some s' => simpa using ih s'

theorem runWriter_done (C : Nat) (rec : List Int) (k : Nat) (sh : Shared) (w : Writer) (r : Int)
    (h : w.pc = .done r) : runWriter C rec k [] (sh, w) = (sh, w) := by
  apply runWriter_stuck
  simp [write_step, h]

theorem writer_head (C : Nat) (rec : List Int) (d : Int → Int) (hd tl : Int) (f u m : Nat)
    (lg : List SemOp) (e : Int) (i : Nat) :
    runWriter C rec 6 [] (⟨⟨d, hd, tl, false⟩, ⟨f + 1, u, m + 1⟩⟩, ⟨.lock, e, i, lg⟩) =
      (⟨⟨Function.update d (Int.tmod hd C) (rec.getD 0 0), hd + 1, tl, false⟩, ⟨f, u + 1, m⟩⟩,
       ⟨Writer.loopPc (rec.getD 0 0) 1, rec.getD 0 0, 1,
        lg ++ [.wait .mutex, .wait .free, .post .used]⟩) := by
  simp [runWriter, write_step, sem_wait, sem_post, circularBuffer.store]

theorem writer_pair (C : Nat) (rec : List Int) (d : Int → Int) (hd tl : Int) (f u m : Nat)
    (lg : List SemOp) (e : Int) (i : Nat) :
    runWriter C rec 7 [] (⟨⟨d, hd, tl, false⟩, ⟨f + 2, u, m⟩⟩, ⟨.freeA, e, i, lg⟩) =
      (⟨⟨Function.update (Function.update d (Int.tmod hd C) (rec.getD i 0))
            (Int.tmod (hd + 1) C) (rec.getD (i + 1) 0), hd + 2, tl, false⟩, ⟨f, u + 2, m⟩⟩,
       ⟨Writer.loopPc e (i + 2), e, i + 2,
        lg ++ [.wait .free, .post .used, .wait .free, .post .used]⟩) := by
  simp [runWriter, write_step, sem_wait, sem_post, circularBuffer.store]

theorem storeCells_two (C : Nat) (rec : List Int) (h : Int) (d : Int → Int) (k : Nat) :
    storeCells C rec h d 1 (2 * (k + 1)) =
      Function.update
        (Function.update (storeCells C rec h d 1 (2 * k))
          (Int.tmod (h + ((2 * k + 1 : Nat) : Int)) C) (rec.getD (2 * k + 1) 0))
        (Int.tmod (h + ((2 * k + 1 : Nat) : Int) + 1) C) (rec.getD (2 * k + 1 + 1) 0) := by
  have e3 : 2 * (k + 1) = 2 * k + 1 + 1 := by ring
  have a1 : 1 + 2 * k = 2 * k + 1 := by omega
  have a2 : 1 + (2 * k + 1) = 2 * k + 1 + 1 := by omega
  have a3 : h + ((2 * k + 1 + 1 : Nat) : Int) = h + ((2 * k + 1 : Nat) : Int) + 1 := by
    push_cast; ring
  rw [e3]
  simp only [storeCells]
  rw [a1, a2, a3]

theorem writer_pairs (C : Nat) (rec : List Int) (d : Int → Int) (h tl : Int) (u m : Nat)
    (lg : List SemOp) (n : Nat) (k : Nat) (hk : k ≤ n) (f : Nat) :
    runWriter C rec (7 * k) []
        (⟨⟨d, h + 1, tl, false⟩, ⟨f + 2 * k, u, m⟩⟩, ⟨Writer.loopPc n 1, n, 1, lg⟩) =
      (⟨⟨storeCells C rec h d 1 (2 * k), h + (2 * k + 1 : Nat), tl, false⟩, ⟨f, u + 2 * k, m⟩⟩,
       ⟨Writer.loopPc n (2 * k + 1), n, 2 * k + 1, lg ++ rounds writePairOps k⟩) := by
  induction k generalizing f with
  | zero => simp [runWriter, storeCells, rounds]
  | succ k ih =>
    have e1 : 7 * (k + 1) = 7 * k + 7 := by ring
    have e2 : f + 2 * (k + 1) = (f + 2) + 2 * k := by ring
    rw [e1, runWriter_add, e2, ih (by omega) (f + 2)]
    have hpc : Writer.loopPc (n : Int) (2 * k + 1) = .freeA := by
      simp only [Writer.loopPc]; rw [if_pos]; push_cast; omega
    rw [hpc, writer_pair, storeCells_two]
    have b1 : h + ((2 * k + 1 : Nat) : Int) + 2 = h + ((2 * (k + 1) + 1 : Nat) : Int) := by
      push_cast; ring
    have b2 : u + 2 * k + 2 = u + 2 * (k + 1) := by ring
    have b3 : 2 * k + 1 + 2 = 2 * (k + 1) + 1 := by ring
    rw [b1, b2, b3]
    simp [rounds, writePairOps]

theorem storeCells_shift (C : Nat) (rec : List Int) (h : Int) (d : Int → Int) (k : Nat) :
    storeCells C rec h d 0 (k + 1) =
      storeCells C rec h (Function.update d (Int.tmod h C) (rec.getD 0 0)) 1 k := by
  induction k with
  | zero => simp [storeCells]
  | succ k ih =>
    have a1 : 0 + (k + 1) = 1 + k := by omega
    rw [storeCells, ih, a1]
    rfl

theorem writer_full (C : Nat) (rec : List Int) (d : Int → Int) (h tl : Int) (f u m : Nat)
    (n : Nat) (hn : rec.getD 0 0 = (n : Int)) :
    write_to_cbuf C rec (7 * n + 7) [] ⟨⟨d, h, tl, false⟩, ⟨f + (2 * n + 1), u, m + 1⟩⟩ =
      (⟨⟨storeCells C rec h d 0 (2 * n + 1), h + (2 * n + 1 : Nat), tl, false⟩,
        ⟨f, u + (2 * n + 1), m + 1⟩⟩,
       ⟨.done 1, n, 2 * n + 1, writeOps n⟩) := by
  have e1 : 7 * n + 7 = 6 + (7 * n + 1) := by ring
  have e2 : f + (2 * n + 1) = (f + 2 * n) + 1 := by ring
  rw [write_to_cbuf, e1, runWriter_add, Writer.init, e2, writer_head, hn, runWriter_add,
    writer_pairs C rec _ h tl _ _ _ n n le_rfl f, storeCells_shift, hn]
  have hpc : Writer.loopPc (n : Int) (2 * n + 1) = .unlock := by
    simp only [Writer.loopPc]; rw [if_neg]; push_cast; omega
  rw [hpc]
  simp [runWriter, write_step, sem_post, writeOps]
  omega

theorem tmod_cursor (C : Nat) (x : Int) (hx : 0 ≤ x) : Int.tmod x C = x % C :=
  Int.tmod_eq_emod hx (Int.ofNat_nonneg C)

theorem emod_ne_of_lt (C : Int) (a b : Int) (hab : a < b) (hC : b - a < C) : a % C ≠ b % C := by
  intro h
  have h1 : (b - a) % C = 0 := by
    rw [Int.sub_emod, h]; simp
  have h2 : (b - a) % C = b - a := Int.emod_eq_of_lt (by omega) hC
  omega

theorem storeCells_get (C : Nat) (rec : List Int) (h : Int) (d : Int → Int) (hh : 0 ≤ h)
    (lo k : Nat) (hk : k ≤ C) (j : Nat) (hj1 : lo ≤ j) (hj2 : j < lo + k) :
    storeCells C rec h d lo k ((h + j) % C) = rec.getD j 0 := by
  induction k with
  | zero => omega
  | succ k ih =>
    rw [storeCells, tmod_cursor C _ (by omega)]
    by_cases hjk : j = lo + k
    · subst hjk; simp
    · rw [Function.update_noteq, ih (by omega) (by omega)]
      apply emod_ne_of_lt <;> (push_cast; omega)

theorem storeCells_other (C : Nat) (rec : List Int) (h : Int) (d : Int → Int) (hh : 0 ≤ h)
    (lo k : Nat) (x : Int) (hx : ∀ j : Nat, lo ≤ j → j < lo + k → x ≠ (h + j) % C) :
    storeCells C rec h d lo k x = d x := by
  induction k with
  | zero => rfl
  | succ k ih =>
    rw [storeCells, tmod_cursor C _ (by omega), Function.update_noteq, ih]
    · intro j h1 h2; exact hx j h1 (by omega)
    · exact hx (lo + k) (by omega) (by omega)

/-- The complete run of `write_step` on a record with `n` pairs and a buffer with room for it,
in exact arithmetic (the head is not bounded above here). -/
theorem write_to_cbuf_exact (C n : Nat) (rec : List Int) (sh : Shared) (fuel : Nat)
    (_hlen : rec.length = 2 * n + 1) (hn : rec.getD 0 0 = (n : Int)) (hC : 2 * n + 1 ≤ C)
    (hstop : sh.cbuf.stop = false) (hh : 0 ≤ sh.cbuf.head)
    (hfree : 2 * n + 1 ≤ sh.sems.sem_free) (hmutex : sh.sems.sem_mutex = 1)
    (hfuel : 7 * n + 7 ≤ fuel) :
    (write_to_cbuf C rec fuel [] sh).2.ret = some 1 ∧
    (∀ i : Nat, i ≤ 2 * n →
      (write_to_cbuf C rec fuel [] sh).1.cbuf.data ((sh.cbuf.head + i) % C) = rec.getD i 0) ∧
    (write_to_cbuf C rec fuel [] sh).1.cbuf.head = sh.cbuf.head + 2 * n + 1 ∧
    (write_to_cbuf C rec fuel [] sh).1.sems.sem_free + (2 * n + 1) = sh.sems.sem_free ∧
    (write_to_cbuf C rec fuel [] sh).1.sems.sem_used = sh.sems.sem_used + (2 * n + 1) ∧
    (write_to_cbuf C rec fuel [] sh).1.sems.sem_mutex = 1 ∧
    (write_to_cbuf C rec fuel [] sh).1.cbuf.tail = sh.cbuf.tail ∧
    (write_to_cbuf C rec fuel [] sh).1.cbuf.stop = false := by
  obtain ⟨⟨d, h, tl, st⟩, ⟨fr, u, m⟩⟩ := sh
  simp only at hstop hh hfree hmutex
  subst hstop hmutex
  obtain ⟨f, rfl⟩ : ∃ f, fr = f + (2 * n + 1) := ⟨fr - (2 * n + 1), by omega⟩
  obtain ⟨x, rfl⟩ : ∃ x, fuel = (7 * n + 7) + x := ⟨fuel - (7 * n + 7), by omega⟩
  have hrun : write_to_cbuf C rec (7 * n + 7 + x) [] ⟨⟨d, h, tl, false⟩, ⟨f + (2 * n + 1), u, 1⟩⟩ =
      (⟨⟨storeCells C rec h d 0 (2 * n + 1), h + (2 * n + 1 : Nat), tl, false⟩,
        ⟨f, u + (2 * n + 1), 1⟩⟩, ⟨.done 1, n, 2 * n + 1, writeOps n⟩) := by
    have := writer_full C rec d h tl f u 0 n hn
    rw [write_to_cbuf] at this ⊢
    rw [runWriter_add, this]
    exact runWriter_done C rec x _ _ 1 rfl
  rw [hrun]
  refine ⟨rfl, ?_, ?_, rfl, rfl, rfl, rfl, rfl⟩
  · intro i hi
    exact storeCells_get C rec h d hh 0 (2 * n + 1) hC i (by omega) (by omega)
  · simp only; push_cast; ring

/-! ### Entry with stop set -/

theorem write_abort_entry (C : Nat) (rec : List Int) (d : Int → Int) (hd tl : Int) (f u m : Nat) :
    write_to_cbuf C rec 3 [] ⟨⟨d, hd, tl, true⟩, ⟨f, u, m + 1⟩⟩ =
      (⟨⟨d, hd, tl, true⟩, ⟨f, u, m + 1⟩⟩, ⟨.done 0, 0, 0, [.wait .mutex, .post .mutex]⟩) := by
  simp [write_to_cbuf, Writer.init, runWriter, write_step, sem_wait, sem_post]

/-- C2: `write_to_cbuf` entered with stop already set.  Nothing in the shared state changes (every
slot, head, tail, free, used, and the value of the mutex); when the mutex can be taken the call
returns 0 after taking and releasing it, with any fuel from 3 on, and when the mutex is 0 the call
waits at its first `sem_wait`. -/
theorem write_to_cbuf_stop_at_entry (C : Nat) (rec : List Int) (sh : Shared) (fuel : Nat)
    (hstop : sh.cbuf.stop = true) (hfuel : 3 ≤ fuel) :
    (write_to_cbuf C rec fuel [] sh).1 = sh ∧
    (0 < sh.sems.sem_mutex →
      (write_to_cbuf C rec fuel [] sh).2.ret = some 0 ∧
      (write_to_cbuf C rec fuel [] sh).2.log = [.wait .mutex, .post .mutex]) ∧
    (sh.sems.sem_mutex = 0 → (write_to_cbuf C rec fuel [] sh).2 = Writer.init) := by
  obtain ⟨⟨d, h, tl, st⟩, ⟨f, u, m⟩⟩ := sh
  simp only at hstop
  subst hstop
  obtain ⟨x, rfl⟩ : ∃ x, fuel = 3 + x := ⟨fuel - 3, by omega⟩
  cases m with
  | zero =>
    have hs : write_to_cbuf C rec (3 + x) [] ⟨⟨d, h, tl, true⟩, ⟨f, u, 0⟩⟩ =
        (⟨⟨d, h, tl, true⟩, ⟨f, u, 0⟩⟩, Writer.init) := by
      rw [write_to_cbuf]
      apply runWriter_stuck
      simp [write_step, Writer.init, sem_wait]
    rw [hs]
    simp
  | succ m =>
    have hs : write_to_cbuf C rec (3 + x) [] ⟨⟨d, h, tl, true⟩, ⟨f, u, m + 1⟩⟩ =
        (⟨⟨d, h, tl, true⟩, ⟨f, u, m + 1⟩⟩, ⟨.done 0, 0, 0, [.wait .mutex, .post .mutex]⟩) := by
      have := write_abort_entry C rec d h tl f u m
      rw [write_to_cbuf] at this ⊢
      rw [runWriter_add, this]
      exact runWriter_done C rec x _ _ 0 rfl
    rw [hs]
    simp [Writer.ret]

/-- Witness of C2: a call on a fresh buffer of capacity 5 whose stop flag is set. -/
theorem write_to_cbuf_stop_at_entry_witness :
    (write_to_cbuf 5 [2, 5, 6, 7, 8] 3 []
        ⟨⟨fun _ => 0, 0, 0, true⟩, ⟨5, 0, 1⟩⟩).2.ret = some 0 :=
  ((write_to_cbuf_stop_at_entry 5 [2, 5, 6, 7, 8] ⟨⟨fun _ => 0, 0, 0, true⟩, ⟨5, 0, 1⟩⟩ 3
    rfl (by decide)).2.1 (by decide)).1

/-! ### Sequential runs of `read_from_cbuf` -/

theorem runReader_step (C : Nat) (k : Nat) (s : Shared × Reader) :
    runReader C (k + 1) [] s =
      match read_step C false s.1 s.2 with
      | none => s
      | some s' => runReader C k [] s' := rfl

theorem runReader_stuck (C : Nat) (k : Nat) (s : Shared × Reader)
    (h : read_step C false s.1 s.2 = none) : runReader C k [] s = s := by
  cases k with
  | zero => rfl
  | succ k => rw [runReader_step, h]

theorem runReader_add (C : Nat) (a b : Nat) (s : Shared × Reader) :
    runReader C (a + b) [] s = runReader C b [] (runReader C a [] s) := by
  induction a generalizing s with
  | zero => simp [runReader]
  | succ a ih =>
    rw [Nat.add_right_comm, runReader_step, runReader_step]
    cases hstep : read_step C false s.1 s.2 with
    | none => simp only []; rw [runReader_stuck C b s hstep]
    | some s' => simpa using ih s'

theorem runReader_done (C : Nat) (k : Nat) (sh : Shared) (r : Reader) (v : Int)
    (h : r.pc = .done v) : runReader C k [] (sh, r) = (sh, r) := by
  apply runReader_stuck
  simp [read_step, h]

theorem reader_head_terminal (C : Nat) (d : Int → Int) (hd tl : Int) (st : Bool) (f u m : Nat)
    (best : Int) (h0 : d (Int.tmod tl C) = 0) :
    read_from_cbuf C 3 [] ⟨⟨d, hd, tl, st⟩, ⟨f, u + 1, m⟩⟩ best =
      (⟨⟨d, hd, tl, st⟩, ⟨f + 1, u, m⟩⟩,
       ⟨.done 0, 0, 0, 0, [.colorable], [.wait .used, .post .free]⟩) := by
  simp [read_from_cbuf, Reader.init, runReader, read_step, sem_wait, sem_post, h0]

theorem reader_head_better (C : Nat) (d : Int → Int) (hd tl : Int) (st : Bool) (f u m : Nat)
    (best : Int) (h0 : d (Int.tmod tl C) ≠ 0) (h1 : d (Int.tmod tl C) < best) :
    read_from_cbuf C 4 [] ⟨⟨d, hd, tl, st⟩, ⟨f, u + 1, m⟩⟩ best =
      (⟨⟨d, hd, tl + 1, st⟩, ⟨f + 1, u, m⟩⟩,
       ⟨Reader.printPc (d (Int.tmod tl C)) 0, d (Int.tmod tl C), 0, d (Int.tmod tl C),
        [.solution (d (Int.tmod tl C))] ++ Reader.printEnd (d (Int.tmod tl C)) 0,
        [.wait .used, .post .free]⟩) := by
  simp [read_from_cbuf, Reader.init, runReader, read_step, sem_wait, sem_post, h0, h1]

theorem reader_head_worse (C : Nat) (d : Int → Int) (hd tl : Int) (st : Bool) (f u m : Nat)
    (best : Int) (h0 : d (Int.tmod tl C) ≠ 0) (h1 : ¬ d (Int.tmod tl C) < best) :
    read_from_cbuf C 4 [] ⟨⟨d, hd, tl, st⟩, ⟨f, u + 1, m⟩⟩ best =
      (⟨⟨d, hd, tl + (d (Int.tmod tl C) * 2 + 1), st⟩, ⟨f + 1, u, m⟩⟩,
       ⟨Reader.drainPc (d (Int.tmod tl C)) 0, d (Int.tmod tl C), 0, best, [],
        [.wait .used, .post .free]⟩) := by
  simp [read_from_cbuf, Reader.init, runReader, read_step, sem_wait, sem_post, h0, h1]

theorem reader_drain_round (C : Nat) (d : Int → Int) (hd tl : Int) (st : Bool) (f u m : Nat)
    (sz best : Int) (i : Nat) (o : List Output) (lg : List SemOp) :
    runReader C 4 [] (⟨⟨d, hd, tl, st⟩, ⟨f, u + 2, m⟩⟩, ⟨.dUsedA, sz, i, best, o, lg⟩) =
      (⟨⟨d, hd, tl, st⟩, ⟨f + 2, u, m⟩⟩,
       ⟨Reader.drainPc sz (i + 1), sz, i + 1, best, o, lg ++ readPairOps⟩) := by
  simp [runReader, read_step, sem_wait, sem_post, readPairOps]

theorem reader_print_round (C : Nat) (d : Int → Int) (hd tl : Int) (st : Bool) (f u m : Nat)
    (sz best : Int) (i : Nat) (o : List Output) (lg : List SemOp) :
    runReader C 5 [] (⟨⟨d, hd, tl, st⟩, ⟨f, u + 2, m⟩⟩, ⟨.pUsedA, sz, i, best, o, lg⟩) =
      (⟨⟨d, hd, tl + 2, st⟩, ⟨f + 2, u, m⟩⟩,
       ⟨Reader.printPc sz (i + 1), sz, i + 1, best,
        o ++ [.pair (d (Int.tmod tl C)) (d (Int.tmod (tl + 1) C))] ++ Reader.printEnd sz (i + 1),
        lg ++ readPairOps⟩) := by
  simp [runReader, read_step, sem_wait, sem_post, readPairOps]

theorem reader_drain_rounds (C : Nat) (d : Int → Int) (hd tl : Int) (st : Bool) (m : Nat)
    (best : Int) (o : List Output) (lg : List SemOp) (n k : Nat) (hk : k ≤ n) (f u : Nat) :
    runReader C (4 * k) []
        (⟨⟨d, hd, tl, st⟩, ⟨f, u + 2 * k, m⟩⟩, ⟨Reader.drainPc n 0, n, 0, best, o, lg⟩) =
      (⟨⟨d, hd, tl, st⟩, ⟨f + 2 * k, u, m⟩⟩,
       ⟨Reader.drainPc n k, n, k, best, o, lg ++ rounds readPairOps k⟩) := by
  induction k generalizing u with
  | zero => simp [runReader, rounds]
  | succ k ih =>
    have e1 : 4 * (k + 1) = 4 * k + 4 := by ring
    have e2 : u + 2 * (k + 1) = (u + 2) + 2 * k := by ring
    rw [e1, runReader_add, e2, ih (by omega) (u + 2)]
    have hpc : Reader.drainPc (n : Int) k = .dUsedA := by
      simp only [Reader.drainPc]; rw [if_pos]; omega
    rw [hpc, reader_drain_round]
    have b1 : f + 2 * k + 2 = f + 2 * (k + 1) := by ring
    rw [b1]
    simp [rounds]

theorem printedPairs_succ (C : Nat) (d : Int → Int) (t : Int) (k : Nat) :
    printedPairs C d t (k + 1) =
      printedPairs C d t k ++
        [.pair (d (Int.tmod (t + 1 + 2 * (k : Int)) C)) (d (Int.tmod (t + 2 + 2 * (k : Int)) C))] := by
  simp [printedPairs, List.range_succ]

theorem printEnd_lt (n k : Nat) (h : k < n) : Reader.printEnd (n : Int) k = [] := by
  simp only [Reader.printEnd]; rw [if_pos]; omega

theorem reader_print_rounds (C : Nat) (d : Int → Int) (hd t : Int) (st : Bool) (m : Nat)
    (best : Int) (o : List Output) (lg : List SemOp) (n k : Nat) (hn : 0 < n) (hk : k ≤ n)
    (f u : Nat) :
    runReader C (5 * k) []
        (⟨⟨d, hd, t + 1, st⟩, ⟨f, u + 2 * k, m⟩⟩, ⟨Reader.printPc n 0, n, 0, best, o, lg⟩) =
      (⟨⟨d, hd, t + 1 + 2 * (k : Int), st⟩, ⟨f + 2 * k, u, m⟩⟩,
       ⟨Reader.printPc n k, n, k, best, o ++ printedPairs C d t k ++ Reader.printEnd n k,
        lg ++ rounds readPairOps k⟩) := by
  induction k generalizing u with
  | zero => simp [runReader, rounds, printedPairs, printEnd_lt n 0 hn]
  | succ k ih =>
    have e1 : 5 * (k + 1) = 5 * k + 5 := by ring
    have e2 : u + 2 * (k + 1) = (u + 2) + 2 * k := by ring
    rw [e1, runReader_add, e2, ih (by omega) (u + 2)]
    have hpc : Reader.printPc (n : Int) k = .pUsedA := by
      simp only [Reader.printPc]; rw [if_pos]; omega
    rw [hpc, reader_print_round, printEnd_lt n k (by omega), printedPairs_succ]
    have b1 : f + 2 * k + 2 = f + 2 * (k + 1) := by ring
    have b2 : t + 1 + 2 * (k : Int) + 2 = t + 1 + 2 * ((k + 1 : Nat) : Int) := by
      push_cast; ring
    have b3 : t + 1 + 2 * (k : Int) + 1 = t + 2 + 2 * (k : Int) := by ring
    rw [b1, b2, b3]
    simp [rounds]

theorem reader_full_terminal (C : Nat) (d : Int → Int) (hd tl : Int) (st : Bool) (f u m : Nat)
    (best : Int) (x : Nat) (h0 : d (Int.tmod tl C) = 0) :
    read_from_cbuf C (3 + x) [] ⟨⟨d, hd, tl, st⟩, ⟨f, u + 1, m⟩⟩ best =
      (⟨⟨d, hd, tl, st⟩, ⟨f + 1, u, m⟩⟩,
       ⟨.done 0, 0, 0, 0, [.colorable], readOps 0⟩) := by
  have := reader_head_terminal C d hd tl st f u m best h0
  rw [read_from_cbuf] at this ⊢
  rw [runReader_add, this]
  exact runReader_done C x _ _ 0 rfl

theorem reader_full_worse (C : Nat) (d : Int → Int) (hd tl : Int) (st : Bool) (f u m : Nat)
    (best : Int) (n x : Nat) (hsz : d (Int.tmod tl C) = (n : Int)) (hn : 0 < n)
    (hb : best ≤ (n : Int)) :
    read_from_cbuf C (4 * n + 4 + x) [] ⟨⟨d, hd, tl, st⟩, ⟨f, u + (2 * n + 1), m⟩⟩ best =
      (⟨⟨d, hd, tl + (2 * n + 1 : Nat), st⟩, ⟨f + (2 * n + 1), u, m⟩⟩,
       ⟨.done 0, n, n, best, [], readOps n⟩) := by
  have h0 : d (Int.tmod tl C) ≠ 0 := by rw [hsz]; omega
  have h1 : ¬ d (Int.tmod tl C) < best := by rw [hsz]; omega
  have := reader_head_worse C d hd tl st f (u + 2 * n) m best h0 h1
  rw [read_from_cbuf] at this ⊢
  have e1 : 4 * n + 4 + x = 4 + (4 * n + x) := by ring
  have e2 : u + (2 * n + 1) = u + 2 * n + 1 := by ring
  rw [e1, runReader_add, e2, this, hsz, runReader_add,
    reader_drain_rounds C d hd _ st m best [] _ n n le_rfl (f + 1) u]
  have hpc : Reader.drainPc (n : Int) n = .done 0 := by
    simp only [Reader.drainPc]; rw [if_neg]; omega
  rw [hpc, runReader_done C x _ _ 0 rfl]
  have b1 : f + 1 + 2 * n = f + (2 * n + 1) := by ring
  have b2 : tl + ((n : Int) * 2 + 1) = tl + ((2 * n + 1 : Nat) : Int) := by push_cast; ring
  rw [b1, b2]
  rfl

theorem reader_full_better (C : Nat) (d : Int → Int) (hd tl : Int) (st : Bool) (f u m : Nat)
    (best : Int) (n x : Nat) (hsz : d (Int.tmod tl C) = (n : Int)) (hn : 0 < n)
    (hb : (n : Int) < best) :
    read_from_cbuf C (5 * n + 4 + x) [] ⟨⟨d, hd, tl, st⟩, ⟨f, u + (2 * n + 1), m⟩⟩ best =
      (⟨⟨d, hd, tl + (2 * n + 1 : Nat), st⟩, ⟨f + (2 * n + 1), u, m⟩⟩,
       ⟨.done 0, n, n, n, [.solution n] ++ printedPairs C d tl n ++ [.newline], readOps n⟩) := by
  have h0 : d (Int.tmod tl C) ≠ 0 := by rw [hsz]; omega
  have h1 : d (Int.tmod tl C) < best := by rw [hsz]; omega
  have := reader_head_better C d hd tl st f (u + 2 * n) m best h0 h1
  rw [read_from_cbuf] at this ⊢
  have e1 : 5 * n + 4 + x = 4 + (5 * n + x) := by ring
  have e2 : u + (2 * n + 1) = u + 2 * n + 1 := by ring
  rw [e1, runReader_add, e2, this, hsz, runReader_add, printEnd_lt n 0 hn, List.append_nil,
    reader_print_rounds C d hd tl st m n [.solution n] _ n n hn le_rfl (f + 1) u]
  have hpc : Reader.printPc (n : Int) n = .done 0 := by
    simp only [Reader.printPc]; rw [if_neg]; omega
  have hend : Reader.printEnd (n : Int) n = [.newline] := by
    simp only [Reader.printEnd]; rw [if_neg]; omega
  rw [hpc, hend, runReader_done C x _ _ 0 rfl]
  have b1 : f + 1 + 2 * n = f + (2 * n + 1) := by ring
  have b2 : tl + 1 + 2 * (n : Int) = tl + ((2 * n + 1 : Nat) : Int) := by push_cast; ring
  rw [b1, b2]
  rfl

/-- The complete run of `read_step` on an improving record, in exact arithmetic (the tail is
not bounded here). -/
theorem read_from_cbuf_improving_exact (C n : Nat) (sh : Shared) (best : Int) (fuel : Nat)
    (hsz : sh.cbuf.data (Int.tmod sh.cbuf.tail C) = (n : Int)) (hn : 0 < n)
    (hbest : (n : Int) < best) (hused : 2 * n + 1 ≤ sh.sems.sem_used)
    (hfuel : 5 * n + 4 ≤ fuel) :
    (read_from_cbuf C fuel [] sh best).2.ret = some 0 ∧
    (read_from_cbuf C fuel [] sh best).2.bestSolution = n ∧
    (read_from_cbuf C fuel [] sh best).2.out =
      [Output.solution n] ++
      (List.range n).map (fun i =>
        Output.pair (sh.cbuf.data (Int.tmod (sh.cbuf.tail + 1 + 2 * (i : Int)) C))
          (sh.cbuf.data (Int.tmod (sh.cbuf.tail + 2 + 2 * (i : Int)) C))) ++
      [Output.newline] ∧
    (read_from_cbuf C fuel [] sh best).1.cbuf.tail = sh.cbuf.tail + 2 * n + 1 ∧
    (read_from_cbuf C fuel [] sh best).1.cbuf.data = sh.cbuf.data ∧
    (read_from_cbuf C fuel [] sh best).1.cbuf.head = sh.cbuf.head ∧
    (read_from_cbuf C fuel [] sh best).1.cbuf.stop = sh.cbuf.stop ∧
    (read_from_cbuf C fuel [] sh best).1.sems.sem_used + (2 * n + 1) = sh.sems.sem_used ∧
    (read_from_cbuf C fuel [] sh best).1.sems.sem_free = sh.sems.sem_free + (2 * n + 1) ∧
    (read_from_cbuf C fuel [] sh best).1.sems.sem_mutex = sh.sems.sem_mutex := by
  obtain ⟨⟨d, h, tl, st⟩, ⟨f, us, m⟩⟩ := sh
  simp only at hsz hused
  obtain ⟨u, rfl⟩ : ∃ u, us = u + (2 * n + 1) := ⟨us - (2 * n + 1), by omega⟩
  obtain ⟨x, rfl⟩ : ∃ x, fuel = (5 * n + 4) + x := ⟨fuel - (5 * n + 4), by omega⟩
  rw [reader_full_better C d h tl st f u m best n x hsz hn hbest]
  refine ⟨rfl, rfl, rfl, ?_, rfl, rfl, rfl, rfl, rfl, rfl⟩
  simp only; push_cast; ring

/-- The complete run of `read_step` on a record that does not improve, in exact arithmetic
(the tail is not bounded here). -/
theorem read_from_cbuf_not_improving_exact (C n : Nat) (sh : Shared) (best : Int) (fuel : Nat)
    (hsz : sh.cbuf.data (Int.tmod sh.cbuf.tail C) = (n : Int)) (hn : 0 < n)
    (hbest : best ≤ (n : Int)) (hused : 2 * n + 1 ≤ sh.sems.sem_used)
    (hfuel : 4 * n + 4 ≤ fuel) :
    (read_from_cbuf C fuel [] sh best).2.ret = some 0 ∧
    (read_from_cbuf C fuel [] sh best).2.bestSolution = best ∧
    (read_from_cbuf C fuel [] sh best).2.out = [] ∧
    (read_from_cbuf C fuel [] sh best).1.cbuf.tail = sh.cbuf.tail + (2 * n + 1) ∧
    (read_from_cbuf C fuel [] sh best).2.log =
      [SemOp.wait .used, SemOp.post .free] ++
      rounds [SemOp.wait .used, SemOp.wait .used, SemOp.post .free, SemOp.post .free] n ∧
    (read_from_cbuf C fuel [] sh best).1.sems.sem_used + (2 * n + 1) = sh.sems.sem_used ∧
    (read_from_cbuf C fuel [] sh best).1.sems.sem_free = sh.sems.sem_free + (2 * n + 1) ∧
    (read_from_cbuf C fuel [] sh best).1.sems.sem_mutex = sh.sems.sem_mutex ∧
    (read_from_cbuf C fuel [] sh best).1.cbuf.data = sh.cbuf.data ∧
    (read_from_cbuf C fuel [] sh best).1.cbuf.head = sh.cbuf.head ∧
    (read_from_cbuf C fuel [] sh best).1.cbuf.stop = sh.cbuf.stop := by
  obtain ⟨⟨d, h, tl, st⟩, ⟨f, us, m⟩⟩ := sh
  simp only at hsz hused
  obtain ⟨u, rfl⟩ : ∃ u, us = u + (2 * n + 1) := ⟨us - (2 * n + 1), by omega⟩
  obtain ⟨x, rfl⟩ : ∃ x, fuel = (4 * n + 4) + x := ⟨fuel - (4 * n + 4), by omega⟩
  rw [reader_full_worse C d h tl st f u m best n x hsz hn hbest]
  refine ⟨rfl, rfl, rfl, ?_, rfl, rfl, rfl, rfl, rfl, rfl, rfl⟩
  simp only; push_cast; ring

/-- C5: `read_from_cbuf` on the terminal record.  The cell at the tail holds 0 and a used credit
is there: whatever best was, the call returns 0 with best = 0, prints only the message that
the graph is 3-colorable (no pair), makes exactly one wait on used and one post on free, and
leaves the tail, the head, every cell and stop as they were.  Any fuel from 3 on gives this. -/
theorem read_from_cbuf_terminal (C : Nat) (sh : Shared) (best : Int) (fuel : Nat)
    (hsz : sh.cbuf.data (Int.tmod sh.cbuf.tail C) = 0) (hused : 1 ≤ sh.sems.sem_used)
    (hfuel : 3 ≤ fuel) :
    (read_from_cbuf C fuel [] sh best).2.ret = some 0 ∧
    (read_from_cbuf C fuel [] sh best).2.bestSolution = 0 ∧
    (read_from_cbuf C fuel [] sh best).2.out = [Output.colorable] ∧
    (read_from_cbuf C fuel [] sh best).2.log = [SemOp.wait .used, SemOp.post .free] ∧
    (read_from_cbuf C fuel [] sh best).1.sems.sem_used + 1 = sh.sems.sem_used ∧
    (read_from_cbuf C fuel [] sh best).1.sems.sem_free = sh.sems.sem_free + 1 ∧
    (read_from_cbuf C fuel [] sh best).1.sems.sem_mutex = sh.sems.sem_mutex ∧
    (read_from_cbuf C fuel [] sh best).1.cbuf = sh.cbuf := by
  obtain ⟨⟨d, h, tl, st⟩, ⟨f, us, m⟩⟩ := sh
  simp only at hsz hused
  obtain ⟨u, rfl⟩ : ∃ u, us = u + 1 := ⟨us - 1, by omega⟩
  obtain ⟨x, rfl⟩ : ∃ x, fuel = 3 + x := ⟨fuel - 3, by omega⟩
  rw [reader_full_terminal C d h tl st f u m best x hsz]
  exact ⟨rfl, rfl, rfl, rfl, rfl, rfl, rfl, rfl⟩

/-- Witness of C5: the record [0] at the tail of a buffer of capacity 5, best 1000. -/
theorem read_from_cbuf_terminal_witness :
    (read_from_cbuf 5 3 [] ⟨⟨fun _ => 0, 1, 0, false⟩, ⟨4, 1, 1⟩⟩ 1000).2.bestSolution = 0 ∧
    (read_from_cbuf 5 3 [] ⟨⟨fun _ => 0, 1, 0, false⟩, ⟨4, 1, 1⟩⟩ 1000).2.ret = some 0 := by
  have h := read_from_cbuf_terminal 5 ⟨⟨fun _ => 0, 1, 0, false⟩, ⟨4, 1, 1⟩⟩ 1000 3
    rfl (by decide) (by decide)
  exact ⟨h.2.1, h.1⟩

/-! ### Sequences of records: credits and best -/

theorem wellFormed_size (rec : List Int) (h : WellFormed rec) :
    rec.getD 0 0 = ((rec.length / 2 : Nat) : Int) ∧ rec.length = 2 * (rec.length / 2) + 1 := by
  unfold WellFormed at h
  omega

theorem writer_call (C : Nat) (rec : List Int) (d : Int → Int) (h tl : Int) (f u m x : Nat)
    (hwf : WellFormed rec) :
    write_to_cbuf C rec (7 * rec.length + x) [] ⟨⟨d, h, tl, false⟩, ⟨f + rec.length, u, m + 1⟩⟩ =
      (⟨⟨storeCells C rec h d 0 rec.length, h + rec.length, tl, false⟩,
        ⟨f, u + rec.length, m + 1⟩⟩,
       ⟨.done 1, rec.getD 0 0, rec.length, writeOps (rec.length / 2)⟩) := by
  obtain ⟨h1, h2⟩ := wellFormed_size rec hwf
  have e1 : 7 * rec.length + x = (7 * (rec.length / 2) + 7) + (7 * (rec.length / 2) + x) := by
    omega
  have := writer_full C rec d h tl f u m (rec.length / 2) h1
  rw [write_to_cbuf] at this ⊢
  rw [e1, runWriter_add]
  rw [← h2] at this
  rw [this, h1]
  exact runWriter_done C rec _ _ _ 1 rfl

theorem reader_call (C : Nat) (d : Int → Int) (hd tl : Int) (st : Bool) (f u m : Nat)
    (best : Int) (n x : Nat) (hsz : d (Int.tmod tl C) = (n : Int)) (hn : 0 < n) :
    ∃ o, read_from_cbuf C (7 * (2 * n + 1) + x) []
        ⟨⟨d, hd, tl, st⟩, ⟨f, u + (2 * n + 1), m⟩⟩ best =
      (⟨⟨d, hd, tl + (2 * n + 1 : Nat), st⟩, ⟨f + (2 * n + 1), u, m⟩⟩,
       ⟨.done 0, n, n, min best n, o, readOps n⟩) := by
  by_cases hb : (n : Int) < best
  · refine ⟨[.solution n] ++ printedPairs C d tl n ++ [.newline], ?_⟩
    have e1 : 7 * (2 * n + 1) + x = 5 * n + 4 + (9 * n + 3 + x) := by ring
    rw [e1, reader_full_better C d hd tl st f u m best n _ hsz hn hb, min_eq_right hb.le]
  · refine ⟨[], ?_⟩
    have e1 : 7 * (2 * n + 1) + x = 4 * n + 4 + (10 * n + 3 + x) := by ring
    rw [e1, reader_full_worse C d hd tl st f u m best n _ hsz hn (by omega),
      min_eq_left (by omega)]

theorem cells_cons (rec : List Int) (rest : List (List Int)) :
    cells (rec :: rest) = rec.length + cells rest := by
  simp [cells]

theorem writeAll_spec (C fuel : Nat) (recs : List (List Int))
    (hwf : ∀ rec ∈ recs, WellFormed rec) (hfuel : ∀ rec ∈ recs, 7 * rec.length ≤ fuel)
    (d : Int → Int) (h tl : Int) (f u m : Nat) (hh : 0 ≤ h) (hC : cells recs ≤ C) :
    ∃ d', writeAll C fuel recs ⟨⟨d, h, tl, false⟩, ⟨f + cells recs, u, m + 1⟩⟩ =
        (⟨⟨d', h + cells recs, tl, false⟩, ⟨f, u + cells recs, m + 1⟩⟩,
         recs.map fun rec => ⟨.done 1, rec.getD 0 0, rec.length, writeOps (rec.length / 2)⟩) ∧
      Laid C d' h recs ∧
      ∀ x, (∀ j : Nat, j < cells recs → x ≠ (h + j) % C) → d' x = d x := by
  induction recs generalizing d h f u with
  | nil => exact ⟨d, by simp [writeAll, cells], trivial, fun _ _ => rfl⟩
  | cons rec rest ih =>
    have hwf1 := hwf rec (List.mem_cons_self _ _)
    obtain ⟨-, hlen⟩ := wellFormed_size rec hwf1
    rw [cells_cons] at hC
    obtain ⟨x, hx⟩ : ∃ x, fuel = 7 * rec.length + x :=
      ⟨fuel - 7 * rec.length, by have := hfuel rec (List.mem_cons_self _ _); omega⟩
    have hcall := writer_call C rec d h tl (f + cells rest) u m x hwf1
    rw [← hx] at hcall
    obtain ⟨d', hrun, hlaid, hframe⟩ :=
      ih (fun r hr => hwf r (List.mem_cons_of_mem _ hr))
        (fun r hr => hfuel r (List.mem_cons_of_mem _ hr))
        (storeCells C rec h d 0 rec.length) (h + rec.length) f (u + rec.length)
        (by omega) (by omega)
    refine ⟨d', ?_, ⟨?_, hlaid⟩, ?_⟩
    · have e1 : f + cells (rec :: rest) = f + cells rest + rec.length := by
        rw [cells_cons]; ring
      rw [writeAll, e1, hcall, hrun, cells_cons]
      simp only [List.map_cons]
      congr 3
      · push_cast; ring
      · ring
    · rw [tmod_cursor C h hh, hframe]
      · have := storeCells_get C rec h d hh 0 rec.length (by omega) 0 (by omega) (by omega)
        simpa using this
      · intro j hj
        apply emod_ne_of_lt <;> omega
    · intro y hy
      rw [hframe, storeCells_other C rec h d hh]
      · intro j _ hj
        exact hy j (by rw [cells_cons]; omega)
      · intro j hj
        have := hy (rec.length + j) (by rw [cells_cons]; omega)
        rw [show h + (rec.length : Int) + (j : Int) = h + ((rec.length + j : Nat) : Int) by
          push_cast; ring]
        exact this

theorem readAll_spec (C fuel : Nat) (recs : List (List Int))
    (hwf : ∀ rec ∈ recs, WellFormed rec) (hfuel : ∀ rec ∈ recs, 7 * rec.length ≤ fuel)
    (hterm : ∀ rec ∈ recs.dropLast, rec.getD 0 0 ≠ 0)
    (d : Int → Int) (hd tl : Int) (st : Bool) (f u m : Nat) (best : Int)
    (hlaid : Laid C d tl recs) :
    ∃ tl' rs, readAll C fuel recs.length ⟨⟨d, hd, tl, st⟩, ⟨f, u + cells recs, m⟩⟩ best =
        (⟨⟨d, hd, tl', st⟩, ⟨f + cells recs, u, m⟩⟩, rs) ∧
      rs.map Reader.ret = recs.map (fun _ => some 0) ∧
      rs.map Reader.log = recs.map (fun rec => readOps (rec.length / 2)) ∧
      ((∀ rec ∈ recs, rec.getD 0 0 ≠ 0) →
        rs.map Reader.bestSolution = runningMin best (recs.map fun rec => rec.getD 0 0) ∧
        tl' = tl + cells recs) := by
  induction recs generalizing tl f u best with
  | nil => exact ⟨tl, [], by simp [readAll, cells], rfl, rfl, fun _ => ⟨rfl, by simp [cells]⟩⟩
  | cons rec rest ih =>
    have hwf1 := hwf rec (List.mem_cons_self _ _)
    obtain ⟨hsz, hlen⟩ := wellFormed_size rec hwf1
    obtain ⟨hcell, hlaid'⟩ := hlaid
    rw [hsz] at hcell
    by_cases hz : rec.getD 0 0 = 0
    · -- a terminal record is the last one
      have hrest : rest = [] := by
        cases rest with
        | nil => rfl
        | cons r2 rest' => exact absurd hz (hterm rec (by simp [List.dropLast]))
      subst hrest
      have hn : rec.length / 2 = 0 := by omega
      rw [hn] at hcell
      have hc : cells [rec] = 1 := by rw [cells_cons]; simp [cells]; omega
      obtain ⟨x, hx⟩ : ∃ x, fuel = 3 + x :=
        ⟨fuel - 3, by have := hfuel rec (List.mem_cons_self _ _); omega⟩
      refine ⟨tl, [⟨.done 0, 0, 0, 0, [.colorable], readOps 0⟩], ?_, rfl, ?_, ?_⟩
      · have hcall := reader_full_terminal C d hd tl st f u m best x (by simpa using hcell)
        rw [← hx] at hcall
        simp only [List.length_singleton, readAll]
        rw [hc, hcall]
      · simp [hn]
      · intro h; exact absurd hz (h rec (List.mem_cons_self _ _))
    · have hn : 0 < rec.length / 2 := by omega
      obtain ⟨x, hx⟩ : ∃ x, fuel = 7 * (2 * (rec.length / 2) + 1) + x :=
        ⟨fuel - 7 * rec.length, by have := hfuel rec (List.mem_cons_self _ _); omega⟩
      obtain ⟨o, hcall⟩ := reader_call C d hd tl st f (u + cells rest) m best
        (rec.length / 2) x hcell hn
      rw [← hx] at hcall
      have hterm' : ∀ r ∈ rest.dropLast, r.getD 0 0 ≠ 0 := by
        intro r hr
        cases rest with
        | nil => simp at hr
        | cons r2 rest' => exact hterm r (by simp only [List.dropLast]; exact List.mem_cons_of_mem _ hr)
      rw [hlen] at hlaid'
      obtain ⟨tl', rs, hrun, hret, hlog, hbest⟩ :=
        ih (fun r hr => hwf r (List.mem_cons_of_mem _ hr))
          (fun r hr => hfuel r (List.mem_cons_of_mem _ hr)) hterm'
          (tl + (2 * (rec.length / 2) + 1 : Nat)) (f + (2 * (rec.length / 2) + 1)) u
          (min best (rec.length / 2 : Nat)) hlaid'
      refine ⟨tl', (⟨.done 0, (rec.length / 2 : Nat), rec.length / 2,
        min best (rec.length / 2 : Nat), o, readOps (rec.length / 2)⟩ : Reader) :: rs, ?_, ?_, ?_, ?_⟩
      · have e1 : u + cells (rec :: rest) = u + cells rest + (2 * (rec.length / 2) + 1) := by
          rw [cells_cons]; omega
        have e2 : f + cells (rec :: rest) = f + (2 * (rec.length / 2) + 1) + cells rest := by
          rw [cells_cons]; omega
        simp only [List.length_cons, readAll]
        rw [e1, hcall, hrun, e2]
      · simp [hret, Reader.ret]
      · simp [hlog]
      · intro hall
        obtain ⟨hb, ht⟩ := hbest (fun r hr => hall r (List.mem_cons_of_mem _ hr))
        refine ⟨?_, ?_⟩
        · simp only [List.map_cons, runningMin, hb, hsz]
        · rw [ht, cells_cons]; push_cast; omega

theorem count_rounds (op : SemOp) (block : List SemOp) (k : Nat) :
    List.count op (rounds block k) = k * List.count op block := by
  induction k with
  | zero => simp [rounds]
  | succ k ih => rw [rounds, List.count_append, ih]; ring

theorem count_writeOps (n : Nat) :
    List.count (SemOp.post .used) (writeOps n) = 2 * n + 1 ∧
    List.count (SemOp.wait .free) (writeOps n) = 2 * n + 1 := by
  constructor <;>
  · simp only [writeOps, List.count_append, count_rounds]
    simp [writePairOps, List.count_cons]
    omega

theorem count_readOps (n : Nat) :
    List.count (SemOp.wait .used) (readOps n) = 2 * n + 1 ∧
    List.count (SemOp.post .free) (readOps n) = 2 * n + 1 := by
  constructor <;>
  · simp only [readOps, List.count_append, count_rounds]
    simp [readPairOps, List.count_cons]
    omega

theorem countOps_cells (op : SemOp) (ops : Nat → List SemOp)
    (hops : ∀ n, List.count op (ops n) = 2 * n + 1) (recs : List (List Int))
    (hwf : ∀ rec ∈ recs, WellFormed rec) :
    countOps op (recs.map fun rec => ops (rec.length / 2)) = cells recs := by
  induction recs with
  | nil => rfl
  | cons rec rest ih =>
    have h1 := (wellFormed_size rec (hwf rec (List.mem_cons_self _ _))).2
    have h2 := ih (fun r hr => hwf r (List.mem_cons_of_mem _ hr))
    simp only [countOps, List.map_cons, List.sum_cons] at h2 ⊢
    rw [h2, hops, cells_cons]
    omega

theorem runningMin_chain (b : Int) (ns : List Int) :
    List.Chain (fun x y => y ≤ x) b (runningMin b ns) := by
  induction ns generalizing b with
  | nil => exact List.Chain.nil
  | cons n ns ih => exact List.Chain.cons (min_le_left b n) (ih (min b n))

theorem runningMin_last (b : Int) (ns : List Int) :
    (runningMin b ns).getLastD b = ns.foldl min b := by
  induction ns generalizing b with
  | nil => rfl
  | cons n ns ih =>
    have := ih (min b n)
    cases hns : ns with
    | nil => simp [runningMin]
    | cons n2 ns2 =>
      rw [hns] at this
      simp only [runningMin, List.getLastD_cons, List.foldl_cons] at this ⊢
      exact this

/-- C6, as the claim states it, fails: the records [0] and [1,5,6] are completely written to a
fresh buffer (both calls return 1, releasing 4 used credits), and then read.  The first read
takes the terminal path and leaves the tail where it was, so a second read finds the cell of [0]
again: the two reads return 0 having consumed 2 used credits, and free ends at 298, used at 2.
If the consumer stops after the terminal record, as the supervisor loop does, it has consumed
1 used credit and free ends at 297, used at 3. -/
theorem credit_balance_counterexample :
    (writeAll BLOCK_SIZE 21 [[0], [1, 5, 6]] (create_cbuffer_server BLOCK_SIZE)).2.map Writer.ret
      = [some 1, some 1] ∧
    countOps (.post .used)
      ((writeAll BLOCK_SIZE 21 [[0], [1, 5, 6]] (create_cbuffer_server BLOCK_SIZE)).2.map
        Writer.log) = 4 ∧
    (readAll BLOCK_SIZE 21 2
      (writeAll BLOCK_SIZE 21 [[0], [1, 5, 6]] (create_cbuffer_server BLOCK_SIZE)).1 1000).2.map
        Reader.ret = [some 0, some 0] ∧
    countOps (.wait .used)
      ((readAll BLOCK_SIZE 21 2
        (writeAll BLOCK_SIZE 21 [[0], [1, 5, 6]] (create_cbuffer_server BLOCK_SIZE)).1 1000).2.map
          Reader.log) = 2 ∧
    (readAll BLOCK_SIZE 21 2
      (writeAll BLOCK_SIZE 21 [[0], [1, 5, 6]] (create_cbuffer_server BLOCK_SIZE)).1 1000).1.sems
      = ⟨298, 2, 1⟩ ∧
    countOps (.wait .used)
      ((readAll BLOCK_SIZE 21 1
        (writeAll BLOCK_SIZE 21 [[0], [1, 5, 6]] (create_cbuffer_server BLOCK_SIZE)).1 1000).2.map
          Reader.log) = 1 ∧
    (readAll BLOCK_SIZE 21 1
      (writeAll BLOCK_SIZE 21 [[0], [1, 5, 6]] (create_cbuffer_server BLOCK_SIZE)).1 1000).1.sems
      = ⟨297, 3, 1⟩ := by
  decide

/-- C6, amended: no credit leak when a terminal record, if there is one, is the last.  The
records `recs` are well formed, only the last may have `n = 0`, and together they fit into the
buffer; the queue is empty (tail = head), stop is false, the mutex is free and there are enough
free credits.  After the records are written one after the other and then read one after the
other, every write has returned 1 and every read 0, the writes have released as many used
credits as the reads have consumed and the reads have released as many free credits as the writes
have consumed (the number of cells, `2n+1` per record), and all three semaphores have the values
they started with (free = C and used = 0 on a fresh buffer). -/
theorem no_credit_leak (C fuel : Nat) (recs : List (List Int)) (sh : Shared) (best : Int)
    (hwf : ∀ rec ∈ recs, WellFormed rec)
    (hterm : ∀ rec ∈ recs.dropLast, rec.getD 0 0 ≠ 0)
    (hC : cells recs ≤ C) (hfuel : ∀ rec ∈ recs, 7 * rec.length ≤ fuel)
    (hstop : sh.cbuf.stop = false) (hh : 0 ≤ sh.cbuf.head) (hempty : sh.cbuf.tail = sh.cbuf.head)
    (hfree : cells recs ≤ sh.sems.sem_free) (hmutex : 0 < sh.sems.sem_mutex) :
    (writeAll C fuel recs sh).2.map Writer.ret = recs.map (fun _ => some 1) ∧
    (readAll C fuel recs.length (writeAll C fuel recs sh).1 best).2.map Reader.ret =
      recs.map (fun _ => some 0) ∧
    countOps (.post .used) ((writeAll C fuel recs sh).2.map Writer.log) = cells recs ∧
    countOps (.wait .used)
      ((readAll C fuel recs.length (writeAll C fuel recs sh).1 best).2.map Reader.log) =
      cells recs ∧
    countOps (.wait .free) ((writeAll C fuel recs sh).2.map Writer.log) = cells recs ∧
    countOps (.post .free)
      ((readAll C fuel recs.length (writeAll C fuel recs sh).1 best).2.map Reader.log) =
      cells recs ∧
    (readAll C fuel recs.length (writeAll C fuel recs sh).1 best).1.sems = sh.sems := by
  obtain ⟨⟨d, h, tl, st⟩, ⟨fr, u, mx⟩⟩ := sh
  simp only at hstop hh hempty hfree hmutex
  subst hstop hempty
  obtain ⟨f, rfl⟩ : ∃ f, fr = f + cells recs := ⟨fr - cells recs, by omega⟩
  obtain ⟨m, rfl⟩ : ∃ m, mx = m + 1 := ⟨mx - 1, by omega⟩
  obtain ⟨d', hW, hlaid, -⟩ := writeAll_spec C fuel recs hwf hfuel d tl tl f u m hh hC
  obtain ⟨tl', rs, hR, hret, hlog, -⟩ :=
    readAll_spec C fuel recs hwf hfuel hterm d' (tl + cells recs) tl false f u (m + 1) best hlaid
  rw [hW]
  simp only
  rw [hR]
  simp only [List.map_map]
  refine ⟨?_, hret, ?_, ?_, ?_, ?_, trivial⟩
  · simp [Function.comp_def, Writer.ret]
  · exact countOps_cells _ writeOps (fun n => (count_writeOps n).1) recs hwf
  · rw [hlog]; exact countOps_cells _ readOps (fun n => (count_readOps n).1) recs hwf
  · exact countOps_cells _ writeOps (fun n => (count_writeOps n).2) recs hwf
  · rw [hlog]; exact countOps_cells _ readOps (fun n => (count_readOps n).2) recs hwf

/-- Witness of C6 (amended): the records [1,5,6] and [0] on a fresh buffer of 300 cells. -/
theorem no_credit_leak_witness :
    (readAll BLOCK_SIZE 21 2
      (writeAll BLOCK_SIZE 21 [[1, 5, 6], [0]] (create_cbuffer_server BLOCK_SIZE)).1 1000).1.sems
      = ⟨300, 0, 1⟩ :=
  (no_credit_leak BLOCK_SIZE 21 [[1, 5, 6], [0]] (create_cbuffer_server BLOCK_SIZE) 1000
    (by decide) (by decide) (by decide) (by decide) rfl (by decide) rfl (by decide)
    (by decide)).2.2.2.2.2.2

/-- The values of best when the records all stand in the buffer before the first read and the
reads run one after the other with no step of a producer in between. -/
theorem best_monotone_laid (C fuel : Nat) (recs : List (List Int)) (sh : Shared) (b0 : Int)
    (hwf : ∀ rec ∈ recs, WellFormed rec) (hpos : ∀ rec ∈ recs, 0 < rec.getD 0 0)
    (hlaid : Laid C sh.cbuf.data sh.cbuf.tail recs) (hused : cells recs ≤ sh.sems.sem_used)
    (hfuel : ∀ rec ∈ recs, 7 * rec.length ≤ fuel) :
    (readAll C fuel recs.length sh b0).2.map Reader.ret = recs.map (fun _ => some 0) ∧
    (readAll C fuel recs.length sh b0).2.map Reader.bestSolution =
      runningMin b0 (recs.map fun rec => rec.getD 0 0) ∧
    List.Chain (fun x y => y ≤ x) b0
      ((readAll C fuel recs.length sh b0).2.map Reader.bestSolution) ∧
    ((readAll C fuel recs.length sh b0).2.map Reader.bestSolution).getLastD b0 =
      (recs.map fun rec => rec.getD 0 0).foldl min b0 := by
  obtain ⟨⟨d, h, tl, st⟩, ⟨f, us, m⟩⟩ := sh
  simp only at hlaid hused
  obtain ⟨u, rfl⟩ : ∃ u, us = u + cells recs := ⟨us - cells recs, by omega⟩
  have hne : ∀ rec ∈ recs, rec.getD 0 0 ≠ 0 := fun r hr => (hpos r hr).ne'
  obtain ⟨tl', rs, hR, hret, -, hbest⟩ :=
    readAll_spec C fuel recs hwf hfuel (fun r hr => hne r (List.mem_of_mem_dropLast hr))
      d h tl st f u m b0 hlaid
  rw [hR]
  simp only
  rw [(hbest hne).1]
  exact ⟨hret, rfl, runningMin_chain _ _, runningMin_last _ _⟩

/-! ### The consumer loop -/

theorem reader_terminal_result (C : Nat) (sh : Shared) (best : Int) (fuel : Nat)
    (hsz : sh.cbuf.data (Int.tmod sh.cbuf.tail C) = 0) (hused : 1 ≤ sh.sems.sem_used)
    (hfuel : 3 ≤ fuel) :
    (read_from_cbuf C fuel [] sh best).2.ret = some 0 ∧
    (read_from_cbuf C fuel [] sh best).2.bestSolution = 0 := by
  obtain ⟨⟨d, h, tl, st⟩, ⟨f, us, m⟩⟩ := sh
  simp only at hsz hused
  obtain ⟨u, rfl⟩ : ∃ u, us = u + 1 := ⟨us - 1, by omega⟩
  obtain ⟨x, rfl⟩ : ∃ x, fuel = 3 + x := ⟨fuel - 3, by omega⟩
  rw [reader_full_terminal C d h tl st f u m best x hsz]
  exact ⟨rfl, rfl⟩

/-- C8: the terminal record ends the consumer loop.  In whatever state an iteration of the loop
begins (any queue content, any values of the locals), for every record limit (`-1`, unlimited,
included), every number of iterations still allowed and every later signal or semaphore outcome:
when the loop test passes and the read of this iteration finds 0 in the cell at the tail, the loop
ends in this iteration by the break of line 108, with bestSolution = 0, and this read is the last
one made. -/
theorem terminal_ends_loop (C fuel : Nat) (limit : Int) (k : Nat) (sigs : List Bool)
    (errs : List (List Bool)) (s : Supervisor)
    (hsig : sigs.headD false = false) (herr : errs.headD [] = [])
    (hsz : s.sh.cbuf.data (Int.tmod s.sh.cbuf.tail C) = 0) (hused : 1 ≤ s.sh.sems.sem_used)
    (hfuel : 3 ≤ fuel) :
    (supervisor_loop C fuel limit (k + 1) sigs errs s).2 = LoopEnd.terminal ∧
    (supervisor_loop C fuel limit (k + 1) sigs errs s).1.bestSolution = 0 ∧
    (supervisor_loop C fuel limit (k + 1) sigs errs s).1.reads =
      s.reads ++ [(read_from_cbuf C fuel [] s.sh s.bestSolution).2] ∧
    (supervisor_loop C fuel limit (k + 1) sigs errs s).1.readCount = s.readCount + 1 ∧
    (supervisor_loop C fuel limit (k + 1) sigs errs s).1.sh =
      (read_from_cbuf C fuel [] s.sh s.bestSolution).1 := by
  obtain ⟨hret, hbest⟩ := reader_terminal_result C s.sh s.bestSolution fuel hsz hused hfuel
  simp only [supervisor_loop, hsig, herr, hret, hbest]
  simp

/-- Witness of C8: the records [0] and [1,5,6] are queued and the limit is 5: one read. -/
theorem terminal_ends_loop_witness :
    (supervisor_loop 5 10 5 (3 + 1) [] []
      (Supervisor.init ⟨⟨fun j => [0, 1, 5, 6].getD j.toNat 0, 4, 0, false⟩, ⟨1, 4, 1⟩⟩)).2
      = LoopEnd.terminal :=
  (terminal_ends_loop 5 10 5 3 [] []
    (Supervisor.init ⟨⟨fun j => [0, 1, 5, 6].getD j.toNat 0, 4, 0, false⟩, ⟨1, 4, 1⟩⟩)
    rfl rfl (by decide) (by decide) (by decide)).1

/-! ### Cancellation -/

theorem write_step_pending (C : Nat) (rec : List Int) (err : Bool) (sh sh' : Shared)
    (w w' : Writer) (hstep : write_step C rec err sh w = some (sh', w')) (k' : Nat)
    (hk' : w'.pc.pending = some k') :
    ∃ k, w.pc.pending = some k ∧
      List.count (SemOp.wait .free) w'.log + k + List.count (SemOp.post .used) w.log =
        List.count (SemOp.wait .free) w.log + k' + List.count (SemOp.post .used) w'.log := by
  obtain ⟨pc, e, i, lg⟩ := w
  cases pc <;> cases err <;> simp only [write_step, Bool.false_eq_true, if_false, if_true] at hstep
  all_goals first
    | (cases hst : sh.cbuf.stop <;> simp [hst] at hstep <;> obtain ⟨_, rfl⟩ := hstep <;>
        simp [WPc.pending] at hk' ⊢ <;> omega)
    | (cases hw : sem_wait sh.sems .free <;> simp [hw] at hstep <;> obtain ⟨_, rfl⟩ := hstep <;>
        simp [WPc.pending] at hk' ⊢ <;> omega)
    | (cases hw : sem_wait sh.sems .mutex <;> simp [hw] at hstep <;> obtain ⟨_, rfl⟩ := hstep <;>
        simp [WPc.pending] at hk' ⊢ <;> omega)
    | (simp at hstep; obtain ⟨_, rfl⟩ := hstep; simp [WPc.pending, Writer.loopPc] at hk' ⊢;
        first | omega | (split at hk' <;> simp [WPc.pending] at hk' <;> omega))
    | (simp at hstep; obtain ⟨_, rfl⟩ := hstep; simp only [Writer.loopPc] at hk';
        split at hk' <;> simp [WPc.pending] at hk' ⊢ <;> omega)

theorem wreach_pending (C : Nat) (rec : List Int) (w : Writer) (h : WReach C rec w) :
    ∀ k, w.pc.pending = some k →
      List.count (SemOp.wait .free) w.log = List.count (SemOp.post .used) w.log + k := by
  induction h with
  | entry => intro k hk; simp [Writer.init, WPc.pending] at hk ⊢; omega
  | step err sh sh' w w' _ hstep ih =>
    intro k' hk'
    obtain ⟨k, hk, heq⟩ := write_step_pending C rec err sh sh' w w' hstep k' hk'
    have := ih k hk
    omega

theorem write_abort_checked (C : Nat) (rec : List Int) (d : Int → Int) (hd tl : Int)
    (f u m : Nat) (w : Writer) (hpc : w.pc = .free0 ∨ w.pc = .freeA) :
    runWriter C rec 3 [] (⟨⟨d, hd, tl, true⟩, ⟨f + 1, u, m⟩⟩, w) =
      (⟨⟨d, hd, tl, true⟩, ⟨f, u, m + 1⟩⟩,
       { w with pc := .done 0, log := w.log ++ [.wait .free, .post .mutex] }) := by
  obtain ⟨pc, e, i, lg⟩ := w
  rcases hpc with hpc | hpc <;> simp only at hpc <;> subst hpc <;>
    simp [runWriter, write_step, sem_wait, sem_post]

/-- C10, as the claim states it, fails in both of its parts.  In each run a producer has written
one record and is in its next `write_to_cbuf` call, the consumer makes a read and sets stop, and
the producer runs on.
(1) Capacity 3, records [1,5,6] and [1,7,8]: the producer waits at line 261 for the free credit of
the length cell (free = 0); it then returns 0 and has written nothing, but its call has waited on
free once and posted on used never, and free + used is 2 instead of 3.
(2) Capacity 5, same records: the producer waits at line 310 for the free credit of the second
cell of the pair, slot 0, which holds 1; after stop is set it stores 8 in slot 0 and returns 1. -/
theorem cancel_counterexample :
    ((stopWhileWaiting 3 [1, 5, 6] [1, 7, 8]).1.2.pc = WPc.free0 ∧
     (stopWhileWaiting 3 [1, 5, 6] [1, 7, 8]).1.1.sems = ⟨0, 3, 0⟩ ∧
     (stopWhileWaiting 3 [1, 5, 6] [1, 7, 8]).2.2.ret = some 0 ∧
     List.count (SemOp.wait .free) (stopWhileWaiting 3 [1, 5, 6] [1, 7, 8]).2.2.log = 1 ∧
     List.count (SemOp.post .used) (stopWhileWaiting 3 [1, 5, 6] [1, 7, 8]).2.2.log = 0 ∧
     (stopWhileWaiting 3 [1, 5, 6] [1, 7, 8]).2.1.sems = ⟨2, 0, 1⟩) ∧
    ((stopWhileWaiting 5 [1, 5, 6] [1, 7, 8]).1.2.pc = WPc.freeB ∧
     (stopWhileWaiting 5 [1, 5, 6] [1, 7, 8]).1.1.sems = ⟨0, 5, 0⟩ ∧
     (stopWhileWaiting 5 [1, 5, 6] [1, 7, 8]).1.1.cbuf.data 0 = 1 ∧
     (stopWhileWaiting 5 [1, 5, 6] [1, 7, 8]).2.1.cbuf.stop = true ∧
     (stopWhileWaiting 5 [1, 5, 6] [1, 7, 8]).2.1.cbuf.data 0 = 8 ∧
     (stopWhileWaiting 5 [1, 5, 6] [1, 7, 8]).2.2.ret = some 1) := by
  decide

/-- C10, amended: cancellation at a checked wait.  A `write_to_cbuf` call, in whatever way it got
there, waits for the free credit of the length cell (line 261) or of the first cell of a pair
(line 287), and stop is true when the credit is there.  Then the call takes the credit, sees
stop, releases the mutex and returns 0: no cell is written, head, tail and used are unchanged,
free is one lower, the mutex one higher, and over the whole call the producer has waited on free
exactly once more than it has posted on used (the credit taken for slot N is not given back).
Any fuel from 3 on gives this result. -/
theorem cancel_at_checked_wait (C : Nat) (rec : List Int) (w : Writer) (sh : Shared)
    (fuel : Nat) (hreach : WReach C rec w) (hpc : w.pc = .free0 ∨ w.pc = .freeA)
    (hstop : sh.cbuf.stop = true) (hfree : 1 ≤ sh.sems.sem_free) (hfuel : 3 ≤ fuel) :
    (runWriter C rec fuel [] (sh, w)).2.ret = some 0 ∧
    (runWriter C rec fuel [] (sh, w)).1.cbuf = sh.cbuf ∧
    (runWriter C rec fuel [] (sh, w)).1.sems.sem_used = sh.sems.sem_used ∧
    (runWriter C rec fuel [] (sh, w)).1.sems.sem_free + 1 = sh.sems.sem_free ∧
    (runWriter C rec fuel [] (sh, w)).1.sems.sem_mutex = sh.sems.sem_mutex + 1 ∧
    (runWriter C rec fuel [] (sh, w)).2.log = w.log ++ [.wait .free, .post .mutex] ∧
    List.count (SemOp.wait .free) (runWriter C rec fuel [] (sh, w)).2.log =
      List.count (SemOp.post .used) (runWriter C rec fuel [] (sh, w)).2.log + 1 := by
  have hbal := wreach_pending C rec w hreach 0 (by rcases hpc with h | h <;> rw [h] <;> rfl)
  obtain ⟨⟨d, h, tl, st⟩, ⟨fr, u, m⟩⟩ := sh
  simp only at hstop hfree
  subst hstop
  obtain ⟨f, rfl⟩ : ∃ f, fr = f + 1 := ⟨fr - 1, by omega⟩
  obtain ⟨x, rfl⟩ : ∃ x, fuel = 3 + x := ⟨fuel - 3, by omega⟩
  rw [runWriter_add, write_abort_checked C rec d h tl f u m w hpc,
    runWriter_done C rec x _ _ 0 rfl]
  refine ⟨rfl, rfl, rfl, rfl, rfl, rfl, ?_⟩
  simp [List.count_cons]
  omega

/-- Witness of C10 (amended): the call of run (1) above at its wait of line 261. -/
theorem cancel_at_checked_wait_witness :
    (runWriter 3 [1, 7, 8] 3 []
      (⟨⟨fun _ => 0, 3, 3, true⟩, ⟨3, 0, 0⟩⟩, ⟨.free0, 1, 0, [.wait .mutex]⟩)).2.ret = some 0 :=
  (cancel_at_checked_wait 3 [1, 7, 8] ⟨.free0, 1, 0, [.wait .mutex]⟩
    ⟨⟨fun _ => 0, 3, 3, true⟩, ⟨3, 0, 0⟩⟩ 3
    (WReach.step false ⟨⟨fun _ => 0, 3, 3, false⟩, ⟨3, 0, 0⟩⟩ ⟨⟨fun _ => 0, 3, 3, false⟩, ⟨3, 0, 0⟩⟩
      ⟨.stop0, 0, 0, [.wait .mutex]⟩ _
      (WReach.step false ⟨⟨fun _ => 0, 3, 3, false⟩, ⟨3, 0, 1⟩⟩ ⟨⟨fun _ => 0, 3, 3, false⟩, ⟨3, 0, 0⟩⟩
        Writer.init _ WReach.entry rfl) rfl)
    (Or.inl rfl) rfl (by decide) (by decide)).1

/-! ### Interleaved executions of one write and one read -/

theorem inv_init (C n : Nat) (rec : List Int) (best : Int) :
    Sys.Inv C n rec best ⟨create_cbuffer_server C, Writer.init, Reader.init best⟩ := by
  simp [Sys.Inv, create_cbuffer_server, Writer.init, Reader.init, Writer.Ok, Reader.Ok,
    Writer.acquired, Writer.released, Writer.stored, Writer.headAt, Writer.mutexAt,
    Reader.acquired, Reader.released, Reader.tailAt]

theorem data_store (C : Nat) (rec : List Int) (d : Int → Int) (lo k : Nat) (v : Int)
    (hv : v = rec.getD k 0) (hroom : k < C + lo)
    (hdata : ∀ j : Nat, lo ≤ j → j < k → d (Int.tmod j C) = rec.getD j 0) :
    ∀ j : Nat, lo ≤ j → j < k + 1 →
      Function.update d (Int.tmod (k : Int) C) v (Int.tmod j C) = rec.getD j 0 := by
  intro j h1 h2
  by_cases hjk : j = k
  · subst hjk; simp [hv]
  · rw [Function.update_noteq, hdata j h1 (by omega)]
    rw [tmod_cursor C _ (by omega), tmod_cursor C _ (by omega)]
    apply emod_ne_of_lt <;> omega

theorem inv_write_step (C n : Nat) (rec : List Int) (best : Int) (s : Sys) (sh' : Shared)
    (w' : Writer) (hn : rec.getD 0 0 = (n : Int)) (hinv : s.Inv C n rec best)
    (hstep : write_step C rec false s.sh s.w = some (sh', w')) :
    Sys.Inv C n rec best ⟨sh', w', s.r⟩ := by
  obtain ⟨⟨⟨d, hd, tl, st⟩, ⟨f, u, m⟩⟩, ⟨pc, e, i, lg⟩, r⟩ := s
  obtain ⟨hw, hr, hfree, hused, hmutex, hhead, htail, hstop, hdata⟩ := hinv
  simp only at hw hr hfree hused hmutex hhead htail hstop hdata hstep
  subst hstop
  cases pc <;>
    simp only [write_step, Bool.false_eq_true, if_false, sem_wait, sem_post,
      circularBuffer.store, Writer.loopPc] at hstep <;>
    (try split at hstep) <;>
    simp only [Option.map_some', Option.map_none', Option.some.injEq, Prod.mk.injEq,
      reduceCtorEq] at hstep <;>
    obtain ⟨rfl, rfl⟩ := hstep <;>
    simp only [Writer.Ok, Writer.acquired, Writer.released, Writer.stored, Writer.headAt,
      Writer.mutexAt] at hw hfree hused hmutex hhead hdata <;>
    refine ⟨?_, hr, ?_, ?_, ?_, ?_, htail, rfl, ?_⟩ <;>
    simp only [Writer.Ok, Writer.acquired, Writer.released, Writer.stored, Writer.headAt,
      Writer.mutexAt] <;>
    first | omega | assumption | trivial | skip
  all_goals first
    | exact ⟨hw, trivial, by omega⟩
    | (subst hhead
       exact data_store C rec d _ 0 e (by rw [hw, hn]) (by omega) hdata)
    | (subst hhead
       exact data_store C rec d _ i _ rfl (by omega) hdata)
    | (subst hhead
       rw [show ((i : Int) + 1) = ((i + 1 : Nat) : Int) by push_cast; rfl]
       exact data_store C rec d _ (i + 1) _ rfl (by omega) hdata)

theorem writer_released_le_stored (w : Writer) : w.released ≤ w.stored := by
  obtain ⟨pc, e, i, lg⟩ := w
  cases pc <;> simp [Writer.released, Writer.stored]

theorem recPairs_succ (rec : List Int) (k : Nat) :
    recPairs rec (k + 1) =
      recPairs rec k ++ [.pair (rec.getD (2 * k + 1) 0) (rec.getD (2 * k + 2) 0)] := by
  simp [recPairs, List.range_succ]

theorem inv_read_step (C n : Nat) (rec : List Int) (best : Int) (s : Sys) (sh' : Shared)
    (r' : Reader) (hn : rec.getD 0 0 = (n : Int)) (hn0 : 0 < n) (hbest : (n : Int) < best)
    (hinv : s.Inv C n rec best) (hstep : read_step C false s.sh s.r = some (sh', r')) :
    Sys.Inv C n rec best ⟨sh', s.w, r'⟩ := by
  obtain ⟨⟨⟨d, hd, tl, st⟩, ⟨f, u, m⟩⟩, w, ⟨pc, sz, i, b, o, lg⟩⟩ := s
  obtain ⟨hw, hr, hfree, hused, hmutex, hhead, htail, hstop, hdata⟩ := hinv
  have hle := writer_released_le_stored w
  simp only at hw hr hfree hused hmutex hhead htail hstop hdata hstep
  subst hstop
  cases pc <;>
    simp only [read_step, Bool.false_eq_true, if_false, sem_wait, sem_post,
      Reader.printPc, Reader.printEnd, Reader.drainPc] at hstep <;>
    simp only [Reader.Ok, Reader.acquired, Reader.released, Reader.tailAt] at hr hfree hused htail hdata
  case used0 | pUsedA | pUsedB =>
    split at hstep
    · simp at hstep
    · simp only [Option.map_some', Option.some.injEq, Prod.mk.injEq] at hstep
      obtain ⟨rfl, rfl⟩ := hstep
      refine ⟨hw, ?_, ?_, ?_, hmutex, hhead, ?_, rfl, ?_⟩ <;>
        simp only [Reader.Ok, Reader.acquired, Reader.released, Reader.tailAt] <;>
        first | omega | assumption
  case size =>
    simp only [Option.some.injEq, Prod.mk.injEq] at hstep
    obtain ⟨rfl, rfl⟩ := hstep
    have h0 := hdata 0 (by omega) (by omega)
    simp only [htail, Nat.cast_zero] at h0 ⊢
    refine ⟨hw, ?_, ?_, ?_, hmutex, hhead, ?_, rfl, ?_⟩ <;>
      simp only [Reader.Ok, Reader.acquired, Reader.released, Reader.tailAt] <;>
      first | omega | assumption | trivial | skip
    exact ⟨hr.1, hr.2, by rw [h0, hn]⟩
  case free0 =>
    obtain ⟨rfl, rfl, rfl⟩ := hr
    rw [if_neg (by omega), if_pos hbest] at hstep
    simp only [Option.some.injEq, Prod.mk.injEq] at hstep
    obtain ⟨rfl, rfl⟩ := hstep
    refine ⟨hw, ?_, ?_, ?_, hmutex, hhead, ?_, rfl, ?_⟩ <;>
      simp only [Reader.Ok, Reader.acquired, Reader.released, Reader.tailAt] <;>
      first
        | omega
        | assumption
        | (intro j h1 h2; exact hdata j (by omega) h2)
        | simp
  case tail1 =>
    obtain ⟨rfl, rfl, rfl⟩ := hr
    rw [if_pos (by omega), if_pos (by omega)] at hstep
    simp only [Option.some.injEq, Prod.mk.injEq] at hstep
    obtain ⟨rfl, rfl⟩ := hstep
    refine ⟨hw, ?_, ?_, ?_, hmutex, hhead, ?_, rfl, ?_⟩ <;>
      simp only [Reader.Ok, Reader.acquired, Reader.released, Reader.tailAt] <;>
      first
        | omega
        | assumption
        | simp [recPairs, hn0]
  case pRead =>
    obtain ⟨rfl, rfl, hi, rfl⟩ := hr
    simp only [Option.some.injEq, Prod.mk.injEq] at hstep
    obtain ⟨rfl, rfl⟩ := hstep
    have h1 := hdata (2 * i + 1) (by omega) (by omega)
    have h2 := hdata (2 * i + 2) (by omega) (by omega)
    have e2 : tl + 1 = ((2 * i + 2 : Nat) : Int) := by rw [htail]; push_cast; ring
    rw [e2, htail, h1, h2]
    refine ⟨hw, ?_, ?_, ?_, hmutex, hhead, ?_, rfl, ?_⟩ <;>
      simp only [Reader.Ok, Reader.acquired, Reader.released, Reader.tailAt] <;>
      first
        | omega
        | assumption
        | exact ⟨trivial, trivial, hi, by rw [recPairs_succ, List.append_assoc]⟩
  case pFreeA =>
    simp only [Option.some.injEq, Prod.mk.injEq] at hstep
    obtain ⟨rfl, rfl⟩ := hstep
    refine ⟨hw, ?_, ?_, ?_, hmutex, hhead, ?_, rfl, ?_⟩ <;>
      simp only [Reader.Ok, Reader.acquired, Reader.released, Reader.tailAt] <;>
      first
        | omega
        | assumption
        | (intro j h1 h2; exact hdata j (by omega) h2)
  case pFreeB =>
    obtain ⟨rfl, rfl, hi, rfl⟩ := hr
    by_cases hlast : i + 1 < n
    · rw [if_pos (by omega), if_pos (by omega)] at hstep
      simp only [Option.some.injEq, Prod.mk.injEq] at hstep
      obtain ⟨rfl, rfl⟩ := hstep
      refine ⟨hw, ?_, ?_, ?_, hmutex, hhead, ?_, rfl, ?_⟩ <;>
        simp only [Reader.Ok, Reader.acquired, Reader.released, Reader.tailAt] <;>
        first
          | omega
          | assumption
          | exact ⟨trivial, trivial, hlast, by simp⟩
          | (intro j h1 h2; exact hdata j (by omega) h2)
    · rw [if_neg (by omega), if_neg (by omega)] at hstep
      simp only [Option.some.injEq, Prod.mk.injEq] at hstep
      obtain ⟨rfl, rfl⟩ := hstep
      have hin : i + 1 = n := by omega
      refine ⟨hw, ?_, ?_, ?_, hmutex, hhead, ?_, rfl, ?_⟩ <;>
        simp only [Reader.Ok, Reader.acquired, Reader.released, Reader.tailAt] <;>
        first
          | omega
          | assumption
          | exact ⟨trivial, hin, trivial, by rw [hin]⟩
          | (intro j h1 h2; exact hdata j (by omega) h2)
  case done => simp at hstep

theorem inv_sys_step (C n : Nat) (rec : List Int) (best : Int) (who : Bool) (s s' : Sys)
    (hn : rec.getD 0 0 = (n : Int)) (hn0 : 0 < n) (hbest : (n : Int) < best)
    (hinv : s.Inv C n rec best) (hstep : sys_step C rec who s = some s') :
    s'.Inv C n rec best := by
  cases who
  · simp only [sys_step, Bool.false_eq_true, if_false, Option.map_eq_some'] at hstep
    obtain ⟨⟨sh', r'⟩, hs, rfl⟩ := hstep
    exact inv_read_step C n rec best s sh' r' hn hn0 hbest hinv hs
  · simp only [sys_step, if_true, Option.map_eq_some'] at hstep
    obtain ⟨⟨sh', w'⟩, hs, rfl⟩ := hstep
    exact inv_write_step C n rec best s sh' w' hn hinv hs

theorem inv_sys_run (C n : Nat) (rec : List Int) (best : Int) (sched : List Bool) (s s' : Sys)
    (hn : rec.getD 0 0 = (n : Int)) (hn0 : 0 < n) (hbest : (n : Int) < best)
    (hinv : s.Inv C n rec best) (hrun : sys_run C rec sched s = some s') :
    s'.Inv C n rec best := by
  induction sched generalizing s with
  | nil =>
    simp only [sys_run, Option.some.injEq] at hrun
    exact hrun ▸ hinv
  | cons who rest ih =>
    simp only [sys_run, Option.bind_eq_some] at hrun
    obtain ⟨s1, h1, h2⟩ := hrun
    exact ih s1 (inv_sys_step C n rec best who s s1 hn hn0 hbest hinv h1) h2

theorem round_trip_safe (C n : Nat) (rec : List Int) (best : Int) (sched : List Bool) (s' : Sys)
    (hn : rec.getD 0 0 = (n : Int)) (hn0 : 0 < n)
    (hbest : (n : Int) < best)
    (hrun : sys_run C rec sched ⟨create_cbuffer_server C, Writer.init, Reader.init best⟩ =
      some s')
    (hw : s'.w.ret ≠ none) (hr : s'.r.ret ≠ none) :
    s'.r.out =
      [Output.solution n] ++
      (List.range n).map (fun j =>
        Output.pair (rec.getD (2 * j + 1) 0) (rec.getD (2 * j + 2) 0)) ++
      [Output.newline] ∧
    s'.r.bestSolution = n ∧ s'.w.ret = some 1 ∧ s'.r.ret = some 0 := by
  have hinv := inv_sys_run C n rec best sched _ s' hn hn0 hbest (inv_init C n rec best) hrun
  obtain ⟨sh, ⟨wpc, e, i, wlg⟩, ⟨rpc, sz, ri, b, o, rlg⟩⟩ := s'
  obtain ⟨hwo, hro, -⟩ := hinv
  cases wpc <;> simp [Writer.ret] at hw
  cases rpc <;> simp [Reader.ret] at hr
  simp only [Writer.Ok] at hwo
  simp only [Reader.Ok] at hro
  obtain ⟨rfl, -⟩ := hwo
  obtain ⟨rfl, -, rfl, rfl⟩ := hro
  exact ⟨rfl, rfl, rfl, rfl⟩

theorem write_step_pos (C n : Nat) (rec : List Int) (sh sh' : Shared) (w w' : Writer)
    (hw : w.Ok n) (hstop : sh.cbuf.stop = false)
    (hstep : write_step C rec false sh w = some (sh', w')) : w'.pos = w.pos + 1 := by
  obtain ⟨pc, e, i, lg⟩ := w
  cases pc <;>
    simp only [write_step, Bool.false_eq_true, if_false, hstop, Writer.loopPc] at hstep <;>
    (try split at hstep) <;>
    simp only [Option.map_eq_some', Option.some.injEq, Prod.mk.injEq, reduceCtorEq] at hstep <;>
    (try obtain ⟨_, _, _, rfl⟩ := hstep) <;>
    simp only [Writer.Ok] at hw <;>
    simp only [Writer.pos] <;>
    omega

theorem read_step_pos (C n : Nat) (rec : List Int) (best : Int) (sh sh' : Shared)
    (r r' : Reader) (hr : r.Ok n rec best) (hn0 : 0 < n) (hbest : (n : Int) < best)
    (hstep : read_step C false sh r = some (sh', r')) : r'.pos = r.pos + 1 := by
  obtain ⟨pc, sz, i, b, o, lg⟩ := r
  cases pc <;>
    simp only [read_step, Bool.false_eq_true, if_false, Reader.printPc, Reader.printEnd]
      at hstep <;>
    simp only [Reader.Ok] at hr
  case free0 =>
    obtain ⟨rfl, -, rfl⟩ := hr
    rw [if_neg (by omega), if_pos hbest] at hstep
    simp only [Option.some.injEq, Prod.mk.injEq] at hstep
    obtain ⟨-, rfl⟩ := hstep
    rfl
  case tail1 =>
    obtain ⟨rfl, -⟩ := hr
    rw [if_pos (by omega)] at hstep
    simp only [Option.some.injEq, Prod.mk.injEq] at hstep
    obtain ⟨-, rfl⟩ := hstep
    rfl
  case pFreeB =>
    obtain ⟨rfl, -, hi, -⟩ := hr
    by_cases hlast : i + 1 < n
    · rw [if_pos (by omega)] at hstep
      simp only [Option.some.injEq, Prod.mk.injEq] at hstep
      obtain ⟨-, rfl⟩ := hstep
      simp only [Reader.pos]; omega
    · rw [if_neg (by omega)] at hstep
      simp only [Option.some.injEq, Prod.mk.injEq] at hstep
      obtain ⟨-, rfl⟩ := hstep
      simp only [Reader.pos]; omega
  all_goals
    simp only [Option.map_eq_some', Option.some.injEq, Prod.mk.injEq, reduceCtorEq]
      at hstep <;>
    first
      | (obtain ⟨_, _, _, rfl⟩ := hstep; simp only [Reader.pos] <;> omega)

theorem writer_pos_le (n : Nat) (w : Writer) (hw : w.Ok n) : w.pos ≤ 7 * n + 7 := by
  obtain ⟨pc, e, i, lg⟩ := w
  cases pc <;> simp only [Writer.Ok] at hw <;> simp only [Writer.pos] <;> omega

theorem reader_pos_le (n : Nat) (rec : List Int) (best : Int) (r : Reader)
    (hr : r.Ok n rec best) : r.pos ≤ 5 * n + 4 := by
  obtain ⟨pc, sz, i, b, o, lg⟩ := r
  cases pc <;> simp only [Reader.Ok] at hr <;> simp only [Reader.pos] <;> omega

theorem sys_step_pos (C n : Nat) (rec : List Int) (best : Int) (who : Bool) (s s' : Sys)
    (hn0 : 0 < n) (hbest : (n : Int) < best)
    (hinv : s.Inv C n rec best) (hstep : sys_step C rec who s = some s') :
    s'.w.pos + s'.r.pos = s.w.pos + s.r.pos + 1 := by
  obtain ⟨hw, hr, -, -, -, -, -, hstop, -⟩ := hinv
  cases who
  · simp only [sys_step, Bool.false_eq_true, if_false, Option.map_eq_some'] at hstep
    obtain ⟨⟨sh', r'⟩, hs, rfl⟩ := hstep
    have := read_step_pos C n rec best s.sh sh' s.r r' hr hn0 hbest hs
    simp only [this]; omega
  · simp only [sys_step, if_true, Option.map_eq_some'] at hstep
    obtain ⟨⟨sh', w'⟩, hs, rfl⟩ := hstep
    have := write_step_pos C n rec s.sh sh' s.w w' hw hstop hs
    simp only [this]; omega

theorem sys_run_pos (C n : Nat) (rec : List Int) (best : Int) (sched : List Bool) (s s' : Sys)
    (hn : rec.getD 0 0 = (n : Int)) (hn0 : 0 < n) (hbest : (n : Int) < best)
    (hinv : s.Inv C n rec best) (hrun : sys_run C rec sched s = some s') :
    s'.w.pos + s'.r.pos = s.w.pos + s.r.pos + sched.length := by
  induction sched generalizing s with
  | nil =>
    simp only [sys_run, Option.some.injEq] at hrun
    subst hrun; rfl
  | cons who rest ih =>
    simp only [sys_run, Option.bind_eq_some] at hrun
    obtain ⟨s1, h1, h2⟩ := hrun
    have e1 := sys_step_pos C n rec best who s s1 hn0 hbest hinv h1
    have e2 := ih s1 (inv_sys_step C n rec best who s s1 hn hn0 hbest hinv h1) h2
    simp only [List.length_cons]; omega

theorem sys_run_append (C : Nat) (rec : List Int) (a b : List Bool) (s : Sys) :
    sys_run C rec (a ++ b) s = (sys_run C rec a s).bind (sys_run C rec b) := by
  induction a generalizing s with
  | nil => rfl
  | cons who rest ih =>
    simp only [List.cons_append, sys_run]
    cases sys_step C rec who s with
    | none => rfl
    | some s1 => simpa using ih s1

theorem no_deadlock (C n : Nat) (rec : List Int) (best : Int) (s : Sys) (hC : 2 ≤ C)
    (hinv : s.Inv C n rec best)
    (hnot : s.w.ret = none ∨ s.r.ret = none) :
    ∃ who s', sys_step C rec who s = some s' := by
  by_cases hwstep : (write_step C rec false s.sh s.w).isSome
  · obtain ⟨p, hp⟩ := Option.isSome_iff_exists.mp hwstep
    exact ⟨true, ⟨p.1, p.2, s.r⟩, by simp [sys_step, hp]⟩
  by_cases hrstep : (read_step C false s.sh s.r).isSome
  · obtain ⟨p, hp⟩ := Option.isSome_iff_exists.mp hrstep
    exact ⟨false, ⟨p.1, s.w, p.2⟩, by simp [sys_step, hp]⟩
  exfalso
  obtain ⟨⟨⟨d, hd, tl, st⟩, ⟨f, u, m⟩⟩, ⟨wpc, e, i, wlg⟩, ⟨rpc, sz, ri, b, o, rlg⟩⟩ := s
  obtain ⟨hw, hr, hfree, hused, hmutex, -, -, hstop, -⟩ := hinv
  simp only at hw hr hfree hused hmutex hstop hwstep hrstep hnot
  subst hstop
  cases wpc <;>
    simp [write_step, sem_wait, Writer.Ok, Writer.acquired, Writer.released, Writer.mutexAt,
      Writer.ret] at hwstep hw hfree hused hmutex hnot <;>
    cases rpc <;>
    simp [read_step, sem_wait, Reader.Ok, Reader.acquired, Reader.released, Reader.ret,
      apply_ite Option.isSome] at hrstep hr hfree hused hnot <;>
    omega

theorem writer_pos_lt (n : Nat) (w : Writer) (hw : w.Ok n) (h : w.ret = none) :
    w.pos < 7 * n + 7 := by
  obtain ⟨pc, e, i, lg⟩ := w
  cases pc <;> simp only [Writer.Ok] at hw <;> simp only [Writer.pos] <;>
    first | omega | simp [Writer.ret] at h

theorem reader_pos_lt (n : Nat) (rec : List Int) (best : Int) (r : Reader)
    (hr : r.Ok n rec best) (h : r.ret = none) : r.pos < 5 * n + 4 := by
  obtain ⟨pc, sz, i, b, o, lg⟩ := r
  cases pc <;> simp only [Reader.Ok] at hr <;> simp only [Reader.pos] <;>
    first | omega | simp [Reader.ret] at h

theorem writer_ret_done (n : Nat) (w : Writer) (hw : w.Ok n) (h : ¬ w.ret = none) :
    w.ret = some 1 := by
  obtain ⟨pc, e, i, lg⟩ := w
  cases pc <;> simp [Writer.ret] at h
  simp only [Writer.Ok] at hw
  rw [Writer.ret, hw.1]

theorem reader_ret_done (n : Nat) (rec : List Int) (best : Int) (r : Reader)
    (hr : r.Ok n rec best) (h : ¬ r.ret = none) : r.ret = some 0 := by
  obtain ⟨pc, sz, i, b, o, lg⟩ := r
  cases pc <;> simp [Reader.ret] at h
  simp only [Reader.Ok] at hr
  rw [Reader.ret, hr.1]

theorem sys_run_length (C n : Nat) (rec : List Int) (best : Int) (sched : List Bool) (s' : Sys)
    (hn : rec.getD 0 0 = (n : Int)) (hn0 : 0 < n) (hbest : (n : Int) < best)
    (hrun : sys_run C rec sched ⟨create_cbuffer_server C, Writer.init, Reader.init best⟩ =
      some s') :
    s'.w.pos + s'.r.pos = sched.length := by
  have := sys_run_pos C n rec best sched _ s' hn hn0 hbest (inv_init C n rec best) hrun
  have h0 : Writer.init.pos = 0 := rfl
  have h1 : (Reader.init best).pos = 0 := rfl
  dsimp only at this
  rw [h0, h1] at this
  omega

/-- With room for at least two cells an interleaved execution of one write (record with `n > 0`
pairs) and one read (called with best above `n`) on a fresh buffer never gets stuck: it has at
most `12n+11` steps and can be continued until both calls have returned. -/
theorem round_trip_completes (C n : Nat) (rec : List Int) (best : Int) (hC : 2 ≤ C)
    (hn : rec.getD 0 0 = (n : Int)) (hn0 : 0 < n) (hbest : (n : Int) < best)
    (sched : List Bool) (s' : Sys)
    (hrun : sys_run C rec sched ⟨create_cbuffer_server C, Writer.init, Reader.init best⟩ =
      some s') :
    sched.length ≤ 12 * n + 11 ∧
    ∃ more s'', sys_run C rec (sched ++ more)
        ⟨create_cbuffer_server C, Writer.init, Reader.init best⟩ = some s'' ∧
      s''.w.ret = some 1 ∧ s''.r.ret = some 0 := by
  have hbound : ∀ (sched : List Bool) (s' : Sys),
      sys_run C rec sched ⟨create_cbuffer_server C, Writer.init, Reader.init best⟩ = some s' →
      sched.length ≤ 12 * n + 11 := by
    intro sched s' hrun
    have hinv := inv_sys_run C n rec best sched _ s' hn hn0 hbest (inv_init C n rec best) hrun
    have hpos := sys_run_length C n rec best sched s' hn hn0 hbest hrun
    have hwle := writer_pos_le n s'.w hinv.1
    have hrle := reader_pos_le n rec best s'.r hinv.2.1
    omega
  refine ⟨hbound sched s' hrun, ?_⟩
  -- continue the execution, by induction on the number of steps still possible
  obtain ⟨k, hk⟩ : ∃ k, 12 * n + 11 - sched.length = k := ⟨_, rfl⟩
  induction k generalizing sched s' with
  | zero =>
    have hinv := inv_sys_run C n rec best sched _ s' hn hn0 hbest (inv_init C n rec best) hrun
    have hpos := sys_run_length C n rec best sched s' hn hn0 hbest hrun
    have hle := hbound sched s' hrun
    have hw : ¬ s'.w.ret = none := fun h => by
      have := writer_pos_lt n s'.w hinv.1 h
      have := reader_pos_le n rec best s'.r hinv.2.1
      omega
    have hr : ¬ s'.r.ret = none := fun h => by
      have := reader_pos_lt n rec best s'.r hinv.2.1 h
      have := writer_pos_le n s'.w hinv.1
      omega
    exact ⟨[], s', by simpa using hrun, writer_ret_done n s'.w hinv.1 hw,
      reader_ret_done n rec best s'.r hinv.2.1 hr⟩
  | succ k ih =>
    have hinv := inv_sys_run C n rec best sched _ s' hn hn0 hbest (inv_init C n rec best) hrun
    by_cases hdone : s'.w.ret = none ∨ s'.r.ret = none
    · obtain ⟨who, s1, hstep⟩ := no_deadlock C n rec best s' hC hinv hdone
      have hrun1 : sys_run C rec (sched ++ [who])
          ⟨create_cbuffer_server C, Writer.init, Reader.init best⟩ = some s1 := by
        rw [sys_run_append, hrun]
        simp [sys_run, hstep]
      obtain ⟨more, s'', h1, h2⟩ := ih (sched ++ [who]) s1 hrun1
        (by simp only [List.length_append, List.length_singleton]; omega)
      exact ⟨who :: more, s'', by simpa using h1, h2⟩
    · have hw : ¬ s'.w.ret = none := fun h => hdone (Or.inl h)
      have hr : ¬ s'.r.ret = none := fun h => hdone (Or.inr h)
      exact ⟨[], s', by simpa using hrun, writer_ret_done n s'.w hinv.1 hw,
        reader_ret_done n rec best s'.r hinv.2.1 hr⟩

/-- C7: round trip through the queue.  One `write_to_cbuf` of a record with `n > 0` pairs and one
`read_from_cbuf` called with `bestSolution > n` start on a fresh buffer of any capacity `C` and
are interleaved in any way (the schedule says who makes each step, and every scheduled step is
one the process can make).  If both calls have returned at the end, the consumer has printed
exactly the pairs `(a1,b1), ..., (an,bn)` of the record in order (after the line's header and
before its newline), its best is `n`, the write has returned 1 and the read 0.  Such executions
exist whenever the buffer has room for two cells: every execution then has at most `12n+11`
steps and can be continued until both calls have returned. -/
theorem round_trip (C n : Nat) (rec : List Int) (best : Int) (sched : List Bool) (s' : Sys)
    (_hlen : rec.length = 2 * n + 1) (hn : rec.getD 0 0 = (n : Int)) (hn0 : 0 < n)
    (hbest : (n : Int) < best)
    (hrun : sys_run C rec sched ⟨create_cbuffer_server C, Writer.init, Reader.init best⟩ =
      some s') :
    (s'.w.ret ≠ none → s'.r.ret ≠ none →
      s'.r.out =
        [Output.solution n] ++
        (List.range n).map (fun j =>
          Output.pair (rec.getD (2 * j + 1) 0) (rec.getD (2 * j + 2) 0)) ++
        [Output.newline] ∧
      s'.r.bestSolution = n ∧ s'.w.ret = some 1 ∧ s'.r.ret = some 0) ∧
    (2 ≤ C →
      sched.length ≤ 12 * n + 11 ∧
      ∃ more s'', sys_run C rec (sched ++ more)
          ⟨create_cbuffer_server C, Writer.init, Reader.init best⟩ = some s'' ∧
        s''.w.ret = some 1 ∧ s''.r.ret = some 0) :=
  ⟨fun hw hr => round_trip_safe C n rec best sched s' hn hn0 hbest hrun hw hr,
   fun hC => round_trip_completes C n rec best hC hn hn0 hbest sched s' hrun⟩

/-- Witness of C7: capacity 4, record [2,5,6,7,8], best 1000.  The record is longer than the
buffer: the producer runs until it waits for a free credit (17 steps), the consumer until it
waits for a used credit (10 steps), then the producer finishes (4 steps) and the consumer
finishes (4 steps).  The consumer prints 5-6 7-8 and best becomes 2. -/
theorem round_trip_witness :
    (sys_run 4 [2, 5, 6, 7, 8]
        (List.replicate 17 true ++ List.replicate 10 false ++ List.replicate 4 true ++
          List.replicate 4 false)
        ⟨create_cbuffer_server 4, Writer.init, Reader.init 1000⟩).map
      (fun s => (s.r.out, s.r.bestSolution)) =
      some ([Output.solution 2, Output.pair 5 6, Output.pair 7 8, Output.newline], 2) := by
  have hret : (sys_run 4 [2, 5, 6, 7, 8]
      (List.replicate 17 true ++ List.replicate 10 false ++ List.replicate 4 true ++
        List.replicate 4 false)
      ⟨create_cbuffer_server 4, Writer.init, Reader.init 1000⟩).map
        (fun s => (s.w.ret, s.r.ret)) = some (some 1, some 0) := by decide
  cases hrun : sys_run 4 [2, 5, 6, 7, 8]
      (List.replicate 17 true ++ List.replicate 10 false ++ List.replicate 4 true ++
        List.replicate 4 false)
      ⟨create_cbuffer_server 4, Writer.init, Reader.init 1000⟩ with
  | none => rw [hrun] at hret; exact absurd hret (by simp)
  | some s' =>
    rw [hrun] at hret
    simp only [Option.map_some', Option.some.injEq, Prod.mk.injEq] at hret
    have h := (round_trip 4 2 [2, 5, 6, 7, 8] 1000 _ s' (by decide) (by decide) (by decide)
      (by decide) hrun).1 (by rw [hret.1]; simp) (by rw [hret.2]; simp)
    simp only [Option.map_some', h.1, h.2.1]
    decide

/-! ### Abort after the first free acquire -/

theorem writer_to_recheck (C : Nat) (rec : List Int) (d : Int → Int) (hd tl : Int)
    (f u m : Nat) :
    runWriter C rec 3 [] (⟨⟨d, hd, tl, false⟩, ⟨f + 1, u, m + 1⟩⟩, Writer.init) =
      (⟨⟨d, hd, tl, false⟩, ⟨f, u, m⟩⟩,
       ⟨.stop1, rec.getD 0 0, 0, [.wait .mutex, .wait .free]⟩) := by
  simp [runWriter, write_step, sem_wait, Writer.init]

theorem writer_recheck_abort (C : Nat) (rec : List Int) (d : Int → Int) (hd tl : Int)
    (f u m : Nat) (w : Writer) (hpc : w.pc = .stop1) :
    runWriter C rec 2 [] (⟨⟨d, hd, tl, true⟩, ⟨f, u, m⟩⟩, w) =
      (⟨⟨d, hd, tl, true⟩, ⟨f, u, m + 1⟩⟩,
       { w with pc := .done 0, log := w.log ++ [.post .mutex] }) := by
  obtain ⟨pc, e, i, lg⟩ := w
  simp only at hpc
  subst hpc
  simp [runWriter, write_step, sem_post]

/-- C11: abort after the first free acquire keeps the credit.  A `write_to_cbuf` call is entered
with stop false, the mutex free and a free credit there; it takes the mutex, sees stop false
(line 248) and takes the free credit of the length cell (line 261), which brings it to the
re-check of line 269.  stop is set at that moment.  The call then returns 0 with every slot, head,
tail and used as they were before the call and the mutex at its value before the call, and free
is exactly one lower than before the call: the call has waited on free once and has posted
neither free nor used.  Any fuel from 2 on gives this result. -/
theorem abort_after_first_acquire (C : Nat) (rec : List Int) (sh : Shared) (fuel : Nat)
    (hstop : sh.cbuf.stop = false) (hmutex : 1 ≤ sh.sems.sem_mutex)
    (hfree : 1 ≤ sh.sems.sem_free) (hfuel : 2 ≤ fuel) :
    (runWriter C rec 3 [] (sh, Writer.init)).2.pc = .stop1 ∧
    (runWriter C rec 3 [] (sh, Writer.init)).1.cbuf.stop = false ∧
    (runWriter C rec fuel []
      (set_stop (runWriter C rec 3 [] (sh, Writer.init)).1,
       (runWriter C rec 3 [] (sh, Writer.init)).2)).2.ret = some 0 ∧
    (runWriter C rec fuel []
      (set_stop (runWriter C rec 3 [] (sh, Writer.init)).1,
       (runWriter C rec 3 [] (sh, Writer.init)).2)).1.cbuf =
      { sh.cbuf with stop := true } ∧
    (runWriter C rec fuel []
      (set_stop (runWriter C rec 3 [] (sh, Writer.init)).1,
       (runWriter C rec 3 [] (sh, Writer.init)).2)).1.sems.sem_used = sh.sems.sem_used ∧
    (runWriter C rec fuel []
      (set_stop (runWriter C rec 3 [] (sh, Writer.init)).1,
       (runWriter C rec 3 [] (sh, Writer.init)).2)).1.sems.sem_mutex = sh.sems.sem_mutex ∧
    (runWriter C rec fuel []
      (set_stop (runWriter C rec 3 [] (sh, Writer.init)).1,
       (runWriter C rec 3 [] (sh, Writer.init)).2)).1.sems.sem_free + 1 = sh.sems.sem_free ∧
    (runWriter C rec fuel []
      (set_stop (runWriter C rec 3 [] (sh, Writer.init)).1,
       (runWriter C rec 3 [] (sh, Writer.init)).2)).2.log =
      [.wait .mutex, .wait .free, .post .mutex] := by
  obtain ⟨⟨d, h, tl, st⟩, ⟨fr, u, mu⟩⟩ := sh
  simp only at hstop hmutex hfree
  subst hstop
  obtain ⟨f, rfl⟩ : ∃ f, fr = f + 1 := ⟨fr - 1, by omega⟩
  obtain ⟨m, rfl⟩ : ∃ m, mu = m + 1 := ⟨mu - 1, by omega⟩
  obtain ⟨x, rfl⟩ : ∃ x, fuel = 2 + x := ⟨fuel - 2, by omega⟩
  rw [writer_to_recheck]
  simp only [set_stop]
  rw [runWriter_add, writer_recheck_abort C rec d h tl f u m _ rfl,
    runWriter_done C rec x _ _ 0 rfl]
  refine ⟨?_, ?_, ?_, ?_, ?_, ?_, ?_, ?_⟩ <;> trivial

/-- Witness of C11: capacity 3, the record [1,7,8], a fresh buffer. -/
theorem abort_after_first_acquire_witness :
    (runWriter 3 [1, 7, 8] 2 []
      (set_stop (runWriter 3 [1, 7, 8] 3 [] (create_cbuffer_server 3, Writer.init)).1,
       (runWriter 3 [1, 7, 8] 3 [] (create_cbuffer_server 3, Writer.init)).2)).1.sems
      = ⟨2, 0, 1⟩ ∧
    (runWriter 3 [1, 7, 8] 2 []
      (set_stop (runWriter 3 [1, 7, 8] 3 [] (create_cbuffer_server 3, Writer.init)).1,
       (runWriter 3 [1, 7, 8] 3 [] (create_cbuffer_server 3, Writer.init)).2)).2.ret = some 0 :=
  ⟨by decide,
   (abort_after_first_acquire 3 [1, 7, 8] (create_cbuffer_server 3) 2 rfl (by decide) (by decide)
     (by decide)).2.2.1⟩

/-! ### The initial state -/

/-- C15: the initial state.  Whenever `create_cbuffer_server` succeeds (returns a buffer, not
`NULL`) and no semaphore of the three names existed before the call, the queue starts with
head = 0, tail = 0, stop = false, free = `BLOCK_SIZE` = 300, used = 0 and mutex = 1; when the
shared memory object did not exist either, every cell is 0 and the state is the one that the
runs above start from, `create_cbuffer_server BLOCK_SIZE`. -/
theorem create_fresh (os : Objects) (errs : CreateErrors) (sh : Shared)
    (hfree : os.sem_free = none) (hused : os.sem_used = none) (hmutex : os.sem_mutex = none)
    (hcreate : os.create_cbuffer_server errs = some sh) :
    sh.cbuf.head = 0 ∧ sh.cbuf.tail = 0 ∧ sh.cbuf.stop = false ∧
    sh.sems.sem_free = BLOCK_SIZE ∧ BLOCK_SIZE = 300 ∧
    sh.sems.sem_used = 0 ∧ sh.sems.sem_mutex = 1 ∧
    (os.shm = none → sh = create_cbuffer_server BLOCK_SIZE) := by
  obtain ⟨shm, f, u, m⟩ := os
  simp only at hfree hused hmutex
  subst hfree hused hmutex
  simp only [Objects.create_cbuffer_server] at hcreate
  split_ifs at hcreate
  simp only [Option.some.injEq] at hcreate
  subst hcreate
  refine ⟨rfl, rfl, rfl, rfl, rfl, rfl, rfl, ?_⟩
  intro h
  simp only at h
  subst h
  rfl

/-- Witness of C15: no object exists and no system call fails. -/
theorem create_fresh_witness :
    (Objects.mk none none none none).create_cbuffer_server CreateErrors.noErrors =
      some (create_cbuffer_server BLOCK_SIZE) ∧
    (create_cbuffer_server BLOCK_SIZE).sems.sem_free = BLOCK_SIZE ∧
    (create_cbuffer_server BLOCK_SIZE).sems.sem_used = 0 ∧
    (create_cbuffer_server BLOCK_SIZE).sems.sem_mutex = 1 :=
  ⟨rfl,
   (create_fresh ⟨none, none, none, none⟩ CreateErrors.noErrors (create_cbuffer_server BLOCK_SIZE)
     rfl rfl rfl rfl).2.2.2.1,
   (create_fresh ⟨none, none, none, none⟩ CreateErrors.noErrors (create_cbuffer_server BLOCK_SIZE)
     rfl rfl rfl rfl).2.2.2.2.2.1,
   (create_fresh ⟨none, none, none, none⟩ CreateErrors.noErrors (create_cbuffer_server BLOCK_SIZE)
     rfl rfl rfl rfl).2.2.2.2.2.2.1⟩

/-! ### Failing semaphore calls -/

theorem runWriter_returned (C : Nat) (rec : List Int) (k : Nat) (errs : List Bool) (sh : Shared)
    (w : Writer) (r : Int) (h : w.pc = .done r) : runWriter C rec k errs (sh, w) = (sh, w) := by
  cases k with
  | zero => rfl
  | succ k => simp [runWriter, write_step, h]

theorem runReader_returned (C : Nat) (k : Nat) (errs : List Bool) (sh : Shared)
    (r : Reader) (v : Int) (h : r.pc = .done v) : runReader C k errs (sh, r) = (sh, r) := by
  cases k with
  | zero => rfl
  | succ k => simp [runReader, read_step, h]

theorem write_lock_fails (C : Nat) (rec : List Int) (fuel : Nat) (e : List Bool) (sh : Shared) :
    write_to_cbuf C rec (fuel + 1) (true :: e) sh =
      (sh, { Writer.init with pc := .done EXIT_FAILURE }) := by
  simp only [write_to_cbuf, runWriter, write_step, Writer.init, List.headD_cons, if_true,
    List.tail_cons]
  exact runWriter_returned C rec fuel e sh _ EXIT_FAILURE rfl

theorem read_wait_fails (C : Nat) (fuel : Nat) (e : List Bool) (sh : Shared) (best : Int) :
    read_from_cbuf C (fuel + 1) (true :: e) sh best =
      (sh, { Reader.init best with pc := .done EXIT_FAILURE }) := by
  simp only [read_from_cbuf, runReader, read_step, Reader.init, List.headD_cons, if_true,
    List.tail_cons]
  exact runReader_returned C fuel e sh _ EXIT_FAILURE rfl

/-- C17 fails on the code.  (1) For every record and every state, when the first semaphore call
of `write_to_cbuf`, the `sem_wait` on the mutex of line 243, reports an error, the call returns
`EXIT_FAILURE`, which is 1, the value that stands for a published record: the shared state is
untouched, no cell was written and no semaphore call went through.  (2) Capacity 3, the record
[1,7,8], stop already set and the `sem_post` on the mutex of line 249 reporting an error: the
record is discarded because stop was observed, and the call returns -1, not 0. -/
theorem write_return_value_bug :
    (∀ (C : Nat) (rec : List Int) (fuel : Nat) (e : List Bool) (sh : Shared),
      (write_to_cbuf C rec (fuel + 1) (true :: e) sh).2.ret = some 1 ∧
      (write_to_cbuf C rec (fuel + 1) (true :: e) sh).1 = sh ∧
      (write_to_cbuf C rec (fuel + 1) (true :: e) sh).2.log = []) ∧
    ((write_to_cbuf 3 [1, 7, 8] 10 [false, false, true]
        (set_stop (create_cbuffer_server 3))).2.ret = some (-1) ∧
     (write_to_cbuf 3 [1, 7, 8] 10 [false, false, true]
        (set_stop (create_cbuffer_server 3))).1.cbuf.head = 0 ∧
     (write_to_cbuf 3 [1, 7, 8] 10 [false, false, true]
        (set_stop (create_cbuffer_server 3))).1.sems = ⟨3, 0, 0⟩) := by
  refine ⟨fun C rec fuel e sh => ?_, by decide⟩
  rw [write_lock_fails]
  exact ⟨rfl, rfl, rfl⟩

/-- C16 fails on the code: a failing `sem_wait` is not fatal to either loop.  `write_to_cbuf` and
`read_from_cbuf` return `EXIT_FAILURE` (1) when a `sem_wait` reports an error (lines 245, 266,
344, ...), and both loops test the return value against -1 only.
(1) For every state of the consumer loop, when the `sem_wait` on used of line 342 fails in a
read, the loop does not end as failed: it counts the call as a read (`readCount` one higher,
`solutionFound` = 1) and leaves the shared state as it was.
(2) Capacity 300, a fresh buffer, the generator produces [1,0,1] twice and the `sem_wait` on the
mutex of line 243 fails in the first `write_to_cbuf`: the loop goes on with its second
iteration, whose write publishes the record; the first call returned 1 and wrote nothing. -/
theorem semaphore_failure_not_fatal :
    (∀ (C fuel : Nat) (limit : Int) (sigs e : List Bool) (errs : List (List Bool))
        (s : Supervisor),
      (supervisor_loop C (fuel + 1) limit 1 (false :: sigs) ((true :: e) :: errs) s).2
          ≠ LoopEnd.failed ∧
      (supervisor_loop C (fuel + 1) limit 1 (false :: sigs) ((true :: e) :: errs) s).1.readCount
          = s.readCount + 1 ∧
      (supervisor_loop C (fuel + 1) limit 1 (false :: sigs)
          ((true :: e) :: errs) s).1.solutionFound = 1 ∧
      (supervisor_loop C (fuel + 1) limit 1 (false :: sigs) ((true :: e) :: errs) s).1.sh
          = s.sh) ∧
    ((generator_loop 300 20 [[1, 0, 1], [1, 0, 1]] [[true]]
        ⟨create_cbuffer_server 300, []⟩).2 = GenEnd.more ∧
     (generator_loop 300 20 [[1, 0, 1], [1, 0, 1]] [[true]]
        ⟨create_cbuffer_server 300, []⟩).1.writes.map Writer.ret = [some 1, some 1] ∧
     (generator_loop 300 20 [[1, 0, 1], [1, 0, 1]] [[true]]
        ⟨create_cbuffer_server 300, []⟩).1.writes.map (fun w => w.log.length) = [0, 8] ∧
     (generator_loop 300 20 [[1, 0, 1], [1, 0, 1]] [[true]]
        ⟨create_cbuffer_server 300, []⟩).1.sh.cbuf.head = 3) := by
  refine ⟨fun C fuel limit sigs e errs s => ?_, by decide⟩
  simp only [supervisor_loop, List.headD_cons, read_wait_fails, Reader.ret, Reader.init,
    EXIT_FAILURE]
  simp only [Bool.false_eq_true, if_false]
  split_ifs <;> first | contradiction | simp

/-! ### The return paths of supervisor -/

/-- C19 fails on the code.  (1) For every buffer that `create_cbuffer_server` returned, when the
signal flag is set at the first test of line 93, `supervisor` prints the no-solution message and
returns `EXIT_SUCCESS` through the early return of line 116: stop is not set and
`close_cbuff_server` is not called.  (2) Capacity 3, a buffer on which one used credit stands and
the `sem_post` on free of line 347 reports an error in the first read: `supervisor` calls
`close_cbuff_server` and returns `EXIT_FAILURE` (lines 97-102) without having set stop. -/
theorem supervisor_teardown_bug :
    (∀ (C fuel : Nat) (limit : Int) (iters : Nat) (sigs : List Bool) (errs : List (List Bool))
        (closeFails : Bool) (sh : Shared),
      supervisor C fuel limit (iters + 1) (true :: sigs) errs closeFails (some sh) =
        some (EXIT_SUCCESS, [Action.noSolution])) ∧
    supervisor 3 10 (-1) 5 [] [[false, false, true]] false
        (some ⟨⟨fun _ => 0, 1, 0, false⟩, ⟨2, 1, 1⟩⟩) =
      some (EXIT_FAILURE, [Action.close]) := by
  refine ⟨fun C fuel limit iters sigs errs closeFails sh => ?_, by decide⟩
  simp [supervisor, supervisor_loop, Supervisor.init]

/-- C20 fails on the code.  For every buffer that `create_cbuffer_server` returned and no limit
given (-1): the `sem_wait` on used of line 342 reports an error in the first read (as it does
when a signal interrupts the wait), and the signal flag is set at the next test of line 93.  No
record was read, yet `supervisor` prints no no-solution message: it prints the best-size report
with the start value 100000 of `bestSolution`, sets stop and closes the buffer. -/
theorem no_solution_bug (C fuel iters : Nat) (sigs e : List Bool) (errs : List (List Bool))
    (closeFails : Bool) (sh : Shared) :
    supervisor C (fuel + 1) (-1) (iters + 2) (false :: true :: sigs) ((true :: e) :: errs)
        closeFails (some sh) =
      some (if closeFails then EXIT_FAILURE else EXIT_SUCCESS,
            [Action.best 100000, Action.setStop, Action.close]) ∧
    (supervisor_loop C (fuel + 1) (-1) (iters + 2) (false :: true :: sigs) ((true :: e) :: errs)
        (Supervisor.init sh)).1.reads.map Reader.log = [[]] := by
  simp [supervisor, supervisor_loop, Supervisor.init, read_wait_fails, Reader.ret, Reader.init,
    EXIT_FAILURE]

/-! ### The record-count limit -/

theorem loop_iter (C fuel : Nat) (limit : Int) (j : Nat) (s : Supervisor) (d : Int → Int)
    (hd tl : Int) (st : Bool) (f u m n : Nat)
    (hs : s.sh = ⟨⟨d, hd, tl, st⟩, ⟨f, u + (2 * n + 1), m⟩⟩)
    (hsz : d (Int.tmod tl C) = (n : Int)) (hn : 0 < n) (hfuel : 7 * (2 * n + 1) ≤ fuel)
    (hbest : 0 < s.bestSolution) :
    ∃ r : Reader, r.ret = some 0 ∧
      supervisor_loop C fuel limit (j + 1) [] [] s =
        if s.readCount + 1 ≥ limit ∧ limit ≠ -1 then
          ({ sh := ⟨⟨d, hd, tl + (2 * n + 1 : Nat), st⟩, ⟨f + (2 * n + 1), u, m⟩⟩,
             bestSolution := min s.bestSolution n, readCount := s.readCount + 1,
             solutionFound := 1, reads := s.reads ++ [r] }, .limit)
        else
          supervisor_loop C fuel limit j [] []
            { sh := ⟨⟨d, hd, tl + (2 * n + 1 : Nat), st⟩, ⟨f + (2 * n + 1), u, m⟩⟩,
              bestSolution := min s.bestSolution n, readCount := s.readCount + 1,
              solutionFound := 1, reads := s.reads ++ [r] } := by
  obtain ⟨x, hx⟩ : ∃ x, fuel = 7 * (2 * n + 1) + x := ⟨fuel - 7 * (2 * n + 1), by omega⟩
  obtain ⟨o, hcall⟩ := reader_call C d hd tl st f u m s.bestSolution n x hsz hn
  rw [← hx, ← hs] at hcall
  refine ⟨⟨.done 0, n, n, min s.bestSolution n, o, readOps n⟩, rfl, ?_⟩
  have hmin : min s.bestSolution (n : Int) ≠ 0 := by
    have : (0 : Int) < min s.bestSolution (n : Int) := lt_min hbest (by exact_mod_cast hn)
    omega
  simp only [supervisor_loop, List.headD_nil, Bool.false_eq_true, if_false, hcall, Reader.ret,
    List.tail_nil, hmin]
  simp

theorem loop_prefix (C fuel : Nat) (limit : Int) (j : Nat) (recs : List (List Int))
    (hwf : ∀ rec ∈ recs, WellFormed rec) (hfuel : ∀ rec ∈ recs, 7 * rec.length ≤ fuel)
    (hterm : ∀ rec ∈ recs, rec.getD 0 0 ≠ 0)
    (s : Supervisor) (d : Int → Int) (hd tl : Int) (st : Bool) (f u m : Nat)
    (hs : s.sh = ⟨⟨d, hd, tl, st⟩, ⟨f, u + cells recs, m⟩⟩)
    (hlaid : Laid C d tl recs) (hbest : 0 < s.bestSolution)
    (hlim : limit = -1 ∨ s.readCount + recs.length < limit) :
    ∃ (s' : Supervisor) (rs : List Reader),
      supervisor_loop C fuel limit (recs.length + j) [] [] s =
        supervisor_loop C fuel limit j [] [] s' ∧
      s'.sh = ⟨⟨d, hd, tl + cells recs, st⟩, ⟨f + cells recs, u, m⟩⟩ ∧
      s'.readCount = s.readCount + recs.length ∧
      0 < s'.bestSolution ∧
      s'.reads = s.reads ++ rs ∧
      rs.map Reader.ret = recs.map (fun _ => some 0) := by
  induction recs generalizing s tl f u with
  | nil =>
    refine ⟨s, [], by simp, ?_, by simp, hbest, by simp, by simp⟩
    simpa [cells] using hs
  | cons rec rest ih =>
    have hwf1 := hwf rec (List.mem_cons_self _ _)
    obtain ⟨hsz, hlen⟩ := wellFormed_size rec hwf1
    obtain ⟨hcell, hlaid'⟩ := hlaid
    rw [hsz] at hcell
    have hz := hterm rec (List.mem_cons_self _ _)
    have hn : 0 < rec.length / 2 := by omega
    have hu : u + cells (rec :: rest) = u + cells rest + (2 * (rec.length / 2) + 1) := by
      rw [cells_cons]; omega
    rw [hu] at hs
    obtain ⟨r, hret, hiter⟩ := loop_iter C fuel limit (rest.length + j) s d hd tl st f
      (u + cells rest) m (rec.length / 2) hs hcell hn
      (by have := hfuel rec (List.mem_cons_self _ _); omega) hbest
    simp only [List.length_cons] at hlim
    push_cast at hlim
    have hno : ¬ (s.readCount + 1 ≥ limit ∧ limit ≠ -1) := by omega
    rw [if_neg hno] at hiter
    have hpos : (0 : Int) < min s.bestSolution ((rec.length / 2 : Nat) : Int) :=
      lt_min hbest (by exact_mod_cast hn)
    rw [hlen] at hlaid'
    obtain ⟨s', rs, hrun, hsh, hcount, hb, hreads, hrets⟩ :=
      ih (fun r hr => hwf r (List.mem_cons_of_mem _ hr))
        (fun r hr => hfuel r (List.mem_cons_of_mem _ hr))
        (fun r hr => hterm r (List.mem_cons_of_mem _ hr))
        { sh := ⟨⟨d, hd, tl + (2 * (rec.length / 2) + 1 : Nat), st⟩,
                 ⟨f + (2 * (rec.length / 2) + 1), u + cells rest, m⟩⟩,
          bestSolution := min s.bestSolution ((rec.length / 2 : Nat) : Int),
          readCount := s.readCount + 1, solutionFound := 1, reads := s.reads ++ [r] }
        (tl + (2 * (rec.length / 2) + 1 : Nat)) (f + (2 * (rec.length / 2) + 1)) u rfl hlaid'
        hpos (by simp only; omega)
    simp only at hcount hreads
    have e1 : tl + ((2 * (rec.length / 2) + 1 : Nat) : Int) + (cells rest : Int) =
        tl + (cells (rec :: rest) : Int) := by
      rw [cells_cons]; push_cast; omega
    have e2 : f + (2 * (rec.length / 2) + 1) + cells rest = f + cells (rec :: rest) := by
      rw [cells_cons]; omega
    have e3 : (rec :: rest).length + j = rest.length + j + 1 := by
      simp only [List.length_cons]; omega
    refine ⟨s', r :: rs, ?_, ?_, ?_, hb, ?_, ?_⟩
    · rw [← hrun, ← hiter, e3]
    · rw [hsh, e1, e2]
    · rw [hcount]
      simp only [List.length_cons]
      push_cast
      omega
    · rw [hreads]
      simp
    · simp [hrets, hret]

theorem laid_append (C : Nat) (d : Int → Int) (t : Int) (a b : List (List Int)) :
    Laid C d t (a ++ b) ↔ Laid C d t a ∧ Laid C d (t + cells a) b := by
  induction a generalizing t with
  | nil => simp [Laid, cells]
  | cons x a ih =>
    show (_ ∧ Laid C d (t + x.length) (a ++ b)) ↔
      ((_ ∧ Laid C d (t + x.length) a) ∧ Laid C d (t + cells (x :: a)) b)
    rw [ih, cells_cons, and_assoc]
    push_cast
    rw [add_assoc]

theorem cells_append (a b : List (List Int)) : cells (a ++ b) = cells a + cells b := by
  simp [cells]

theorem loop_no_limit (C fuel : Nat) (iters : Nat) (sigs : List Bool) (errs : List (List Bool))
    (s : Supervisor) : (supervisor_loop C fuel (-1) iters sigs errs s).2 ≠ LoopEnd.limit := by
  induction iters generalizing sigs errs s with
  | zero => simp [supervisor_loop]
  | succ k ih =>
    simp only [supervisor_loop, ne_eq, not_true_eq_false, and_false, if_false]
    by_cases hsig : sigs.headD false = true
    · rw [if_pos hsig]; simp
    · rw [if_neg hsig]
      cases (read_from_cbuf C fuel (errs.headD []) s.sh s.bestSolution).2.ret with
      | none => simp
      | some v =>
        simp only
        by_cases hv : v = -1
        · rw [if_pos hv]; simp
        · rw [if_neg hv]
          by_cases hb : (read_from_cbuf C fuel (errs.headD []) s.sh s.bestSolution).2.bestSolution
              = 0
          · rw [if_pos hb]; simp
          · rw [if_neg hb]
            exact ih _ _ _

/-- The consumer loop on a buffer in which the records stand at the tail before the first
read, the reads running one after the other with no step of a producer in between. -/
theorem limit_ends_loop_laid (C fuel : Nat) (recs : List (List Int)) (d : Int → Int) (hd tl : Int)
    (st : Bool) (f u m j : Nat)
    (hwf : ∀ rec ∈ recs, WellFormed rec) (hfuel : ∀ rec ∈ recs, 7 * rec.length ≤ fuel)
    (hterm : ∀ rec ∈ recs, rec.getD 0 0 ≠ 0) (hL : 1 ≤ recs.length)
    (hlaid : Laid C d tl recs) :
    ((supervisor_loop C fuel recs.length (recs.length + j) [] []
        (Supervisor.init ⟨⟨d, hd, tl, st⟩, ⟨f, u + cells recs, m⟩⟩)).2 = LoopEnd.limit ∧
     (supervisor_loop C fuel recs.length (recs.length + j) [] []
        (Supervisor.init ⟨⟨d, hd, tl, st⟩, ⟨f, u + cells recs, m⟩⟩)).1.readCount = recs.length ∧
     (supervisor_loop C fuel recs.length (recs.length + j) [] []
        (Supervisor.init ⟨⟨d, hd, tl, st⟩, ⟨f, u + cells recs, m⟩⟩)).1.reads.map Reader.ret =
       recs.map (fun _ => some 0) ∧
     (supervisor_loop C fuel recs.length (recs.length + j) [] []
        (Supervisor.init ⟨⟨d, hd, tl, st⟩, ⟨f, u + cells recs, m⟩⟩)).1.sh =
       ⟨⟨d, hd, tl + cells recs, st⟩, ⟨f + cells recs, u, m⟩⟩) ∧
    ((supervisor_loop C fuel (-1) recs.length [] []
        (Supervisor.init ⟨⟨d, hd, tl, st⟩, ⟨f, u + cells recs, m⟩⟩)).2 = LoopEnd.more ∧
     (supervisor_loop C fuel (-1) recs.length [] []
        (Supervisor.init ⟨⟨d, hd, tl, st⟩, ⟨f, u + cells recs, m⟩⟩)).1.readCount = recs.length ∧
     ∀ (iters : Nat) (sigs : List Bool) (errs : List (List Bool)) (s : Supervisor),
       (supervisor_loop C fuel (-1) iters sigs errs s).2 ≠ LoopEnd.limit) := by
  obtain ⟨init, last, rfl⟩ : ∃ init last, recs = init ++ [last] := by
    rcases List.eq_nil_or_concat recs with h | ⟨init, last, h⟩
    · subst h; simp at hL
    · exact ⟨init, last, by simpa using h⟩
  have hwfl := hwf last (by simp)
  obtain ⟨hsz, hlen⟩ := wellFormed_size last hwfl
  have hzl := hterm last (by simp)
  have hn : 0 < last.length / 2 := by omega
  obtain ⟨hlaid1, hlaid2⟩ := (laid_append C d tl init [last]).1 hlaid
  obtain ⟨hcell, -⟩ := hlaid2
  rw [hsz] at hcell
  have hc : cells (init ++ [last]) = cells init + (2 * (last.length / 2) + 1) := by
    rw [cells_append, cells_cons]; simp [cells]; omega
  have hlenr : (init ++ [last]).length = init.length + 1 := by simp
  have hu : u + cells (init ++ [last]) = u + (2 * (last.length / 2) + 1) + cells init := by
    rw [hc]; omega
  refine ⟨?_, ?_, ?_, loop_no_limit C fuel⟩
  · -- the limit is the number of records
    obtain ⟨s', rs, hrun, hsh, hcount, hb, hreads, hrets⟩ :=
      loop_prefix C fuel ((init ++ [last]).length : Nat) (j + 1) init
        (fun r hr => hwf r (by simp [hr])) (fun r hr => hfuel r (by simp [hr]))
        (fun r hr => hterm r (by simp [hr]))
        (Supervisor.init ⟨⟨d, hd, tl, st⟩, ⟨f, u + cells (init ++ [last]), m⟩⟩)
        d hd tl st f (u + (2 * (last.length / 2) + 1)) m
        (by rw [hu]; rfl) hlaid1 (by simp [Supervisor.init])
        (Or.inr (by simp [Supervisor.init]))
    obtain ⟨r, hret, hiter⟩ := loop_iter C fuel ((init ++ [last]).length : Nat) j s' d hd
      (tl + cells init) st (f + cells init) u m (last.length / 2) hsh hcell hn
      (by have := hfuel last (by simp); omega) hb
    have hyes : s'.readCount + 1 ≥ ((init ++ [last]).length : Nat) ∧
        (((init ++ [last]).length : Nat) : Int) ≠ -1 := by
      rw [hcount, hlenr]
      simp only [Supervisor.init]
      push_cast
      omega
    rw [if_pos hyes] at hiter
    have e1 : (init ++ [last]).length + j = init.length + (j + 1) := by rw [hlenr]; omega
    rw [e1, hrun, hiter]
    refine ⟨rfl, ?_, ?_, ?_⟩
    · simp only [hcount, Supervisor.init, hlenr]
      push_cast
      omega
    · simp only [hreads, Supervisor.init, List.nil_append, List.map_append, hrets, hret,
        List.map_cons, List.map_nil]
    · rw [hc]
      simp only [Nat.cast_add, add_assoc]
  · -- no limit: the loop goes on
    obtain ⟨s', rs, hrun, hsh, hcount, hb, hreads, hrets⟩ :=
      loop_prefix C fuel (-1) 0 (init ++ [last]) hwf hfuel hterm
        (Supervisor.init ⟨⟨d, hd, tl, st⟩, ⟨f, u + cells (init ++ [last]), m⟩⟩)
        d hd tl st f u m rfl hlaid (by simp [Supervisor.init]) (Or.inl rfl)
    rw [Nat.add_zero] at hrun
    rw [hrun]
    rfl
  · obtain ⟨s', rs, hrun, hsh, hcount, hb, hreads, hrets⟩ :=
      loop_prefix C fuel (-1) 0 (init ++ [last]) hwf hfuel hterm
        (Supervisor.init ⟨⟨d, hd, tl, st⟩, ⟨f, u + cells (init ++ [last]), m⟩⟩)
        d hd tl st f u m rfl hlaid (by simp [Supervisor.init]) (Or.inl rfl)
    rw [Nat.add_zero] at hrun
    rw [hrun, supervisor_loop, hcount]
    simp [Supervisor.init]

/-! ### Counts of a write -/

theorem write_step_data (C : Nat) (rec : List Int) (err : Bool) (sh sh' : Shared)
    (w w' : Writer) (hstep : write_step C rec err sh w = some (sh', w'))
    (h0 : w.pc.stores = 0) : sh'.cbuf = sh.cbuf := by
  obtain ⟨pc, e, i, lg⟩ := w
  cases pc <;> simp only [WPc.stores, one_ne_zero] at h0 <;> cases err <;>
    simp only [write_step, Bool.false_eq_true, if_false, if_true, sem_wait] at hstep <;>
    (try split at hstep) <;>
    simp only [Option.map_some', Option.map_none', Option.some.injEq, Prod.mk.injEq,
      reduceCtorEq] at hstep <;>
    obtain ⟨rfl, _⟩ := hstep <;>
    rfl

theorem write_step_stores (C : Nat) (rec : List Int) (err : Bool) (sh sh' : Shared)
    (w w' : Writer) (hstep : write_step C rec err sh w = some (sh', w'))
    (h1 : w.pc.stores = 1) :
    ∃ idx v, sh'.cbuf.data = Function.update sh.cbuf.data idx v ∧ sh'.sems = sh.sems := by
  obtain ⟨pc, e, i, lg⟩ := w
  cases pc <;> simp only [WPc.stores, zero_ne_one] at h1 <;>
    simp only [write_step, circularBuffer.store, Option.some.injEq, Prod.mk.injEq] at hstep <;>
    obtain ⟨rfl, _⟩ := hstep <;>
    exact ⟨_, _, rfl, rfl⟩

theorem write_step_counted (C : Nat) (rec : List Int) (err : Bool) (sh sh' : Shared)
    (w w' : Writer) (g : WDone) (hstep : write_step C rec err sh w = some (sh', w'))
    (hc : w.Counted g) :
    w'.Counted ⟨g.cells + w.pc.stores, g.advance + (sh'.cbuf.head - sh.cbuf.head),
      g.failed || (err && w.pc.calls)⟩ := by
  obtain ⟨pc, e, i, lg⟩ := w
  obtain ⟨c, a, fl⟩ := g
  intro hf
  simp only [Bool.or_eq_false_iff] at hf
  obtain ⟨hf1, hf2⟩ := hf
  subst hf1
  have hc := hc rfl
  cases pc <;> cases err <;>
    simp only [WPc.calls, Bool.and_true, Bool.and_false, Bool.true_eq_false] at hf2 <;>
    simp only [write_step, Bool.false_eq_true, if_false, if_true] at hstep
  all_goals first
    | (cases hst : sh.cbuf.stop <;> simp [hst] at hstep <;> obtain ⟨rfl, rfl⟩ := hstep <;>
        simp [WPc.stores] at hc ⊢ <;> omega)
    | (cases hw : sem_wait sh.sems .free <;> simp [hw] at hstep <;> obtain ⟨rfl, rfl⟩ := hstep <;>
        simp [WPc.stores] at hc ⊢ <;> omega)
    | (cases hw : sem_wait sh.sems .mutex <;> simp [hw] at hstep <;>
        obtain ⟨rfl, rfl⟩ := hstep <;> simp [WPc.stores] at hc ⊢ <;> omega)
    | (simp at hstep; obtain ⟨rfl, rfl⟩ := hstep;
        simp [WPc.stores, circularBuffer.store, sem_post] at hc ⊢; omega)
    | (simp at hstep; obtain ⟨rfl, rfl⟩ := hstep; simp only [Writer.loopPc];
        split_ifs <;> simp [WPc.stores, sem_post] at hc ⊢ <;> omega)

theorem wcall_counted (C : Nat) (rec : List Int) (w : Writer) (g : WDone)
    (h : WCall C rec w g) : w.Counted g := by
  induction h with
  | entry => intro _; simp [Writer.init]
  | step err sh sh' w w' g _ hstep ih => exact write_step_counted C rec err sh sh' w w' g hstep ih

/-- The counts of a returned call in exact arithmetic. -/
theorem wcall_counts (C : Nat) (rec : List Int) (w : Writer) (g : WDone) (r : Int)
    (hcall : WCall C rec w g) (hok : g.failed = false) (hret : w.ret = some r) :
    (r = 1 ∨ r = 0) ∧
    List.count (SemOp.post .used) w.log = g.cells ∧
    g.advance = g.cells := by
  have hc := wcall_counted C rec w g hcall hok
  obtain ⟨pc, e, i, lg⟩ := w
  cases pc <;> simp [Writer.ret] at hret
  subst hret
  simp only at hc
  obtain ⟨h1, h2, h3⟩ := hc
  exact ⟨h1, h2.symm, by rw [h3, h2]⟩

/-! ### One step of the writer and of the reader, as changes of the shared state -/

theorem write_step_ok (C n : Nat) (rec : List Int) (sh sh' : Shared) (w w' : Writer)
    (hn : rec.getD 0 0 = (n : Int)) (hw : w.Ok n) (hstop : sh.cbuf.stop = false)
    (hstep : write_step C rec false sh w = some (sh', w')) :
    w'.Ok n ∧ sh'.cbuf.stop = false ∧ sh'.cbuf.tail = sh.cbuf.tail ∧
    sh'.sems.sem_free + w'.acquired = sh.sems.sem_free + w.acquired ∧
    sh'.sems.sem_used + w.released = sh.sems.sem_used + w'.released ∧
    sh'.sems.sem_mutex + w.mutexAt = sh.sems.sem_mutex + w'.mutexAt ∧
    sh'.cbuf.head + w.headAt = sh.cbuf.head + w'.headAt ∧
    sh'.cbuf.data =
      (if w'.stored = w.stored then sh.cbuf.data
       else Function.update sh.cbuf.data
         (Int.tmod (sh.cbuf.head + ((w.stored : Int) - (w.headAt : Int))) C)
         (rec.getD w.stored 0)) ∧
    (w'.stored = w.stored ∨ w'.stored = w.stored + 1) := by
  obtain ⟨⟨d, hd, tl, st⟩, ⟨f, u, m⟩⟩ := sh
  obtain ⟨pc, e, i, lg⟩ := w
  simp only at hstop hstep
  subst hstop
  cases pc <;>
    simp only [write_step, Bool.false_eq_true, if_false, sem_wait, sem_post,
      circularBuffer.store, Writer.loopPc] at hstep <;>
    (try split at hstep) <;>
    simp only [Option.map_some', Option.map_none', Option.some.injEq, Prod.mk.injEq,
      reduceCtorEq] at hstep <;>
    obtain ⟨rfl, rfl⟩ := hstep <;>
    simp only [Writer.Ok] at hw <;>
    refine ⟨?_, rfl, rfl, ?_, ?_, ?_, ?_, ?_, ?_⟩ <;>
    simp only [Writer.Ok, Writer.acquired, Writer.released, Writer.stored, Writer.headAt,
      Writer.mutexAt] <;>
    first | omega | assumption | trivial | skip
  all_goals first
    | exact ⟨hw, trivial, by omega⟩
    | (simp; done)
    | (rw [hw, ← hn]; simp)
/-! ### The queue invariant at the boundaries between calls -/

theorem runWriter_agree (C : Nat) (rec : List Int) (a b : Nat) (s : Shared × Writer)
    (ha : (runWriter C rec a [] s).2.ret.isSome) (hb : (runWriter C rec b [] s).2.ret.isSome) :
    runWriter C rec a [] s = runWriter C rec b [] s := by
  have key : ∀ a x : Nat, (runWriter C rec a [] s).2.ret.isSome →
      runWriter C rec (a + x) [] s = runWriter C rec a [] s := by
    intro a x h
    rw [runWriter_add]
    generalize runWriter C rec a [] s = p at h ⊢
    obtain ⟨sh, pc, e, i, lg⟩ := p
    cases pc <;> simp [Writer.ret] at h
    exact runWriter_done C rec x _ _ _ rfl
  rcases Nat.le_total a b with h | h
  · obtain ⟨x, rfl⟩ := Nat.exists_eq_add_of_le h
    exact (key a x ha).symm
  · obtain ⟨x, rfl⟩ := Nat.exists_eq_add_of_le h
    exact key b x hb

theorem runReader_agree (C : Nat) (a b : Nat) (s : Shared × Reader)
    (ha : (runReader C a [] s).2.ret.isSome) (hb : (runReader C b [] s).2.ret.isSome) :
    runReader C a [] s = runReader C b [] s := by
  have key : ∀ a x : Nat, (runReader C a [] s).2.ret.isSome →
      runReader C (a + x) [] s = runReader C a [] s := by
    intro a x h
    rw [runReader_add]
    generalize runReader C a [] s = p at h ⊢
    obtain ⟨sh, pc, sz, i, b, o, lg⟩ := p
    cases pc <;> simp [Reader.ret] at h
    exact runReader_done C x _ _ _ rfl
  rcases Nat.le_total a b with h | h
  · obtain ⟨x, rfl⟩ := Nat.exists_eq_add_of_le h
    exact (key a x ha).symm
  · obtain ⟨x, rfl⟩ := Nat.exists_eq_add_of_le h
    exact key b x hb

theorem runWriter_ok (C n : Nat) (rec : List Int) (hn : rec.getD 0 0 = (n : Int)) (fuel : Nat)
    (sh : Shared) (w : Writer) (hw : w.Ok n) (hstop : sh.cbuf.stop = false) :
    (runWriter C rec fuel [] (sh, w)).2.Ok n ∧
    (runWriter C rec fuel [] (sh, w)).1.sems.sem_free + (runWriter C rec fuel [] (sh, w)).2.acquired
      = sh.sems.sem_free + w.acquired := by
  induction fuel generalizing sh w with
  | zero => exact ⟨hw, rfl⟩
  | succ k ih =>
    rw [runWriter_step]
    cases hstep : write_step C rec false sh w with
    | none => exact ⟨hw, rfl⟩
    | some p =>
      obtain ⟨sh', w'⟩ := p
      obtain ⟨hw', hstop', -, hfree, -⟩ := write_step_ok C n rec sh sh' w w' hn hw hstop hstep
      obtain ⟨h1, h2⟩ := ih sh' w' hw' hstop'
      exact ⟨h1, by simp only at h2 ⊢; omega⟩

theorem write_completed (C : Nat) (rec : List Int) (fuel : Nat) (sh : Shared)
    (hwf : WellFormed rec) (hstop : sh.cbuf.stop = false) (hmutex : 1 ≤ sh.sems.sem_mutex)
    (hret : (write_to_cbuf C rec fuel [] sh).2.ret.isSome) :
    rec.length ≤ sh.sems.sem_free ∧
    (write_to_cbuf C rec fuel [] sh).1 =
      ⟨⟨storeCells C rec sh.cbuf.head sh.cbuf.data 0 rec.length, sh.cbuf.head + rec.length,
         sh.cbuf.tail, false⟩,
       ⟨sh.sems.sem_free - rec.length, sh.sems.sem_used + rec.length, sh.sems.sem_mutex⟩⟩ := by
  obtain ⟨hn, hlen⟩ := wellFormed_size rec hwf
  have hroom : rec.length ≤ sh.sems.sem_free := by
    obtain ⟨hok, hfree⟩ := runWriter_ok C (rec.length / 2) rec hn fuel sh Writer.init
      (by simp [Writer.Ok, Writer.init]) hstop
    rw [write_to_cbuf] at hret
    generalize runWriter C rec fuel [] (sh, Writer.init) = p at hret hok hfree
    obtain ⟨sh', pc, e, i, lg⟩ := p
    cases pc <;> simp [Writer.ret] at hret
    simp only [Writer.Ok, Writer.acquired, Writer.init] at hok hfree
    omega
  refine ⟨hroom, ?_⟩
  obtain ⟨⟨d, h, tl, st⟩, ⟨fr, u, mu⟩⟩ := sh
  simp only at hstop hmutex hroom ⊢
  subst hstop
  obtain ⟨f, rfl⟩ : ∃ f, fr = f + rec.length := ⟨fr - rec.length, by omega⟩
  obtain ⟨m, rfl⟩ : ∃ m, mu = m + 1 := ⟨mu - 1, by omega⟩
  have hcall := writer_call C rec d h tl f u m 0 hwf
  have hagree := runWriter_agree C rec fuel (7 * rec.length + 0) _ hret
    (by rw [← write_to_cbuf, hcall]; rfl)
  rw [write_to_cbuf, hagree, ← write_to_cbuf, hcall]
  simp

theorem reader_blocked (C : Nat) (fuel : Nat) (sh : Shared) (best : Int)
    (hused : sh.sems.sem_used = 0) :
    read_from_cbuf C fuel [] sh best = (sh, Reader.init best) := by
  apply runReader_stuck
  simp [read_step, Reader.init, sem_wait, hused]
theorem read_completed (C : Nat) (fuel : Nat) (sh : Shared) (best : Int) (n : Nat)
    (hsz : sh.cbuf.data (Int.tmod sh.cbuf.tail C) = (n : Int))
    (hused : 2 * n + 1 ≤ sh.sems.sem_used)
    (hret : (read_from_cbuf C fuel [] sh best).2.ret.isSome) :
    (read_from_cbuf C fuel [] sh best).2.size = n ∧
    (n ≠ 0 → (read_from_cbuf C fuel [] sh best).1 =
      ⟨{ sh.cbuf with tail := sh.cbuf.tail + (2 * n + 1 : Nat) },
       ⟨sh.sems.sem_free + (2 * n + 1), sh.sems.sem_used - (2 * n + 1), sh.sems.sem_mutex⟩⟩) := by
  obtain ⟨⟨d, h, tl, st⟩, ⟨f, us, m⟩⟩ := sh
  simp only at hsz hused ⊢
  obtain ⟨u, rfl⟩ : ∃ u, us = u + (2 * n + 1) := ⟨us - (2 * n + 1), by omega⟩
  rcases Nat.eq_zero_or_pos n with h0 | hpos
  · subst h0
    have hcall := reader_full_terminal C d h tl st f u m best 0 (by simpa using hsz)
    have hagree := runReader_agree C fuel (3 + 0) _ hret (by rw [← read_from_cbuf, hcall]; rfl)
    rw [read_from_cbuf, hagree, ← read_from_cbuf, hcall]
    simp
  · obtain ⟨o, hcall⟩ := reader_call C d h tl st f u m best n 0 hsz hpos
    have hagree := runReader_agree C fuel (7 * (2 * n + 1) + 0) _ hret
      (by rw [← read_from_cbuf, hcall]; rfl)
    rw [read_from_cbuf, hagree, ← read_from_cbuf, hcall]
    simp

theorem laid_frame (C : Nat) (d d' : Int → Int) (q : List (List Int)) (t : Int) (ht : 0 ≤ t)
    (hpos : ∀ rec ∈ q, 0 < rec.length)
    (hsame : ∀ j : Nat, j < cells q → d' ((t + j) % C) = d ((t + j) % C))
    (h : Laid C d t q) : Laid C d' t q := by
  induction q generalizing t with
  | nil => trivial
  | cons rec rest ih =>
    obtain ⟨h1, h2⟩ := h
    have hlen := hpos rec (List.mem_cons_self _ _)
    refine ⟨?_, ih (t + rec.length) (by omega)
      (fun r hr => hpos r (List.mem_cons_of_mem _ hr)) ?_ h2⟩
    · rw [← h1, tmod_cursor C t ht]
      have := hsame 0 (by rw [cells_cons]; omega)
      simpa using this
    · intro j hj
      have := hsame (rec.length + j) (by rw [cells_cons]; omega)
      rw [show t + (rec.length : Int) + (j : Int) = t + ((rec.length + j : Nat) : Int) by
        push_cast; ring]
      exact this

theorem boundary_inv (C : Nat) (sh : Shared) (q : List (List Int)) (h : Boundary C sh q) :
    QueueInv C sh q := by
  induction h with
  | fresh => simp [QueueInv, create_cbuffer_server, cells, Laid]
  | write sh q rec fuel _ hwf hret ih =>
    obtain ⟨hstop, hmutex, htail, hhead, hused, hfree, hlaid, hq⟩ := ih
    obtain ⟨hroom, hstate⟩ := write_completed C rec fuel sh hwf hstop (by omega) hret
    obtain ⟨-, hlen⟩ := wellFormed_size rec hwf
    have hh : 0 ≤ sh.cbuf.head := by omega
    have hc : cells (q ++ [rec]) = cells q + rec.length := by
      rw [cells_append, cells_cons]; simp [cells]
    rw [hstate]
    refine ⟨rfl, hmutex, htail, ?_, ?_, ?_, ?_, ?_⟩
    · simp only [hc, hhead]; push_cast; ring
    · simp only [hc, hused]
    · simp only [hc]; omega
    · simp only
      rw [laid_append]
      constructor
      · refine laid_frame C sh.cbuf.data _ q _ htail
          (fun r hr => by have := (wellFormed_size r (hq r hr)).2; omega) ?_ hlaid
        intro j hj
        apply storeCells_other C rec _ _ hh
        intro j' _ hj'
        rw [hhead]
        apply emod_ne_of_lt <;> omega
      · refine ⟨?_, trivial⟩
        rw [← hhead, tmod_cursor C _ hh]
        have := storeCells_get C rec sh.cbuf.head sh.cbuf.data hh 0 rec.length (by omega) 0
          (by omega) (by omega)
        simpa using this
    · intro r hr
      rcases List.mem_append.1 hr with h1 | h1
      · exact hq r h1
      · simp only [List.mem_singleton] at h1
        subst h1
        exact hwf
  | read sh q best fuel _ hret hsize ih =>
    obtain ⟨hstop, hmutex, htail, hhead, hused, hfree, hlaid, hq⟩ := ih
    cases q with
    | nil =>
      rw [reader_blocked C fuel sh best (by simpa [cells] using hused)] at hret
      simp [Reader.ret, Reader.init] at hret
    | cons rec rest =>
      obtain ⟨hn, hlen⟩ := wellFormed_size rec (hq rec (List.mem_cons_self _ _))
      obtain ⟨hcell, hlaid'⟩ := hlaid
      rw [cells_cons] at hhead hused hfree
      obtain ⟨hsz, hstate⟩ := read_completed C fuel sh best (rec.length / 2)
        (by rw [hcell, hn]) (by omega) hret
      rw [hsz] at hsize
      rw [hstate (by exact_mod_cast hsize)]
      simp only [List.tail_cons]
      refine ⟨hstop, hmutex, ?_, ?_, ?_, ?_, ?_, fun r hr => hq r (List.mem_cons_of_mem _ hr)⟩
      · simp only; omega
      · simp only [hhead]; push_cast; omega
      · simp only; omega
      · simp only; omega
      · simp only
        rw [← hlen]
        exact hlaid'

/-- C13, as the claim states it, fails: capacity 3, one call writes the terminal record [0] and
one call reads it.  Both calls return (1 and 0); `read_from_cbuf` leaves the tail where it was
(line 355 returns before any `tail +=`), so at this boundary head - tail = 1, while used = 0 and
free = 3: the cell counted by head - tail is no unread cell and has no used credit. -/
theorem queue_invariant_counterexample :
    (write_to_cbuf 3 [0] 10 [] (create_cbuffer_server 3)).2.ret = some 1 ∧
    (read_from_cbuf 3 10 []
      (write_to_cbuf 3 [0] 10 [] (create_cbuffer_server 3)).1 100000).2.ret = some 0 ∧
    (read_from_cbuf 3 10 []
      (write_to_cbuf 3 [0] 10 [] (create_cbuffer_server 3)).1 100000).1.cbuf.head -
    (read_from_cbuf 3 10 []
      (write_to_cbuf 3 [0] 10 [] (create_cbuffer_server 3)).1 100000).1.cbuf.tail = 1 ∧
    (read_from_cbuf 3 10 []
      (write_to_cbuf 3 [0] 10 [] (create_cbuffer_server 3)).1 100000).1.sems = ⟨3, 0, 1⟩ := by
  decide

/-! ### A record that fills the buffer -/

theorem read_step_fine (C n : Nat) (sh sh' : Shared) (r r' : Reader) (hr : r.Fine n)
    (hsz : r.pc = .size → sh.cbuf.data (Int.tmod sh.cbuf.tail C) = (n : Int))
    (hstep : read_step C false sh r = some (sh', r')) :
    r'.Fine n ∧ sh'.cbuf.data = sh.cbuf.data ∧ sh'.cbuf.head = sh.cbuf.head ∧
    sh'.cbuf.stop = sh.cbuf.stop ∧ sh'.sems.sem_mutex = sh.sems.sem_mutex ∧
    sh'.sems.sem_used + r'.taken = sh.sems.sem_used + r.taken ∧
    sh'.sems.sem_free + r.given = sh.sems.sem_free + r'.given ∧
    ((r'.pc = .used0 ∨ r'.pc = .size) → sh'.cbuf.tail = sh.cbuf.tail ∧ r.pc = .used0) := by
  obtain ⟨⟨d, hd, tl, st⟩, ⟨f, u, m⟩⟩ := sh
  obtain ⟨pc, sz, i, b, o, lg⟩ := r
  simp only at hsz hstep
  cases pc <;>
    simp only [read_step, Bool.false_eq_true, if_false, sem_wait, sem_post,
      Reader.printPc, Reader.printEnd, Reader.drainPc] at hstep <;>
    simp only [Reader.Fine] at hr
  case used0 | pUsedA | pUsedB | dUsedA | dUsedB =>
    split at hstep
    · simp at hstep
    · simp only [Option.map_some', Option.some.injEq, Prod.mk.injEq] at hstep
      obtain ⟨rfl, rfl⟩ := hstep
      refine ⟨?_, rfl, rfl, rfl, rfl, ?_, ?_, ?_⟩ <;>
        simp only [Reader.Fine, Reader.taken, Reader.given] <;>
        first | omega | assumption | simp
  case size =>
    simp only [Option.some.injEq, Prod.mk.injEq] at hstep
    obtain ⟨rfl, rfl⟩ := hstep
    refine ⟨⟨hsz rfl, hr⟩, rfl, rfl, rfl, rfl, ?_, ?_, ?_⟩
    · simp [Reader.taken]
    · simp [Reader.given]
    · simp
  case free0 =>
    obtain ⟨rfl, rfl⟩ := hr
    split at hstep
    · simp only [Option.some.injEq, Prod.mk.injEq] at hstep
      obtain ⟨rfl, rfl⟩ := hstep
      refine ⟨?_, rfl, rfl, rfl, rfl, ?_, ?_, ?_⟩ <;>
        simp only [Reader.Fine, Reader.taken, Reader.given] <;>
        first | omega | assumption | (simp; done) | (simp; omega)
    · split at hstep <;>
      · simp only [Option.some.injEq, Prod.mk.injEq] at hstep
        obtain ⟨rfl, rfl⟩ := hstep
        refine ⟨?_, rfl, rfl, rfl, rfl, ?_, ?_, ?_⟩ <;>
          simp only [Reader.Fine, Reader.taken, Reader.given] <;>
          first | omega | assumption | (simp; done) | (simp; omega)
  case skip | tail1 =>
    simp only [Option.some.injEq, Prod.mk.injEq] at hstep
    obtain ⟨rfl, rfl⟩ := hstep
    obtain ⟨rfl, hn⟩ := hr
    rw [if_pos (by exact_mod_cast hn)]
    refine ⟨?_, rfl, rfl, rfl, rfl, ?_, ?_, ?_⟩ <;>
      simp only [Reader.Fine, Reader.taken, Reader.given] <;>
      first | omega | assumption | (simp; done) | (simp; omega)
  case pRead | pFreeA | dFreeA =>
    simp only [Option.some.injEq, Prod.mk.injEq] at hstep
    obtain ⟨rfl, rfl⟩ := hstep
    refine ⟨?_, rfl, rfl, rfl, rfl, ?_, ?_, ?_⟩ <;>
      simp only [Reader.Fine, Reader.taken, Reader.given] <;>
      first | omega | assumption | simp
  case pFreeB | dFreeB =>
    simp only [Option.some.injEq, Prod.mk.injEq] at hstep
    obtain ⟨rfl, rfl⟩ := hstep
    obtain ⟨rfl, hi⟩ := hr
    by_cases hlt : i + 1 < n
    · rw [if_pos (by exact_mod_cast hlt)]
      refine ⟨?_, rfl, rfl, rfl, rfl, ?_, ?_, ?_⟩ <;>
        simp only [Reader.Fine, Reader.taken, Reader.given] <;>
        first | omega | assumption | (simp; done) | (simp; omega)
    · rw [if_neg (by push_cast; omega)]
      refine ⟨?_, rfl, rfl, rfl, rfl, ?_, ?_, ?_⟩ <;>
        simp only [Reader.Fine, Reader.taken, Reader.given] <;>
        first | omega | assumption | (simp; done) | (simp; omega)
  case done => simp at hstep
theorem writer_stored_le (n : Nat) (w : Writer) (hw : w.Ok n) : w.stored ≤ 2 * n + 1 := by
  obtain ⟨pc, e, i, lg⟩ := w
  cases pc <;> simp only [Writer.Ok] at hw <;> simp only [Writer.stored] <;> omega

theorem invall_init (C n : Nat) (best : Int) :
    Sys.InvAll C n ⟨create_cbuffer_server C, Writer.init, Reader.init best⟩ := by
  simp [Sys.InvAll, create_cbuffer_server, Writer.init, Reader.init, Writer.Ok, Reader.Fine,
    Writer.acquired, Writer.released, Writer.stored, Writer.headAt, Writer.mutexAt,
    Reader.taken, Reader.given]

theorem invall_write_step (C n : Nat) (rec : List Int) (s : Sys) (sh' : Shared) (w' : Writer)
    (hC : 2 * n + 1 ≤ C) (hn : rec.getD 0 0 = (n : Int)) (hinv : s.InvAll C n)
    (hstep : write_step C rec false s.sh s.w = some (sh', w')) :
    Sys.InvAll C n ⟨sh', w', s.r⟩ := by
  obtain ⟨sh, w, r⟩ := s
  obtain ⟨hw, hr, hfree, hused, hmutex, hhead, hstop, htail, hdata⟩ := hinv
  simp only at hw hr hfree hused hmutex hhead hstop htail hdata hstep
  obtain ⟨hw', hstop', htl, hf, hu, hm, hh, hd, hst⟩ :=
    write_step_ok C n rec sh sh' w w' hn hw hstop hstep
  have hle := writer_stored_le n w' hw'
  refine ⟨hw', hr, ?_, ?_, ?_, ?_, hstop', ?_, ?_⟩
  · show sh'.sems.sem_free + w'.acquired = C + r.given
    omega
  · show sh'.sems.sem_used + r.taken = w'.released
    omega
  · show sh'.sems.sem_mutex = w'.mutexAt
    omega
  · show sh'.cbuf.head = w'.headAt
    omega
  · intro h
    simp only at h ⊢
    rw [htl]
    exact htail h
  · intro h1
    simp only at h1 ⊢
    rw [hd]
    rcases hst with hst | hst
    · rw [if_pos hst]
      exact hdata (by omega)
    · rw [if_neg (by omega)]
      have hslot : sh.cbuf.head + ((w.stored : Int) - (w.headAt : Int)) = (w.stored : Int) := by
        omega
      rw [hslot]
      rcases Nat.eq_zero_or_pos w.stored with h0 | hpos
      · rw [h0, hn]
        simp
      · rw [Function.update_noteq]
        · exact hdata hpos
        · rw [tmod_cursor C _ (by omega), tmod_cursor C _ (by omega)]
          apply emod_ne_of_lt <;> omega

theorem invall_read_step (C n : Nat) (s : Sys) (sh' : Shared) (r' : Reader)
    (hinv : s.InvAll C n) (hstep : read_step C false s.sh s.r = some (sh', r')) :
    Sys.InvAll C n ⟨sh', s.w, r'⟩ := by
  obtain ⟨sh, w, r⟩ := s
  obtain ⟨hw, hr, hfree, hused, hmutex, hhead, hstop, htail, hdata⟩ := hinv
  simp only at hw hr hfree hused hmutex hhead hstop htail hdata hstep
  have hle := writer_released_le_stored w
  have hsz : r.pc = .size → sh.cbuf.data (Int.tmod sh.cbuf.tail C) = (n : Int) := by
    intro hpc
    rw [htail (Or.inr hpc)]
    apply hdata
    have : r.taken = 1 := by simp [Reader.taken, hpc]
    omega
  obtain ⟨hr', hd, hh, hst, hm, hu, hf, htl⟩ := read_step_fine C n sh sh' r r' hr hsz hstep
  refine ⟨hw, hr', ?_, ?_, ?_, ?_, by rw [hst]; exact hstop, ?_, ?_⟩
  · show sh'.sems.sem_free + w.acquired = C + r'.given
    omega
  · show sh'.sems.sem_used + r'.taken = w.released
    omega
  · show sh'.sems.sem_mutex = w.mutexAt
    omega
  · show sh'.cbuf.head = w.headAt
    omega
  · intro h
    simp only at h ⊢
    obtain ⟨h2, h3⟩ := htl h
    rw [h2]
    exact htail (Or.inl h3)
  · intro h1
    simp only at h1 ⊢
    rw [hd]
    exact hdata h1
theorem invall_sys_step (C n : Nat) (rec : List Int) (who : Bool) (s s' : Sys)
    (hC : 2 * n + 1 ≤ C) (hn : rec.getD 0 0 = (n : Int))
    (hinv : s.InvAll C n) (hstep : sys_step C rec who s = some s') : s'.InvAll C n := by
  cases who
  · simp only [sys_step, Bool.false_eq_true, if_false, Option.map_eq_some'] at hstep
    obtain ⟨⟨sh', r'⟩, hs, rfl⟩ := hstep
    exact invall_read_step C n s sh' r' hinv hs
  · simp only [sys_step, if_true, Option.map_eq_some'] at hstep
    obtain ⟨⟨sh', w'⟩, hs, rfl⟩ := hstep
    exact invall_write_step C n rec s sh' w' hC hn hinv hs

theorem invall_sys_run (C n : Nat) (rec : List Int) (sched : List Bool) (s s' : Sys)
    (hC : 2 * n + 1 ≤ C) (hn : rec.getD 0 0 = (n : Int))
    (hinv : s.InvAll C n) (hrun : sys_run C rec sched s = some s') : s'.InvAll C n := by
  induction sched generalizing s with
  | nil =>
    simp only [sys_run, Option.some.injEq] at hrun
    exact hrun ▸ hinv
  | cons who rest ih =>
    simp only [sys_run, Option.bind_eq_some] at hrun
    obtain ⟨s1, h1, h2⟩ := hrun
    exact ih s1 (invall_sys_step C n rec who s s1 hC hn hinv h1) h2

theorem writer_never_blocked (C n : Nat) (rec : List Int) (s : Sys) (hC : 2 * n + 1 ≤ C)
    (hinv : s.InvAll C n) :
    s.w.ret = some 1 ∨ (write_step C rec false s.sh s.w).isSome := by
  obtain ⟨⟨⟨d, hd, tl, st⟩, ⟨f, u, m⟩⟩, ⟨wpc, e, i, wlg⟩, r⟩ := s
  obtain ⟨hw, -, hfree, -, hmutex, -, hstop, -, -⟩ := hinv
  simp only at hw hfree hmutex hstop
  subst hstop
  cases wpc <;>
    simp [write_step, sem_wait, Writer.Ok, Writer.acquired, Writer.mutexAt, Writer.ret] at hw hfree hmutex ⊢ <;>
    omega

theorem reader_not_blocked (C n : Nat) (s : Sys) (hinv : s.InvAll C n)
    (hret : s.w.ret = some 1) :
    s.r.ret = some 0 ∨ (read_step C false s.sh s.r).isSome := by
  obtain ⟨⟨⟨d, hd, tl, st⟩, ⟨f, u, m⟩⟩, ⟨wpc, e, i, wlg⟩, ⟨rpc, sz, ri, b, o, rlg⟩⟩ := s
  obtain ⟨hw, hr, -, hused, -, -, -, -, -⟩ := hinv
  simp only at hw hr hused hret
  cases wpc <;> simp [Writer.ret] at hret
  simp only [Writer.Ok, Writer.released] at hw hused
  cases rpc <;>
    simp [read_step, sem_wait, Reader.Fine, Reader.taken, Reader.ret,
      apply_ite Option.isSome] at hr hused ⊢ <;>
    omega
/-- C12: a record that fills the buffer does not deadlock.  The capacity is `2n+1`; one
`write_to_cbuf` of a record with `n >= 0` pairs and one `read_from_cbuf`, called with any
`bestSolution`, start on the fresh buffer (free = `2n+1`, used = 0, mutex = 1, stop = false) and
are interleaved in any way.  In every state that is reached, (1) the producer has returned 1 or
can make its next step: it is never blocked, so no state has both processes blocked; (2) once
the producer has returned, the consumer has returned 0 or can make its next step.  (3) When the
consumer takes no step at all, the write returns 1 after `7n+7` steps, each of its `2n+1` waits
on free having found a credit, and leaves free = 0 and used = `2n+1`. -/
theorem capacity_record_no_deadlock (n : Nat) (rec : List Int) (best : Int) (sched : List Bool)
    (s : Sys) (hn : rec.getD 0 0 = (n : Int))
    (hrun : sys_run (2 * n + 1) rec sched
      ⟨create_cbuffer_server (2 * n + 1), Writer.init, Reader.init best⟩ = some s) :
    (s.w.ret = some 1 ∨ (write_step (2 * n + 1) rec false s.sh s.w).isSome) ∧
    (s.w.ret = some 1 → s.r.ret = some 0 ∨ (read_step (2 * n + 1) false s.sh s.r).isSome) ∧
    ((write_to_cbuf (2 * n + 1) rec (7 * n + 7) []
        (create_cbuffer_server (2 * n + 1))).2.ret = some 1 ∧
     List.count (SemOp.wait .free)
        (write_to_cbuf (2 * n + 1) rec (7 * n + 7) []
          (create_cbuffer_server (2 * n + 1))).2.log = 2 * n + 1 ∧
     (write_to_cbuf (2 * n + 1) rec (7 * n + 7) []
        (create_cbuffer_server (2 * n + 1))).1.sems = ⟨0, 2 * n + 1, 1⟩) := by
  have hinv := invall_sys_run (2 * n + 1) n rec sched _ s le_rfl hn
    (invall_init (2 * n + 1) n best) hrun
  refine ⟨writer_never_blocked (2 * n + 1) n rec s le_rfl hinv,
    reader_not_blocked (2 * n + 1) n s hinv, ?_⟩
  have hfull := writer_full (2 * n + 1) rec (fun _ => 0) 0 0 0 0 0 n hn
  simp only [Nat.zero_add] at hfull
  rw [create_cbuffer_server, hfull]
  exact ⟨rfl, (count_writeOps n).2, rfl⟩

/-- Witness of C12: capacity 3, the record [1,5,6]; the producer makes its 14 steps while the
consumer takes none, and the consumer can then make its first step. -/
theorem capacity_record_no_deadlock_witness :
    (sys_run 3 [1, 5, 6] (List.replicate 14 true)
        ⟨create_cbuffer_server 3, Writer.init, Reader.init 100000⟩).map
      (fun s => (s.w.ret, (read_step 3 false s.sh s.r).isSome)) = some (some 1, true) := by
  have hret : (sys_run 3 [1, 5, 6] (List.replicate 14 true)
      ⟨create_cbuffer_server 3, Writer.init, Reader.init 100000⟩).map
        (fun s => (s.w.ret, s.r.ret)) = some (some 1, none) := by decide
  cases hrun : sys_run 3 [1, 5, 6] (List.replicate 14 true)
      ⟨create_cbuffer_server 3, Writer.init, Reader.init 100000⟩ with
  | none => rw [hrun] at hret; exact absurd hret (by simp)
  | some s =>
    rw [hrun] at hret
    simp only [Option.map_some', Option.some.injEq, Prod.mk.injEq] at hret
    have h := (capacity_record_no_deadlock 1 [1, 5, 6] 100000 _ s (by decide) hrun).2.1 hret.1
    rcases h with h | h
    · rw [hret.2] at h; exact absurd h (by simp)
    · simp only [Option.map_some', hret.1, h]

/-! ### What a call leaves alone -/

theorem write_step_frame (C : Nat) (rec : List Int) (err : Bool) (sh sh' : Shared)
    (w w' : Writer) (hstep : write_step C rec err sh w = some (sh', w')) :
    sh'.cbuf.tail = sh.cbuf.tail ∧ sh'.cbuf.stop = sh.cbuf.stop := by
  obtain ⟨pc, e, i, lg⟩ := w
  cases pc <;> cases err <;>
    simp only [write_step, Bool.false_eq_true, if_false, if_true, sem_wait,
      circularBuffer.store] at hstep <;>
    (try split at hstep) <;>
    simp only [Option.map_some', Option.map_none', Option.some.injEq, Prod.mk.injEq,
      reduceCtorEq] at hstep <;>
    obtain ⟨rfl, _⟩ := hstep <;>
    exact ⟨rfl, rfl⟩

theorem read_step_frame (C : Nat) (err : Bool) (sh sh' : Shared) (r r' : Reader)
    (hstep : read_step C err sh r = some (sh', r')) :
    sh'.cbuf.head = sh.cbuf.head ∧ sh'.cbuf.data = sh.cbuf.data ∧
    sh'.cbuf.stop = sh.cbuf.stop := by
  obtain ⟨pc, sz, i, b, o, lg⟩ := r
  cases pc <;> cases err <;>
    simp only [read_step, Bool.false_eq_true, if_false, if_true, sem_wait] at hstep <;>
    (try split at hstep) <;>
    (try split at hstep) <;>
    simp only [Option.map_some', Option.map_none', Option.some.injEq, Prod.mk.injEq,
      reduceCtorEq] at hstep <;>
    obtain ⟨rfl, _⟩ := hstep <;>
    exact ⟨rfl, rfl, rfl⟩

theorem runWriter_frame (C : Nat) (rec : List Int) (fuel : Nat) (errs : List Bool)
    (s : Shared × Writer) :
    (runWriter C rec fuel errs s).1.cbuf.tail = s.1.cbuf.tail ∧
    (runWriter C rec fuel errs s).1.cbuf.stop = s.1.cbuf.stop := by
  induction fuel generalizing errs s with
  | zero => exact ⟨rfl, rfl⟩
  | succ k ih =>
    simp only [runWriter]
    cases hstep : write_step C rec (errs.headD false) s.1 s.2 with
    | none => exact ⟨rfl, rfl⟩
    | some p =>
      obtain ⟨h1, h2⟩ := write_step_frame C rec _ s.1 p.1 s.2 p.2 hstep
      obtain ⟨h3, h4⟩ := ih errs.tail p
      exact ⟨h3.trans h1, h4.trans h2⟩

theorem runReader_frame (C : Nat) (fuel : Nat) (errs : List Bool) (s : Shared × Reader) :
    (runReader C fuel errs s).1.cbuf.head = s.1.cbuf.head ∧
    (runReader C fuel errs s).1.cbuf.data = s.1.cbuf.data ∧
    (runReader C fuel errs s).1.cbuf.stop = s.1.cbuf.stop := by
  induction fuel generalizing errs s with
  | zero => exact ⟨rfl, rfl, rfl⟩
  | succ k ih =>
    simp only [runReader]
    cases hstep : read_step C (errs.headD false) s.1 s.2 with
    | none => exact ⟨rfl, rfl, rfl⟩
    | some p =>
      obtain ⟨h1, h2, h3⟩ := read_step_frame C _ s.1 p.1 s.2 p.2 hstep
      obtain ⟨h4, h5, h6⟩ := ih errs.tail p
      exact ⟨h4.trans h1, h5.trans h2, h6.trans h3⟩

/-- C24: cursor ownership.  Every step of `write_to_cbuf`, in whatever state and with whatever
outcome of its semaphore call, leaves tail as it is, and every step of `read_from_cbuf` leaves
head and every slot as they are; so a call run for any number of steps with any failures of its
semaphore calls, up to any of its returns, has left them unchanged. -/
theorem cursor_ownership (C : Nat) :
    (∀ (rec : List Int) (err : Bool) (sh sh' : Shared) (w w' : Writer),
      write_step C rec err sh w = some (sh', w') → sh'.cbuf.tail = sh.cbuf.tail) ∧
    (∀ (err : Bool) (sh sh' : Shared) (r r' : Reader),
      read_step C err sh r = some (sh', r') →
        sh'.cbuf.head = sh.cbuf.head ∧ sh'.cbuf.data = sh.cbuf.data) ∧
    (∀ (rec : List Int) (fuel : Nat) (errs : List Bool) (sh : Shared),
      (write_to_cbuf C rec fuel errs sh).1.cbuf.tail = sh.cbuf.tail) ∧
    (∀ (fuel : Nat) (errs : List Bool) (sh : Shared) (best : Int),
      (read_from_cbuf C fuel errs sh best).1.cbuf.head = sh.cbuf.head ∧
      (read_from_cbuf C fuel errs sh best).1.cbuf.data = sh.cbuf.data) :=
  ⟨fun rec err sh sh' w w' h => (write_step_frame C rec err sh sh' w w' h).1,
   fun err sh sh' r r' h =>
     ⟨(read_step_frame C err sh sh' r r' h).1, (read_step_frame C err sh sh' r r' h).2.1⟩,
   fun rec fuel errs sh => (runWriter_frame C rec fuel errs (sh, Writer.init)).1,
   fun fuel errs sh best =>
     ⟨(runReader_frame C fuel errs (sh, Reader.init best)).1,
      (runReader_frame C fuel errs (sh, Reader.init best)).2.1⟩⟩
/-! ### stop is set once -/

theorem move_stop (C : Nat) (sh sh' : Shared) (h : Move C sh sh') :
    sh'.cbuf.stop = sh.cbuf.stop ∨ sh'.cbuf.stop = true := by
  cases h with
  | write rec err _ _ w w' hstep => exact Or.inl (write_step_frame C rec err sh sh' w w' hstep).2
  | read err _ _ r r' hstep => exact Or.inl (read_step_frame C err sh sh' r r' hstep).2.2
  | stop => exact Or.inr rfl

theorem generator_loop_stop (C fuel : Nat) (bufs : List (List Int)) (errs : List (List Bool))
    (g : Generator) :
    (generator_loop C fuel bufs errs g).1.sh.cbuf.stop = g.sh.cbuf.stop := by
  induction bufs generalizing errs g with
  | nil => rfl
  | cons buffer rest ih =>
    have hw := (runWriter_frame C buffer fuel (errs.headD []) (g.sh, Writer.init)).2
    simp only [generator_loop]
    by_cases hs : g.sh.cbuf.stop = true
    · rw [if_pos hs]
    · rw [if_neg hs]
      by_cases hc : buffer.getD 0 0 > MAXREMOVEDEDGES
      · rw [if_pos hc]; exact ih errs g
      · rw [if_neg hc]
        cases (write_to_cbuf C buffer fuel (errs.headD []) g.sh).2.ret with
        | none => exact hw
        | some v =>
          simp only
          by_cases hv : v = -1
          · rw [if_pos hv]; exact hw
          · rw [if_neg hv, ih]; exact hw

theorem supervisor_loop_stop (C fuel : Nat) (limit : Int) (iters : Nat) (sigs : List Bool)
    (errs : List (List Bool)) (s : Supervisor) :
    (supervisor_loop C fuel limit iters sigs errs s).1.sh.cbuf.stop = s.sh.cbuf.stop := by
  induction iters generalizing sigs errs s with
  | zero => rfl
  | succ k ih =>
    have hr := (runReader_frame C fuel (errs.headD []) (s.sh, Reader.init s.bestSolution)).2.2
    simp only [supervisor_loop]
    by_cases hsig : sigs.headD false = true
    · rw [if_pos hsig]
    · rw [if_neg hsig]
      cases (read_from_cbuf C fuel (errs.headD []) s.sh s.bestSolution).2.ret with
      | none => exact hr
      | some v =>
        simp only
        by_cases hv : v = -1
        · rw [if_pos hv]; exact hr
        · rw [if_neg hv]
          by_cases hb : (read_from_cbuf C fuel (errs.headD []) s.sh s.bestSolution).2.bestSolution
              = 0
          · rw [if_pos hb]; exact hr
          · rw [if_neg hb]
            by_cases hl : s.readCount + 1 ≥ limit ∧ limit ≠ -1
            · rw [if_pos hl]; exact hr
            · rw [if_neg hl, ih]; exact hr

/-- C23: stop is write-once.  The shared state moves by steps of `write_to_cbuf` calls, steps
of `read_from_cbuf` calls and the supervisor's assignment of line 121, in any order and number.
If stop is true before such moves, it is true after them.  No step of `write_to_cbuf` or
`read_from_cbuf`, whatever the outcome of its semaphore call, changes stop; the producer loop
and the consumer loop, run for any number of iterations, leave stop as it was; and the
supervisor's assignment sets it to true. -/
theorem stop_write_once (C : Nat) (sh sh' : Shared) (hmoves : Moves C sh sh')
    (hstop : sh.cbuf.stop = true) :
    sh'.cbuf.stop = true ∧
    (∀ (rec : List Int) (err : Bool) (s s' : Shared) (w w' : Writer),
      write_step C rec err s w = some (s', w') → s'.cbuf.stop = s.cbuf.stop) ∧
    (∀ (err : Bool) (s s' : Shared) (r r' : Reader),
      read_step C err s r = some (s', r') → s'.cbuf.stop = s.cbuf.stop) ∧
    (∀ (fuel : Nat) (bufs : List (List Int)) (errs : List (List Bool)) (g : Generator),
      (generator_loop C fuel bufs errs g).1.sh.cbuf.stop = g.sh.cbuf.stop) ∧
    (∀ (fuel : Nat) (limit : Int) (iters : Nat) (sigs : List Bool) (errs : List (List Bool))
        (s : Supervisor),
      (supervisor_loop C fuel limit iters sigs errs s).1.sh.cbuf.stop = s.sh.cbuf.stop) ∧
    (∀ s : Shared, (set_stop s).cbuf.stop = true) := by
  refine ⟨?_, fun rec err s s' w w' h => (write_step_frame C rec err s s' w w' h).2,
    fun err s s' r r' h => (read_step_frame C err s s' r r' h).2.2,
    fun fuel bufs errs g => generator_loop_stop C fuel bufs errs g,
    fun fuel limit iters sigs errs s => supervisor_loop_stop C fuel limit iters sigs errs s,
    fun _ => rfl⟩
  induction hmoves with
  | none => exact hstop
  | more s1 s2 _ hmove ih =>
    rcases move_stop C s1 s2 hmove with h | h
    · rw [h]; exact ih
    · exact h

/-- Witness of C23: capacity 3; the supervisor sets stop on the fresh buffer, then a producer
makes the first step of a call: stop is still true. -/
theorem stop_write_once_witness :
    Moves 3 (set_stop (create_cbuffer_server 3))
      ⟨⟨fun _ => 0, 0, 0, true⟩, ⟨3, 0, 0⟩⟩ ∧
    (⟨⟨fun _ => 0, 0, 0, true⟩, ⟨3, 0, 0⟩⟩ : Shared).cbuf.stop = true :=
  have h : Moves 3 (set_stop (create_cbuffer_server 3)) ⟨⟨fun _ => 0, 0, 0, true⟩, ⟨3, 0, 0⟩⟩ :=
    Moves.more _ _ _ (Moves.none _)
      (Move.write [1, 7, 8] false _ _ Writer.init ⟨.stop0, 0, 0, [.wait .mutex]⟩ rfl)
  ⟨h, (stop_write_once 3 _ _ h rfl).1⟩
/-! ### The size filter of the producer loop -/

theorem write_step_whole (C : Nat) (rec : List Int) (err : Bool) (sh sh' : Shared)
    (w w' : Writer) (g : WDone) (hstep : write_step C rec err sh w = some (sh', w'))
    (hw : w.Whole rec g) :
    w'.Whole rec ⟨g.cells + w.pc.stores, g.advance + (sh'.cbuf.head - sh.cbuf.head),
      g.failed || (err && w.pc.calls)⟩ := by
  obtain ⟨pc, e, i, lg⟩ := w
  obtain ⟨c, a, fl⟩ := g
  cases pc <;> cases err <;>
    simp only [write_step, Bool.false_eq_true, if_false, if_true, sem_wait, sem_post,
      circularBuffer.store, Writer.loopPc, EXIT_FAILURE] at hstep <;>
    (try split at hstep) <;>
    simp only [Option.map_some', Option.map_none', Option.some.injEq, Prod.mk.injEq,
      reduceCtorEq] at hstep <;>
    obtain ⟨rfl, rfl⟩ := hstep <;>
    simp only [Writer.Whole, WPc.stores, add_zero, reduceCtorEq, one_ne_zero, false_implies,
      Int.reduceNeg, true_implies, Nat.cast_add, Nat.cast_one, Nat.cast_ofNat, true_and,
      and_true] at hw ⊢ <;>
    first | trivial | omega

theorem write_step_clean (C : Nat) (rec : List Int) (err : Bool) (sh sh' : Shared)
    (w w' : Writer) (g : WDone) (hstep : write_step C rec err sh w = some (sh', w'))
    (hw : w.Clean g) :
    w'.Clean ⟨g.cells + w.pc.stores, g.advance + (sh'.cbuf.head - sh.cbuf.head),
      g.failed || (err && w.pc.calls)⟩ := by
  obtain ⟨pc, e, i, lg⟩ := w
  obtain ⟨c, a, fl⟩ := g
  cases pc <;> cases err <;>
    simp only [write_step, Bool.false_eq_true, if_false, if_true, sem_wait, sem_post,
      circularBuffer.store, Writer.loopPc, EXIT_FAILURE] at hstep <;>
    (try split at hstep) <;>
    simp only [Option.map_some', Option.map_none', Option.some.injEq, Prod.mk.injEq,
      reduceCtorEq] at hstep <;>
    obtain ⟨rfl, rfl⟩ := hstep <;>
    simp [Writer.Clean, WPc.calls] at hw ⊢ <;>
    assumption

theorem wcall_whole (C : Nat) (rec : List Int) (w : Writer) (g : WDone)
    (h : WCall C rec w g) : w.Whole rec g ∧ w.Clean g := by
  induction h with
  | entry => exact ⟨rfl, rfl⟩
  | step err sh sh' w w' g _ hstep ih =>
    exact ⟨write_step_whole C rec err sh sh' w w' g hstep ih.1,
      write_step_clean C rec err sh sh' w w' g hstep ih.2⟩

/-- C28: an aborted write never publishes half a pair.  A `write_to_cbuf` call on a record
with `n` pairs has returned 0, whatever the other processes have done between its steps and
whenever stop became true.  Then no semaphore call of it has failed, and the call has stored
either no cell or exactly `1 + 2k` cells for some `k < n`, the length cell and `k` whole pairs;
for each of these cells, and for no other, it has released a used credit. -/
theorem abort_whole_pairs (C n : Nat) (rec : List Int) (w : Writer) (g : WDone)
    (hn : rec.getD 0 0 = (n : Int)) (hcall : WCall C rec w g) (hret : w.ret = some 0) :
    g.failed = false ∧
    (g.cells = 0 ∨ ∃ k, k < n ∧ g.cells = 1 + 2 * k) ∧
    List.count (SemOp.post .used) w.log = g.cells := by
  obtain ⟨hwhole, hclean⟩ := wcall_whole C rec w g hcall
  have hcount := wcall_counted C rec w g hcall
  obtain ⟨pc, e, i, lg⟩ := w
  cases pc <;> simp [Writer.ret] at hret
  subst hret
  have hf : g.failed = false := hclean rfl
  have hc := hcount hf
  have hw := hwhole rfl
  simp only at hc hw
  refine ⟨hf, ?_, hc.2.1.symm⟩
  rcases hw with h0 | ⟨h1, h2⟩
  · exact Or.inl h0
  · exact Or.inr ⟨g.cells / 2, by omega, by omega⟩

/-- Witness of C28: capacity 3, the record [1,7,8]; the call stores the length cell, then
another process sets stop, and the call sees it at line 296 and returns 0 with one cell stored
(k = 0). -/
theorem abort_whole_pairs_witness :
    WCall 3 [1, 7, 8] ⟨.done 0, 1, 1, [.wait .mutex, .wait .free, .post .used, .wait .free,
      .post .mutex]⟩ ⟨1, 1, false⟩ ∧
    List.count (SemOp.post .used) [SemOp.wait .mutex, .wait .free, .post .used, .wait .free,
      .post .mutex] = 1 :=
  have h : WCall 3 [1, 7, 8] ⟨.done 0, 1, 1, [.wait .mutex, .wait .free, .post .used,
      .wait .free, .post .mutex]⟩ ⟨1, 1, false⟩ :=
    WCall.step false ⟨⟨fun _ => 0, 1, 0, true⟩, ⟨1, 1, 0⟩⟩ ⟨⟨fun _ => 0, 1, 0, true⟩, ⟨1, 1, 1⟩⟩
      ⟨.abort, 1, 1, [.wait .mutex, .wait .free, .post .used, .wait .free]⟩ _ ⟨1, 1, false⟩
     (WCall.step false ⟨⟨fun _ => 0, 1, 0, true⟩, ⟨1, 1, 0⟩⟩ ⟨⟨fun _ => 0, 1, 0, true⟩, ⟨1, 1, 0⟩⟩
      ⟨.stop2, 1, 1, [.wait .mutex, .wait .free, .post .used, .wait .free]⟩ _ ⟨1, 1, false⟩
     (WCall.step false ⟨⟨fun _ => 0, 1, 0, false⟩, ⟨2, 1, 0⟩⟩ ⟨⟨fun _ => 0, 1, 0, false⟩, ⟨1, 1, 0⟩⟩
      ⟨.freeA, 1, 1, [.wait .mutex, .wait .free, .post .used]⟩ _ ⟨1, 1, false⟩
     (WCall.step false ⟨⟨fun _ => 0, 1, 0, false⟩, ⟨2, 0, 0⟩⟩ ⟨⟨fun _ => 0, 1, 0, false⟩, ⟨2, 1, 0⟩⟩
      ⟨.used0, 1, 0, [.wait .mutex, .wait .free]⟩ _ ⟨1, 1, false⟩
     (WCall.step false ⟨⟨fun _ => 0, 0, 0, false⟩, ⟨2, 0, 0⟩⟩
      ⟨⟨Function.update (fun _ => 0) 0 1, 1, 0, false⟩, ⟨2, 0, 0⟩⟩
      ⟨.len, 1, 0, [.wait .mutex, .wait .free]⟩ _ ⟨0, 0, false⟩
     (WCall.step false ⟨⟨fun _ => 0, 0, 0, false⟩, ⟨2, 0, 0⟩⟩ ⟨⟨fun _ => 0, 0, 0, false⟩, ⟨2, 0, 0⟩⟩
      ⟨.stop1, 1, 0, [.wait .mutex, .wait .free]⟩ _ ⟨0, 0, false⟩
     (WCall.step false ⟨⟨fun _ => 0, 0, 0, false⟩, ⟨3, 0, 0⟩⟩ ⟨⟨fun _ => 0, 0, 0, false⟩, ⟨2, 0, 0⟩⟩
      ⟨.free0, 1, 0, [.wait .mutex]⟩ _ ⟨0, 0, false⟩
     (WCall.step false ⟨⟨fun _ => 0, 0, 0, false⟩, ⟨3, 0, 0⟩⟩ ⟨⟨fun _ => 0, 0, 0, false⟩, ⟨3, 0, 0⟩⟩
      ⟨.stop0, 0, 0, [.wait .mutex]⟩ _ ⟨0, 0, false⟩
     (WCall.step false ⟨⟨fun _ => 0, 0, 0, false⟩, ⟨3, 0, 1⟩⟩ ⟨⟨fun _ => 0, 0, 0, false⟩, ⟨3, 0, 0⟩⟩
      Writer.init _ ⟨0, 0, false⟩ WCall.entry rfl) rfl) rfl) rfl) rfl) rfl) rfl) rfl) rfl
  ⟨h, (abort_whole_pairs 3 1 [1, 7, 8] _ _ rfl h rfl).2.2⟩

/-! ### The cursors are ints -/

theorem int32_id (x : Int) (h1 : INT_MIN ≤ x) (h2 : x ≤ INT_MAX) : int32 x = x := by
  unfold int32
  unfold INT_MIN at h1
  unfold INT_MAX at h2
  omega

theorem tolower_ne_zero (c : Nat) (hc : c ≠ 0) : tolower 0 ≠ tolower c := by
  unfold tolower
  split_ifs <;> omega

theorem strcasestr_inner_spec (hs ns : List Nat) (hns : ∀ c ∈ ns, c ≠ 0) :
    strcasestr_inner hs ns =
      some (decide (ns.length ≤ hs.length ∧ (hs.take ns.length).map tolower = ns.map tolower)) := by
  induction ns generalizing hs with
  | nil => simp [strcasestr_inner]
  | cons n ns ih =>
    have hn := hns n (List.mem_cons_self _ _)
    have hns' : ∀ c ∈ ns, c ≠ 0 := fun c hc => hns c (List.mem_cons_of_mem _ hc)
    cases hs with
    | nil => simp [strcasestr_inner, tolower_ne_zero n hn]
    | cons h hs =>
      simp only [strcasestr_inner]
      by_cases heq : tolower h = tolower n
      · rw [if_neg (by simpa using heq), ih hs hns']
        simp [heq]
      · rw [if_pos heq]
        simp [heq]

theorem foldedMatchAt_zero (hay needle : List Nat) :
    FoldedMatchAt hay needle 0 ↔
      needle.length ≤ hay.length ∧ (hay.take needle.length).map tolower = needle.map tolower := by
  simp [FoldedMatchAt]

theorem foldedMatchAt_succ (h : Nat) (hs needle : List Nat) (k : Nat) :
    FoldedMatchAt (h :: hs) needle (k + 1) ↔ FoldedMatchAt hs needle k := by
  simp only [FoldedMatchAt, List.length_cons, List.drop_succ_cons]
  constructor <;> rintro ⟨h1, h2⟩ <;> exact ⟨by omega, h2⟩

theorem foldedMatchAt_first (h : Nat) (hs : List Nat) (n : Nat) (ns : List Nat)
    (hm : FoldedMatchAt (h :: hs) (n :: ns) 0) : tolower h = tolower n := by
  rw [foldedMatchAt_zero] at hm
  have := hm.2
  simp only [List.length_cons, List.take_succ_cons, List.map_cons, List.cons.injEq] at this
  exact this.1

theorem strcasestr_outer_spec (hay : List Nat) (n : Nat) (ns : List Nat) (k0 : Nat)
    (hns : ∀ c ∈ n :: ns, c ≠ 0) :
    (∃ j, strcasestr_outer k0 hay (n :: ns) = some (some (k0 + j)) ∧
      FoldedMatchAt hay (n :: ns) j ∧ ∀ i, i < j → ¬ FoldedMatchAt hay (n :: ns) i) ∨
    (strcasestr_outer k0 hay (n :: ns) = some none ∧ ∀ i, ¬ FoldedMatchAt hay (n :: ns) i) := by
  induction hay generalizing k0 with
  | nil =>
    right
    refine ⟨rfl, fun i hi => ?_⟩
    have := hi.1
    simp at this
  | cons h hs ih =>
    have hnext : (∃ j, strcasestr_outer (k0 + 1) hs (n :: ns) = some (some (k0 + j)) ∧
          FoldedMatchAt (h :: hs) (n :: ns) j ∧
          ∀ i, i < j → i ≠ 0 → ¬ FoldedMatchAt (h :: hs) (n :: ns) i) ∨
        (strcasestr_outer (k0 + 1) hs (n :: ns) = some none ∧
          ∀ i, i ≠ 0 → ¬ FoldedMatchAt (h :: hs) (n :: ns) i) := by
      rcases ih (k0 + 1) with ⟨j, h1, h2, h3⟩ | ⟨h1, h2⟩
      · left
        refine ⟨j + 1, by rw [h1]; congr 2; omega, (foldedMatchAt_succ h hs _ j).2 h2, ?_⟩
        intro i hi hi0
        obtain ⟨i', rfl⟩ := Nat.exists_eq_succ_of_ne_zero hi0
        rw [foldedMatchAt_succ]
        exact h3 i' (by omega)
      · right
        refine ⟨h1, fun i hi0 => ?_⟩
        obtain ⟨i', rfl⟩ := Nat.exists_eq_succ_of_ne_zero hi0
        rw [foldedMatchAt_succ]
        exact h2 i'
    have hinner := strcasestr_inner_spec (h :: hs) (n :: ns) hns
    have hcases : ∀ (hno : ¬ FoldedMatchAt (h :: hs) (n :: ns) 0)
        (hrun : strcasestr_outer k0 (h :: hs) (n :: ns) =
          strcasestr_outer (k0 + 1) hs (n :: ns)),
        (∃ j, strcasestr_outer k0 (h :: hs) (n :: ns) = some (some (k0 + j)) ∧
          FoldedMatchAt (h :: hs) (n :: ns) j ∧
          ∀ i, i < j → ¬ FoldedMatchAt (h :: hs) (n :: ns) i) ∨
        (strcasestr_outer k0 (h :: hs) (n :: ns) = some none ∧
          ∀ i, ¬ FoldedMatchAt (h :: hs) (n :: ns) i) := by
      intro hno hrun
      rw [hrun]
      rcases hnext with ⟨j, h1, h2, h3⟩ | ⟨h1, h2⟩
      · left
        refine ⟨j, h1, h2, fun i hi => ?_⟩
        by_cases hi0 : i = 0
        · subst hi0; exact hno
        · exact h3 i hi hi0
      · right
        refine ⟨h1, fun i => ?_⟩
        by_cases hi0 : i = 0
        · subst hi0; exact hno
        · exact h2 i hi0
    by_cases hfirst : tolower h = tolower n
    · by_cases hm : FoldedMatchAt (h :: hs) (n :: ns) 0
      · left
        refine ⟨0, ?_, hm, fun i hi => absurd hi (by omega)⟩
        simp only [strcasestr_outer, List.headD_cons, hfirst, if_true, hinner]
        rw [decide_eq_true ((foldedMatchAt_zero _ _).1 hm)]
        rfl
      · apply hcases hm
        simp only [strcasestr_outer, List.headD_cons, hfirst, if_true, hinner]
        rw [decide_eq_false (fun hh => hm ((foldedMatchAt_zero _ _).2 hh))]
    · apply hcases (fun hm => hfirst (foldedMatchAt_first h hs n ns hm))
      simp only [strcasestr_outer, List.headD_cons, hfirst, if_false]

/-- C30: case-insensitive search in mygrep.  For every haystack and every needle (C strings:
the characters before the terminator, none of them 0), `strcasestr` reads no character behind a
terminator and returns the pointer at the smallest offset `k` at which the needle equals
`haystack[k .. k + len(needle))` when both are compared character by character after `tolower`;
it returns `NULL` exactly when there is no such offset; for the empty needle it returns the
haystack itself, offset 0. -/
theorem strcasestr_first_match (haystack needle : List Nat) (hneedle : ∀ c ∈ needle, c ≠ 0) :
    ∃ res, strcasestr haystack needle = some res ∧
      (∀ k, res = some k ↔
        FoldedMatchAt haystack needle k ∧ ∀ i, i < k → ¬ FoldedMatchAt haystack needle i) ∧
      (res = none ↔ ∀ k, ¬ FoldedMatchAt haystack needle k) ∧
      (needle = [] → res = some 0) := by
  cases needle with
  | nil =>
    refine ⟨some 0, rfl, fun k => ?_, ?_, fun _ => rfl⟩
    · constructor
      · intro hk
        simp only [Option.some.injEq] at hk
        subst hk
        exact ⟨by simp [FoldedMatchAt], fun i hi => absurd hi (by omega)⟩
      · rintro ⟨-, hmin⟩
        rcases Nat.eq_zero_or_pos k with h0 | hpos
        · rw [h0]
        · exact absurd (by simp [FoldedMatchAt]) (hmin 0 hpos)
    · constructor
      · intro h; simp at h
      · intro h; exact absurd (by simp [FoldedMatchAt]) (h 0)
  | cons n ns =>
    rcases strcasestr_outer_spec haystack n ns 0 hneedle with ⟨j, h1, h2, h3⟩ | ⟨h1, h2⟩
    · rw [Nat.zero_add] at h1
      refine ⟨some j, h1, fun k => ?_, ?_, fun h => by simp at h⟩
      · constructor
        · intro hk
          simp only [Option.some.injEq] at hk
          subst hk
          exact ⟨h2, h3⟩
        · rintro ⟨hk, hmin⟩
          rcases Nat.lt_trichotomy j k with hlt | heq | hgt
          · exact absurd h2 (hmin j hlt)
          · rw [heq]
          · exact absurd hk (h3 k hgt)
      · constructor
        · intro h; simp at h
        · intro h; exact absurd h2 (h j)
    · refine ⟨none, h1, fun k => ?_, ?_, fun h => by simp at h⟩
      · constructor
        · intro hk; simp at hk
        · rintro ⟨hk, -⟩; exact absurd hk (h2 k)
      · exact ⟨fun _ => h2, fun _ => rfl⟩

/-- Witness of C30: the needle "LL" in the haystack "Hello" is found at offset 2, and the needle
"xyz" is not found. -/
theorem strcasestr_first_match_witness :
    strcasestr [72, 101, 108, 108, 111] [76, 76] = some (some 2) ∧
    strcasestr [72, 101, 108, 108, 111] [120, 121, 122] = some none := by
  refine ⟨?_, by decide⟩
  obtain ⟨res, hres, hk, -, -⟩ :=
    strcasestr_first_match [72, 101, 108, 108, 111] [76, 76] (by decide)
  have h2 : res = some 2 := by
    apply (hk 2).2
    refine ⟨by simp [FoldedMatchAt, tolower], fun i hi => ?_⟩
    interval_cases i <;> simp [FoldedMatchAt, tolower]
  rw [hres, h2]

/-! ### getRemoveEdges -/

theorem pairCells_length (ps : List (Nat × Nat)) : (pairCells ps).length = 2 * ps.length := by
  induction ps with
  | nil => rfl
  | cons p ps ih => simp only [pairCells, List.flatMap_cons, List.length_append,
      List.length_cons, List.length_nil] at ih ⊢; omega

theorem pairCells_append (ps qs : List (Nat × Nat)) :
    pairCells (ps ++ qs) = pairCells ps ++ pairCells qs := by
  simp [pairCells, List.flatMap_append]

theorem storeFrom_nil (buf : Nat → Int) (c : Nat) : storeFrom buf c [] = buf := by
  funext k
  simp [storeFrom]

theorem storeFrom_append (buf : Nat → Int) (c : Nat) (xs ys : List Int) :
    storeFrom (storeFrom buf c xs) (c + xs.length) ys = storeFrom buf c (xs ++ ys) := by
  funext k
  simp only [storeFrom, List.length_append]
  by_cases h1 : c + xs.length ≤ k ∧ k < c + xs.length + ys.length
  · rw [if_pos h1, if_pos (by omega), List.getD_append_right _ _ _ _ (by omega)]
    congr 1
    omega
  · rw [if_neg h1]
    by_cases h2 : c ≤ k ∧ k < c + xs.length
    · rw [if_pos h2, if_pos (by omega), List.getD_append _ _ _ _ (by omega)]
    · rw [if_neg h2, if_neg (by omega)]

theorem storeFrom_pair (buf : Nat → Int) (c : Nat) (a b : Int) :
    Function.update (Function.update buf c a) (c + 1) b = storeFrom buf c [a, b] := by
  funext k
  simp only [storeFrom, List.length_cons, List.length_nil]
  by_cases h1 : k = c + 1
  · subst h1
    simp
  · rw [Function.update_noteq h1]
    by_cases h2 : k = c
    · subst h2
      simp
    · rw [Function.update_noteq h2, if_neg (by omega)]

theorem getRemoveEdgesInner_spec (matrix : Nat → Nat → Int) (node1 : Nat) (rest : List Nat)
    (buf : Nat → Int) (c : Nat) :
    getRemoveEdgesInner matrix node1 rest (buf, c) =
      (storeFrom buf c (pairCells ((rest.filter (fun node2 => matrix node1 node2 = 1)).map
          (fun node2 => (node1, node2)))),
       c + 2 * (rest.filter (fun node2 => matrix node1 node2 = 1)).length) := by
  induction rest generalizing buf c with
  | nil => simp [getRemoveEdgesInner, pairCells, storeFrom_nil]
  | cons node2 rest ih =>
    simp only [getRemoveEdgesInner]
    by_cases h : matrix node1 node2 = 1
    · rw [if_pos h, ih, List.filter_cons_of_pos (by simpa using h), storeFrom_pair]
      simp only [List.map_cons, List.length_cons]
      have e : c + 2 = c + ([(node1 : Int), (node2 : Int)] : List Int).length := rfl
      rw [e, storeFrom_append]
      refine Prod.ext ?_ ?_
      · simp [pairCells]
      · simp only [List.length_cons, List.length_nil]; omega
    · rw [if_neg h, ih, List.filter_cons_of_neg (by simpa using h)]

theorem getRemoveEdgesColor_spec (matrix : Nat → Nat → Int) (color : List Nat)
    (buf : Nat → Int) (c : Nat) :
    getRemoveEdgesColor matrix color (buf, c) =
      (storeFrom buf c (pairCells (foundPairs matrix color)),
       c + 2 * (foundPairs matrix color).length) := by
  induction color generalizing buf c with
  | nil => simp [getRemoveEdgesColor, foundPairs, pairCells, storeFrom_nil]
  | cons node1 rest ih =>
    simp only [getRemoveEdgesColor]
    rw [getRemoveEdgesInner_spec, ih, foundPairs, pairCells_append]
    have e : c + 2 * (rest.filter (fun node2 => matrix node1 node2 = 1)).length =
        c + (pairCells ((rest.filter (fun node2 => matrix node1 node2 = 1)).map
          (fun node2 => (node1, node2)))).length := by
      rw [pairCells_length, List.length_map]
    refine Prod.ext ?_ ?_
    · simp only
      rw [e, storeFrom_append]
    · simp only [List.length_append, List.length_map]; omega
theorem getRemoveEdges_spec (g : Graph) (buffer : Nat → Int) (k : Nat) :
    getRemoveEdges g buffer k =
      if k = 0 then (g.found.length : Int)
      else storeFrom (fun j => buffer (j + 1)) 0 (pairCells g.found) (k - 1) := by
  simp only [getRemoveEdges, getRemoveEdgesColor_spec]
  have e1 : 0 + 2 * (foundPairs g.matrix g.red).length =
      0 + (pairCells (foundPairs g.matrix g.red)).length := by rw [pairCells_length]
  have e2 : 0 + (pairCells (foundPairs g.matrix g.red)).length +
        2 * (foundPairs g.matrix g.green).length =
      0 + (pairCells (foundPairs g.matrix g.red) ++
        pairCells (foundPairs g.matrix g.green)).length := by
    rw [List.length_append, pairCells_length, pairCells_length]; omega
  rw [e1, storeFrom_append, e2, storeFrom_append]
  by_cases hk : k = 0
  · rw [if_pos hk, if_pos hk]
    simp only [Graph.found, List.length_append, pairCells_length]
    push_cast
    omega
  · rw [if_neg hk, if_neg hk]
    simp only [Graph.found, pairCells_append]

theorem pairCells_getD (ps : List (Nat × Nat)) (k : Nat) (hk : k < ps.length) :
    (pairCells ps).getD (2 * k) 0 = ((ps.getD k (0, 0)).1 : Int) ∧
    (pairCells ps).getD (2 * k + 1) 0 = ((ps.getD k (0, 0)).2 : Int) := by
  induction ps generalizing k with
  | nil => simp at hk
  | cons p ps ih =>
    cases k with
    | zero => simp [pairCells]
    | succ k =>
      have := ih k (by simpa using hk)
      simp only [pairCells, List.flatMap_cons] at this ⊢
      have e1 : 2 * (k + 1) = 2 * k + 2 := by ring
      have e2 : 2 * k + 2 + 1 = 2 * k + 1 + 2 := by ring
      rw [e1, e2]
      simpa using this

theorem getRemoveEdges_cells (g : Graph) (buffer : Nat → Int) :
    getRemoveEdges g buffer 0 = (g.found.length : Int) ∧
    (∀ k, k < g.found.length →
      getRemoveEdges g buffer (2 * k + 1) = ((g.found.getD k (0, 0)).1 : Int) ∧
      getRemoveEdges g buffer (2 * k + 2) = ((g.found.getD k (0, 0)).2 : Int)) ∧
    (∀ k, 2 * g.found.length < k → getRemoveEdges g buffer k = buffer k) := by
  refine ⟨by rw [getRemoveEdges_spec]; rfl, fun k hk => ?_, fun k hk => ?_⟩
  · obtain ⟨h1, h2⟩ := pairCells_getD g.found k hk
    have hlen := pairCells_length g.found
    constructor
    · rw [getRemoveEdges_spec, if_neg (by omega)]
      simp only [storeFrom]
      rw [if_pos (by omega)]
      simpa using h1
    · rw [getRemoveEdges_spec, if_neg (by omega)]
      simp only [storeFrom]
      rw [if_pos (by omega)]
      simpa using h2
  · have hlen := pairCells_length g.found
    rw [getRemoveEdges_spec, if_neg (by omega)]
    simp only [storeFrom]
    rw [if_neg (by omega)]
    congr 1
    omega
theorem mem_foundPairs (m : Nat → Nat → Int) (color : List Nat) (u v : Nat)
    (h : (u, v) ∈ foundPairs m color) :
    u ∈ color ∧ v ∈ color ∧ m u v = 1 ∧ (color.Nodup → u ≠ v) := by
  induction color with
  | nil => simp [foundPairs] at h
  | cons x rest ih =>
    simp only [foundPairs, List.mem_append, List.mem_map, List.mem_filter,
      decide_eq_true_eq, Prod.mk.injEq] at h
    rcases h with ⟨v', ⟨hv', hm⟩, rfl, rfl⟩ | h
    · refine ⟨List.mem_cons_self _ _, List.mem_cons_of_mem _ hv', hm, fun hnd => ?_⟩
      rintro rfl
      exact (List.nodup_cons.1 hnd).1 hv'
    · obtain ⟨h1, h2, h3, h4⟩ := ih h
      exact ⟨List.mem_cons_of_mem _ h1, List.mem_cons_of_mem _ h2, h3,
        fun hnd => h4 (List.nodup_cons.1 hnd).2⟩

theorem foundPairs_complete (m : Nat → Nat → Int) (color : List Nat) (u v : Nat)
    (hu : u ∈ color) (hv : v ∈ color) (hne : u ≠ v) (h1 : m u v = 1) (h2 : m v u = 1) :
    (u, v) ∈ foundPairs m color ∨ (v, u) ∈ foundPairs m color := by
  induction color with
  | nil => simp at hu
  | cons x rest ih =>
    simp only [foundPairs, List.mem_append, List.mem_map, List.mem_filter,
      decide_eq_true_eq, Prod.mk.injEq]
    rcases List.mem_cons.1 hu with rfl | hu'
    · rcases List.mem_cons.1 hv with rfl | hv'
      · exact absurd rfl hne
      · exact Or.inl (Or.inl ⟨v, ⟨hv', h1⟩, rfl, rfl⟩)
    · rcases List.mem_cons.1 hv with rfl | hv'
      · exact Or.inr (Or.inl ⟨u, ⟨hu', h2⟩, rfl, rfl⟩)
      · rcases ih hu' hv' with h | h
        · exact Or.inl (Or.inr h)
        · exact Or.inr (Or.inr h)

theorem mem_ordered_foundPairs (m : Nat → Nat → Int) (color : List Nat) (p : Nat × Nat)
    (hnd : color.Nodup) (h : p ∈ (foundPairs m color).map ordered) :
    p.1 ∈ color ∧ p.2 ∈ color ∧ p.1 < p.2 ∧ (m p.1 p.2 = 1 ∨ m p.2 p.1 = 1) := by
  obtain ⟨⟨u, v⟩, hq, rfl⟩ := List.mem_map.1 h
  obtain ⟨h1, h2, h3, h4⟩ := mem_foundPairs m color u v hq
  have hne := h4 hnd
  simp only [ordered]
  rcases Nat.lt_or_gt_of_ne hne with hlt | hgt
  · rw [min_eq_left hlt.le, max_eq_right hlt.le]
    exact ⟨h1, h2, hlt, Or.inl h3⟩
  · rw [min_eq_right hgt.le, max_eq_left hgt.le]
    exact ⟨h2, h1, hgt, Or.inr h3⟩

theorem foundPairs_nodup (m : Nat → Nat → Int) (color : List Nat) (hnd : color.Nodup) :
    ((foundPairs m color).map ordered).Nodup := by
  induction color with
  | nil => simp [foundPairs]
  | cons x rest ih =>
    obtain ⟨hx, hrest⟩ := List.nodup_cons.1 hnd
    simp only [foundPairs, List.map_append, List.map_map]
    refine List.nodup_append.2 ⟨?_, ih hrest, ?_⟩
    · refine List.Nodup.map_on ?_ (hrest.filter _)
      intro a ha b hb hab
      simp only [Function.comp, ordered, Prod.mk.injEq] at hab
      have ha' : a ≠ x := fun h => hx (h ▸ (List.mem_filter.1 ha).1)
      have hb' : b ≠ x := fun h => hx (h ▸ (List.mem_filter.1 hb).1)
      omega
    · intro p hp1 hp2
      obtain ⟨h1, h2, -, -⟩ := mem_ordered_foundPairs m rest p hrest hp2
      obtain ⟨a, ha, rfl⟩ := List.mem_map.1 hp1
      simp only [Function.comp, ordered] at h1 h2
      have ha' : a ≠ x := fun h => hx (h ▸ (List.mem_filter.1 ha).1)
      rcases Nat.lt_or_gt_of_ne ha' with hlt | hgt
      · rw [max_eq_left hlt.le] at h2; exact hx h2
      · rw [min_eq_left hgt.le] at h1; exact hx h1

theorem found_nodup (g : Graph) (hnd : (g.red ++ g.green ++ g.blue).Nodup) :
    (g.found.map ordered).Nodup := by
  have h12 := List.nodup_append.1 hnd
  have h1 := List.nodup_append.1 h12.1
  simp only [Graph.found, List.map_append]
  refine List.nodup_append.2 ⟨List.nodup_append.2 ⟨foundPairs_nodup _ _ h1.1,
    foundPairs_nodup _ _ h1.2.1, ?_⟩, foundPairs_nodup _ _ h12.2.1, ?_⟩
  · intro p hp1 hp2
    exact h1.2.2 (mem_ordered_foundPairs _ _ p h1.1 hp1).1
      (mem_ordered_foundPairs _ _ p h1.2.1 hp2).1
  · intro p hp1 hp2
    have hb := (mem_ordered_foundPairs _ _ p h12.2.1 hp2).1
    rcases List.mem_append.1 hp1 with h | h
    · exact h12.2.2 (List.mem_append_left _ (mem_ordered_foundPairs _ _ p h1.1 h).1) hb
    · exact h12.2.2 (List.mem_append_right _ (mem_ordered_foundPairs _ _ p h1.2.1 h).1) hb

theorem mem_found (g : Graph) (hnd : (g.red ++ g.green ++ g.blue).Nodup) (p : Nat × Nat)
    (h : p ∈ g.found.map ordered) :
    p.1 < p.2 ∧ g.sameColour p.1 p.2 ∧ (g.matrix p.1 p.2 = 1 ∨ g.matrix p.2 p.1 = 1) ∧
    p.1 ∈ g.red ++ g.green ++ g.blue ∧ p.2 ∈ g.red ++ g.green ++ g.blue := by
  have h12 := List.nodup_append.1 hnd
  have h1 := List.nodup_append.1 h12.1
  simp only [Graph.found, List.map_append, List.mem_append] at h ⊢
  rcases h with (h | h) | h
  · obtain ⟨a, b, c, d⟩ := mem_ordered_foundPairs _ _ p h1.1 h
    exact ⟨c, Or.inl ⟨a, b⟩, d, Or.inl (Or.inl a), Or.inl (Or.inl b)⟩
  · obtain ⟨a, b, c, d⟩ := mem_ordered_foundPairs _ _ p h1.2.1 h
    exact ⟨c, Or.inr (Or.inl ⟨a, b⟩), d, Or.inl (Or.inr a), Or.inl (Or.inr b)⟩
  · obtain ⟨a, b, c, d⟩ := mem_ordered_foundPairs _ _ p h12.2.1 h
    exact ⟨c, Or.inr (Or.inr ⟨a, b⟩), d, Or.inr a, Or.inr b⟩

theorem found_complete (g : Graph) (u v : Nat) (hsame : g.sameColour u v) (hne : u ≠ v)
    (h1 : g.matrix u v = 1) (h2 : g.matrix v u = 1) :
    (u, v) ∈ g.found ∨ (v, u) ∈ g.found := by
  simp only [Graph.found, List.mem_append]
  rcases hsame with ⟨a, b⟩ | ⟨a, b⟩ | ⟨a, b⟩
  · rcases foundPairs_complete g.matrix g.red u v a b hne h1 h2 with h | h
    · exact Or.inl (Or.inl (Or.inl h))
    · exact Or.inr (Or.inl (Or.inl h))
  · rcases foundPairs_complete g.matrix g.green u v a b hne h1 h2 with h | h
    · exact Or.inl (Or.inl (Or.inr h))
    · exact Or.inr (Or.inl (Or.inr h))
  · rcases foundPairs_complete g.matrix g.blue u v a b hne h1 h2 with h | h
    · exact Or.inl (Or.inr h)
    · exact Or.inr (Or.inr h)
theorem found_recordEdge (g : Graph) (buffer : Nat → Int) (k : Nat) (hk : k < g.found.length) :
    recordEdge (getRemoveEdges g buffer) k = (g.found.map ordered).getD k (0, 0) ∧
    0 ≤ getRemoveEdges g buffer (2 * k + 1) ∧ 0 ≤ getRemoveEdges g buffer (2 * k + 2) := by
  obtain ⟨h1, h2⟩ := (getRemoveEdges_cells g buffer).2.1 k hk
  refine ⟨?_, by rw [h1]; exact Int.ofNat_nonneg _, by rw [h2]; exact Int.ofNat_nonneg _⟩
  rw [recordEdge, h1, h2, List.getD_eq_getElem _ _ hk,
    List.getD_eq_getElem _ _ (by simpa using hk), List.getElem_map]
  simp only [Int.toNat_ofNat]

theorem found_card (g : Graph) (hsym : ∀ u v, g.matrix u v = g.matrix v u)
    (hnd : (g.red ++ g.green ++ g.blue).Nodup)
    (hall : ∀ v, v ∈ g.red ++ g.green ++ g.blue ↔ v < g.V) :
    (g.found.map ordered).toFinset = g.conflictEdges := by
  ext p
  simp only [List.mem_toFinset, Graph.conflictEdges, Finset.mem_filter, Finset.mem_product,
    Finset.mem_range]
  constructor
  · intro h
    obtain ⟨h1, h2, h3, h4, h5⟩ := mem_found g hnd p h
    refine ⟨⟨(hall _).1 h4, (hall _).1 h5⟩, h1, h2, ?_⟩
    rcases h3 with h | h
    · exact h
    · rw [hsym]; exact h
  · rintro ⟨-, h1, h2, h3⟩
    obtain ⟨u, v⟩ := p
    simp only at h1 h2 h3
    refine List.mem_map.2 ?_
    rcases found_complete g u v h2 (by omega) h3 (by rw [hsym]; exact h3) with h | h
    · exact ⟨(u, v), h, by simp [ordered, min_eq_left h1.le, max_eq_right h1.le]⟩
    · exact ⟨(v, u), h, by simp [ordered, min_eq_right h1.le, max_eq_left h1.le]⟩

theorem found_le_edges (g : Graph) (hnd : (g.red ++ g.green ++ g.blue).Nodup)
    (hV : ∀ v ∈ g.red ++ g.green ++ g.blue, v < g.V) : g.found.length ≤ g.edges.card := by
  have hsub : (g.found.map ordered).toFinset ⊆ g.edges := by
    intro p hp
    obtain ⟨h1, -, h3, h4, h5⟩ := mem_found g hnd p (List.mem_toFinset.1 hp)
    simp only [Graph.edges, Finset.mem_filter, Finset.mem_product, Finset.mem_range]
    exact ⟨⟨hV _ h4, hV _ h5⟩, h1, h3⟩
  have := Finset.card_le_card hsub
  rw [List.toFinset_card_of_nodup (found_nodup g hnd), List.length_map] at this
  exact this

/-- C22: the search step builds the record.  The adjacency matrix is symmetric and the three
colour lists are a partition of the vertices `0 .. V-1` (every vertex in exactly one list,
once).  After `getRemoveEdges`, whatever the buffer held before: `buffer[0]` is the number of
edges `{u, v}`, `u != v`, with both endpoints in the same colour list; each of the `buffer[0]`
pairs of cells that follow holds one such edge; no two pairs hold the same edge and every such
edge is held by a pair; and `buffer[0]` is 0 if and only if there is no such edge. -/
theorem getRemoveEdges_record (g : Graph) (buffer : Nat → Int)
    (hsym : ∀ u v, g.matrix u v = g.matrix v u)
    (hnd : (g.red ++ g.green ++ g.blue).Nodup)
    (hall : ∀ v, v ∈ g.red ++ g.green ++ g.blue ↔ v < g.V) :
    getRemoveEdges g buffer 0 = g.conflictEdges.card ∧
    (∀ k, k < g.conflictEdges.card →
      0 ≤ getRemoveEdges g buffer (2 * k + 1) ∧ 0 ≤ getRemoveEdges g buffer (2 * k + 2) ∧
      recordEdge (getRemoveEdges g buffer) k ∈ g.conflictEdges) ∧
    (∀ k l, k < g.conflictEdges.card → l < g.conflictEdges.card →
      recordEdge (getRemoveEdges g buffer) k = recordEdge (getRemoveEdges g buffer) l → k = l) ∧
    (∀ e ∈ g.conflictEdges, ∃ k, k < g.conflictEdges.card ∧
      recordEdge (getRemoveEdges g buffer) k = e) ∧
    (getRemoveEdges g buffer 0 = 0 ↔
      ∀ u v, u ≠ v → g.sameColour u v → g.matrix u v ≠ 1) := by
  have hfin := found_card g hsym hnd hall
  have hndp := found_nodup g hnd
  have hcard : g.conflictEdges.card = g.found.length := by
    rw [← hfin, List.toFinset_card_of_nodup hndp, List.length_map]
  have h0 := (getRemoveEdges_cells g buffer).1
  refine ⟨by rw [h0, hcard], ?_, ?_, ?_, ?_⟩
  · intro k hk
    rw [hcard] at hk
    obtain ⟨h1, h2, h3⟩ := found_recordEdge g buffer k hk
    refine ⟨h2, h3, ?_⟩
    rw [h1, ← hfin, List.mem_toFinset, List.getD_eq_getElem _ _ (by simpa using hk)]
    exact List.getElem_mem _
  · intro k l hk hl h
    rw [hcard] at hk hl
    rw [(found_recordEdge g buffer k hk).1, (found_recordEdge g buffer l hl).1,
      List.getD_eq_getElem _ _ (by simpa using hk),
      List.getD_eq_getElem _ _ (by simpa using hl)] at h
    exact (List.Nodup.getElem_inj_iff hndp).1 h
  · intro e he
    rw [← hfin, List.mem_toFinset] at he
    obtain ⟨k, hk, hke⟩ := List.getElem_of_mem he
    have hk2 : k < g.found.length := by simpa using hk
    refine ⟨k, by rw [hcard]; exact hk2, ?_⟩
    rw [(found_recordEdge g buffer k hk2).1, List.getD_eq_getElem _ _ hk]
    exact hke
  · rw [h0, ← hcard]
    simp only [Nat.cast_eq_zero, Finset.card_eq_zero]
    constructor
    · intro hempty u v huv hsame hm
      have hu : u < g.V := (hall u).1 (by
        simp only [Graph.sameColour] at hsame
        simp only [List.mem_append]; tauto)
      have hv : v < g.V := (hall v).1 (by
        simp only [Graph.sameColour] at hsame
        simp only [List.mem_append]; tauto)
      rcases Nat.lt_or_gt_of_ne huv with hlt | hgt
      · have : (u, v) ∈ g.conflictEdges := by
          simp only [Graph.conflictEdges, Finset.mem_filter, Finset.mem_product,
            Finset.mem_range]
          exact ⟨⟨hu, hv⟩, hlt, hsame, hm⟩
        rw [hempty] at this
        exact absurd this (Finset.not_mem_empty _)
      · have : (v, u) ∈ g.conflictEdges := by
          simp only [Graph.conflictEdges, Finset.mem_filter, Finset.mem_product,
            Finset.mem_range]
          refine ⟨⟨hv, hu⟩, hgt, ?_, by rw [hsym]; exact hm⟩
          simp only [Graph.sameColour] at hsame ⊢
          tauto
        rw [hempty] at this
        exact absurd this (Finset.not_mem_empty _)
    · intro hno
      apply Finset.eq_empty_of_forall_not_mem
      intro p hp
      simp only [Graph.conflictEdges, Finset.mem_filter, Finset.mem_product,
        Finset.mem_range] at hp
      exact hno p.1 p.2 (by omega) hp.2.2.1 hp.2.2.2
theorem triangle_sym : ∀ u v, triangle.matrix u v = triangle.matrix v u := by
  intro u v
  simp only [triangle]
  split_ifs <;> first | rfl | omega

theorem triangle_nodup : (triangle.red ++ triangle.green ++ triangle.blue).Nodup := by
  decide

theorem triangle_all :
    ∀ v, v ∈ triangle.red ++ triangle.green ++ triangle.blue ↔ v < triangle.V := by
  intro v
  simp only [triangle, List.mem_append, List.mem_cons, List.mem_singleton, List.not_mem_nil,
    or_false]
  omega

theorem triangle_edges : ((triangle.edges.card : Nat) : Int) ≤ triangle.E := by
  decide

theorem getRemoveEdges_record_witness :
    (∀ u v, triangle.matrix u v = triangle.matrix v u) ∧
    (triangle.red ++ triangle.green ++ triangle.blue).Nodup ∧
    (∀ v, v ∈ triangle.red ++ triangle.green ++ triangle.blue ↔ v < triangle.V) ∧
    (List.range 4).map (getRemoveEdges triangle (fun _ => 7)) = [1, 0, 1, 7] ∧
    getRemoveEdges triangle (fun _ => 7) 0 = triangle.conflictEdges.card :=
  ⟨triangle_sym, triangle_nodup, triangle_all, by decide,
    (getRemoveEdges_record triangle (fun _ => 7) triangle_sym triangle_nodup triangle_all).1⟩

/-- C29: the producer never overruns its record buffer.  The field `E` of the graph is at
least the number of distinct edges and the three colour lists hold distinct vertices below
`V`.  Then `getRemoveEdges` leaves every cell with an index above `2E` as it was, whatever
the buffer held before (the values it stores do not depend on the buffer, so no store goes
past index `2E`, the last cell of the `2E + 1` allocated), and the count it leaves in
`buffer[0]` is between 0 and `E`. -/
theorem getRemoveEdges_in_bounds (g : Graph)
    (hE : ((g.edges.card : Nat) : Int) ≤ g.E)
    (hnd : (g.red ++ g.green ++ g.blue).Nodup)
    (hV : ∀ v ∈ g.red ++ g.green ++ g.blue, v < g.V) :
    (∀ (buffer : Nat → Int) (k : Nat), 2 * g.E < (k : Int) →
      getRemoveEdges g buffer k = buffer k) ∧
    (∀ buffer : Nat → Int,
      0 ≤ getRemoveEdges g buffer 0 ∧ getRemoveEdges g buffer 0 ≤ g.E) := by
  have hle := found_le_edges g hnd hV
  constructor
  · intro buffer k hk
    exact (getRemoveEdges_cells g buffer).2.2 k (by omega)
  · intro buffer
    rw [(getRemoveEdges_cells g buffer).1]
    omega

theorem getRemoveEdges_in_bounds_witness :
    ((triangle.edges.card : Nat) : Int) ≤ triangle.E ∧
    (triangle.red ++ triangle.green ++ triangle.blue).Nodup ∧
    (∀ v ∈ triangle.red ++ triangle.green ++ triangle.blue, v < triangle.V) ∧
    getRemoveEdges triangle (fun _ => 7) 7 = 7 ∧
    getRemoveEdges triangle (fun _ => 7) 0 ≤ triangle.E :=
  ⟨triangle_edges, triangle_nodup, fun v hv => (triangle_all v).1 hv,
    ((getRemoveEdges_in_bounds triangle triangle_edges triangle_nodup
      (fun v hv => (triangle_all v).1 hv)).1 (fun _ => 7) 7 (by decide)),
    ((getRemoveEdges_in_bounds triangle triangle_edges triangle_nodup
      (fun v hv => (triangle_all v).1 hv)).2 (fun _ => 7)).2⟩

/-! ### Any number of producers and the consumer -/

theorem write_step_advance (C : Nat) (rec : List Int) (err : Bool) (sh sh' : Shared)
    (w w' : Writer) (hstep : write_step C rec err sh w = some (sh', w')) :
    sh'.cbuf.head = sh.cbuf.head + w.pc.advance := by
  obtain ⟨pc, e, i, lg⟩ := w
  cases pc <;> cases err <;>
    simp only [write_step, Bool.false_eq_true, if_false, if_true, sem_wait,
      circularBuffer.store] at hstep <;>
    (try split at hstep) <;>
    simp only [Option.map_some', Option.map_none', Option.some.injEq, Prod.mk.injEq,
      reduceCtorEq] at hstep <;>
    obtain ⟨rfl, _⟩ := hstep <;>
    simp [WPc.advance]

theorem advance_range (pc : WPc) : 0 ≤ pc.advance ∧ pc.advance ≤ 2 := by
  cases pc <;> simp [WPc.advance]

theorem write_step32_eq (C : Nat) (rec : List Int) (err : Bool) (sh : Shared) (w : Writer)
    (h1 : INT_MIN ≤ sh.cbuf.head) (h2 : sh.cbuf.head + w.pc.advance ≤ INT_MAX) :
    write_step32 C rec err sh w = write_step C rec err sh w := by
  obtain ⟨pc, e, i, lg⟩ := w
  cases pc <;> simp only [WPc.advance] at h2 <;> simp only [write_step32, write_step]
  · rw [int32_id _ (by omega) h2]
  · rw [int32_id _ (by omega) (by omega), int32_id _ (by omega) h2]

theorem write_step_blocked (C : Nat) (rec : List Int) (err : Bool) (sh : Shared) (w : Writer)
    (hstep : write_step C rec err sh w = none) : w.pc.advance = 0 := by
  obtain ⟨pc, e, i, lg⟩ := w
  cases pc <;> simp [write_step] at hstep <;> rfl

theorem runWriter_head_le (C : Nat) (rec : List Int) (fuel : Nat) (errs : List Bool)
    (s : Shared × Writer) : s.1.cbuf.head ≤ (runWriter C rec fuel errs s).1.cbuf.head := by
  induction fuel generalizing errs s with
  | zero => exact le_refl _
  | succ k ih =>
    rw [runWriter]
    cases hstep : write_step C rec (errs.headD false) s.1 s.2 with
    | none => exact le_refl _
    | some s' =>
      have h := write_step_advance C rec _ s.1 s'.1 s.2 s'.2 hstep
      have ha := advance_range s.2.pc
      exact le_trans (by omega) (ih errs.tail s')

theorem runWriter32_eq (C : Nat) (rec : List Int) (fuel : Nat) (errs : List Bool)
    (s : Shared × Writer) (h1 : INT_MIN ≤ s.1.cbuf.head)
    (h2 : (runWriter C rec fuel errs s).1.cbuf.head ≤ INT_MAX) :
    runWriter32 C rec fuel errs s = runWriter C rec fuel errs s := by
  induction fuel generalizing errs s with
  | zero => rfl
  | succ k ih =>
    rw [runWriter] at h2
    rw [runWriter, runWriter32]
    cases hstep : write_step C rec (errs.headD false) s.1 s.2 with
    | none =>
      rw [hstep] at h2
      simp only at h2
      rw [write_step32_eq C rec _ s.1 s.2 h1
        (by rw [write_step_blocked C rec _ s.1 s.2 hstep]; omega), hstep]
    | some s' =>
      rw [hstep] at h2
      simp only at h2
      have h := write_step_advance C rec _ s.1 s'.1 s.2 s'.2 hstep
      have ha := advance_range s.2.pc
      have hle := runWriter_head_le C rec k errs.tail s'
      rw [write_step32_eq C rec _ s.1 s.2 h1 (by omega), hstep]
      exact ih errs.tail s' (by omega) h2

theorem read_step32_eq (C : Nat) (err : Bool) (sh : Shared) (r : Reader)
    (h0 : 0 ≤ sh.cbuf.tail) (hs : r.pc = .skip → 0 ≤ r.size)
    (h : ∀ p, read_step C err sh r = some p → p.1.cbuf.tail ≤ INT_MAX) :
    read_step32 C err sh r = read_step C err sh r := by
  obtain ⟨pc, sz, i, b, o, lg⟩ := r
  simp only at hs
  have hmin : INT_MIN ≤ 0 := by decide
  cases pc <;> simp only [read_step32]
  · have h1 := h _ rfl
    have hs := hs rfl
    simp only at h1
    simp only [read_step]
    rw [int32_id (sz * 2) (by omega) (by omega),
      int32_id (sz * 2 + 1) (by omega) (by omega), int32_id _ (by omega) h1]
  · have h1 := h _ rfl
    simp only at h1
    simp only [read_step]
    rw [int32_id _ (by omega) h1]
  · have h1 := h _ rfl
    simp only at h1
    simp only [read_step]
    rw [int32_id (sh.cbuf.tail + 1) (by omega) (by omega), int32_id _ (by omega) h1]

theorem read_step_tail (C : Nat) (err : Bool) (sh sh' : Shared) (r r' : Reader)
    (hstep : read_step C err sh r = some (sh', r'))
    (hd : r.pc = .used0 ∨ r.pc = .size → 0 ≤ sh.cbuf.data (Int.tmod sh.cbuf.tail C))
    (hs : 0 ≤ r.size) :
    (r'.pc = .used0 ∨ r'.pc = .size → 0 ≤ sh'.cbuf.data (Int.tmod sh'.cbuf.tail C)) ∧
    0 ≤ r'.size ∧ sh.cbuf.tail ≤ sh'.cbuf.tail := by
  obtain ⟨⟨d, hd', tl, st⟩, ⟨f, u, m⟩⟩ := sh
  obtain ⟨pc, sz, i, b, o, lg⟩ := r
  simp only at hd hs
  cases pc <;> cases err <;>
    simp only [read_step, Bool.false_eq_true, if_false, if_true, sem_wait, sem_post] at hstep <;>
    (try split at hstep) <;>
    (try split at hstep) <;>
    simp only [Option.map_some', Option.map_none', Option.some.injEq, Prod.mk.injEq,
      reduceCtorEq] at hstep <;>
    obtain ⟨rfl, rfl⟩ := hstep <;>
    simp only [reduceCtorEq, or_self, or_false, false_or, true_implies, false_implies,
      true_or, or_true] at hd <;>
    refine ⟨?_, ?_, ?_⟩ <;>
    simp only [reduceCtorEq, or_self, or_false, false_or, true_implies, false_implies, true_or,
      or_true, implies_true, le_refl] <;>
    first
    | assumption
    | omega
    | (intro h
       simp only [Reader.drainPc, Reader.printPc] at h
       split at h <;> simp at h)

theorem runReader_tail_le (C : Nat) (fuel : Nat) (errs : List Bool) (s : Shared × Reader)
    (hd : s.2.pc = .used0 ∨ s.2.pc = .size → 0 ≤ s.1.cbuf.data (Int.tmod s.1.cbuf.tail C))
    (hs : 0 ≤ s.2.size) :
    s.1.cbuf.tail ≤ (runReader C fuel errs s).1.cbuf.tail := by
  induction fuel generalizing errs s with
  | zero => exact le_refl _
  | succ k ih =>
    rw [runReader]
    cases hstep : read_step C (errs.headD false) s.1 s.2 with
    | none => exact le_refl _
    | some s' =>
      obtain ⟨h1, h2, h3⟩ := read_step_tail C _ s.1 s'.1 s.2 s'.2 hstep hd hs
      exact le_trans h3 (ih errs.tail s' h1 h2)

theorem runReader32_eq (C : Nat) (fuel : Nat) (errs : List Bool) (s : Shared × Reader)
    (h0 : 0 ≤ s.1.cbuf.tail)
    (hd : s.2.pc = .used0 ∨ s.2.pc = .size → 0 ≤ s.1.cbuf.data (Int.tmod s.1.cbuf.tail C))
    (hs : 0 ≤ s.2.size)
    (hfin : (runReader C fuel errs s).1.cbuf.tail ≤ INT_MAX) :
    runReader32 C fuel errs s = runReader C fuel errs s := by
  induction fuel generalizing errs s with
  | zero => rfl
  | succ k ih =>
    rw [runReader] at hfin
    rw [runReader, runReader32]
    cases hstep : read_step C (errs.headD false) s.1 s.2 with
    | none =>
      rw [read_step32_eq C _ s.1 s.2 h0 (fun _ => hs) (by intro p hp; rw [hstep] at hp; simp at hp),
        hstep]
    | some s' =>
      rw [hstep] at hfin
      simp only at hfin
      obtain ⟨h1, h2, h3⟩ := read_step_tail C _ s.1 s'.1 s.2 s'.2 hstep hd hs
      have hle := runReader_tail_le C k errs.tail s' h1 h2
      rw [read_step32_eq C _ s.1 s.2 h0 (fun _ => hs) (by
        intro p hp
        rw [hstep] at hp
        obtain rfl := Option.some.inj hp
        omega), hstep]
      exact ih errs.tail s' (by omega) h1 h2 hfin

/-! ### The calls on the machine: a write and a read near `INT_MAX` -/

/-- C1, as the claim states it, fails: head is an `int` (cbuffer.h, line 23) and the claim
admits every head `h >= 0`.  Capacity 300, the record [1,5,6], head = tail = `INT_MAX`, 300 free
credits, mutex 1, stop false, every cell holding 7.  The call returns 1; the length cell goes to
slot `INT_MAX mod 300 = 247`, then `head += 1` leaves `INT_MIN` in the `int`, the two cells of
the pair are stored at the indices -248 and -247 (C's `%` of a negative head), the slots 248
and 249 still hold 7, and head ends at -2147483646, not at `h + 3`. -/
theorem write_to_cbuf_overflow :
    (write_to_cbuf32 300 [1, 5, 6] 14 []
      ⟨⟨fun _ => 7, INT_MAX, INT_MAX, false⟩, ⟨300, 0, 1⟩⟩).2.ret = some 1 ∧
    (write_to_cbuf32 300 [1, 5, 6] 14 []
      ⟨⟨fun _ => 7, INT_MAX, INT_MAX, false⟩, ⟨300, 0, 1⟩⟩).1.cbuf.head = -2147483646 ∧
    (write_to_cbuf32 300 [1, 5, 6] 14 []
      ⟨⟨fun _ => 7, INT_MAX, INT_MAX, false⟩, ⟨300, 0, 1⟩⟩).1.cbuf.data ((INT_MAX + 0) % 300) = 1 ∧
    (write_to_cbuf32 300 [1, 5, 6] 14 []
      ⟨⟨fun _ => 7, INT_MAX, INT_MAX, false⟩, ⟨300, 0, 1⟩⟩).1.cbuf.data ((INT_MAX + 1) % 300) = 7 ∧
    (write_to_cbuf32 300 [1, 5, 6] 14 []
      ⟨⟨fun _ => 7, INT_MAX, INT_MAX, false⟩, ⟨300, 0, 1⟩⟩).1.cbuf.data ((INT_MAX + 2) % 300) = 7 ∧
    (write_to_cbuf32 300 [1, 5, 6] 14 []
      ⟨⟨fun _ => 7, INT_MAX, INT_MAX, false⟩, ⟨300, 0, 1⟩⟩).1.cbuf.data (-248) = 5 ∧
    (write_to_cbuf32 300 [1, 5, 6] 14 []
      ⟨⟨fun _ => 7, INT_MAX, INT_MAX, false⟩, ⟨300, 0, 1⟩⟩).1.cbuf.data (-247) = 6 ∧
    (write_to_cbuf32 300 [1, 5, 6] 14 []
      ⟨⟨fun _ => 7, INT_MAX, INT_MAX, false⟩, ⟨300, 0, 1⟩⟩).1.sems = ⟨297, 3, 1⟩ ∧
    INT_MAX + 2 * 1 + 1 ≠ -2147483646 := by
  decide

/-- C1, amended: the write path on the machine, for a head that stays in the range of `int`.
A record with `n` pairs is written to a buffer with room for it (`2n+1 <= C`, at least `2n+1`
free credits, mutex 1, stop false), the head `h` satisfies `0 <= h` and `h + 2n + 1 <= INT_MAX`,
and no other process makes a step in between: the call returns 1, slot `(h+i) mod C` holds cell
`i` of the record for `i = 0..2n`, the head is `h+2n+1`, `free` is lower and `used` higher by
`2n+1`, and the mutex is 1 again.  Tail and stop are as before and any fuel from `7n+7` on gives
this result. -/
theorem write_to_cbuf_success (C n : Nat) (rec : List Int) (sh : Shared) (fuel : Nat)
    (hlen : rec.length = 2 * n + 1) (hn : rec.getD 0 0 = (n : Int)) (hC : 2 * n + 1 ≤ C)
    (hstop : sh.cbuf.stop = false) (hh : 0 ≤ sh.cbuf.head)
    (hmax : sh.cbuf.head + 2 * n + 1 ≤ INT_MAX)
    (hfree : 2 * n + 1 ≤ sh.sems.sem_free) (hmutex : sh.sems.sem_mutex = 1)
    (hfuel : 7 * n + 7 ≤ fuel) :
    (write_to_cbuf32 C rec fuel [] sh).2.ret = some 1 ∧
    (∀ i : Nat, i ≤ 2 * n →
      (write_to_cbuf32 C rec fuel [] sh).1.cbuf.data ((sh.cbuf.head + i) % C) = rec.getD i 0) ∧
    (write_to_cbuf32 C rec fuel [] sh).1.cbuf.head = sh.cbuf.head + 2 * n + 1 ∧
    (write_to_cbuf32 C rec fuel [] sh).1.sems.sem_free + (2 * n + 1) = sh.sems.sem_free ∧
    (write_to_cbuf32 C rec fuel [] sh).1.sems.sem_used = sh.sems.sem_used + (2 * n + 1) ∧
    (write_to_cbuf32 C rec fuel [] sh).1.sems.sem_mutex = 1 ∧
    (write_to_cbuf32 C rec fuel [] sh).1.cbuf.tail = sh.cbuf.tail ∧
    (write_to_cbuf32 C rec fuel [] sh).1.cbuf.stop = false := by
  have h := write_to_cbuf_exact C n rec sh fuel hlen hn hC hstop hh hfree hmutex hfuel
  have hmin : INT_MIN ≤ 0 := by decide
  have heq : write_to_cbuf32 C rec fuel [] sh = write_to_cbuf C rec fuel [] sh :=
    runWriter32_eq C rec fuel [] (sh, Writer.init) (by simp only; omega)
      (by rw [← write_to_cbuf, h.2.2.1]; exact hmax)
  rw [heq]
  exact h

/-- Witness of C1 (amended): the record [2,5,6,7,8] written to a fresh buffer of capacity 5. -/
theorem write_to_cbuf_success_witness :
    (write_to_cbuf32 5 [2, 5, 6, 7, 8] 21 [] (create_cbuffer_server 5)).2.ret = some 1 ∧
    (write_to_cbuf32 5 [2, 5, 6, 7, 8] 21 [] (create_cbuffer_server 5)).1.cbuf.head = 5 ∧
    (write_to_cbuf32 5 [2, 5, 6, 7, 8] 21 [] (create_cbuffer_server 5)).1.sems.sem_used = 5 := by
  have h := write_to_cbuf_success 5 2 [2, 5, 6, 7, 8] (create_cbuffer_server 5) 21
    rfl rfl (by decide) rfl (by decide) (by decide) (by decide) rfl (by decide)
  exact ⟨h.1, h.2.2.1, h.2.2.2.2.1⟩

theorem flatMap_cast (l : List Nat) :
    (l.flatMap fun a => [(a : Int)]) = l.map Nat.cast := by
  induction l with
  | nil => rfl
  | cons a l ih => simp only [List.flatMap_cons, List.map_cons, ih, List.singleton_append]

/-- C3, as the claim states it, fails: tail is an `int` (cbuffer.h, line 24) and the claim
admits every tail.  Capacity 300, tail = `INT_MAX`, slot `INT_MAX mod 300 = 247` holds the size
1, slot 248 holds 5, slot 249 holds 6, every other cell holds 7, three used credits, best
100000.  The call returns 0 with best 1, but `tail += 1` leaves `INT_MIN` in the `int`, so the
pair it prints is read at the indices -248 and -247 (it prints 7-7, not the 5-6 of the slots 248
and 249) and the tail ends at -2147483646, not at `t + 3`. -/
theorem read_from_cbuf_improving_overflow :
    (read_from_cbuf32 300 10 []
      ⟨⟨Function.update (Function.update (Function.update (fun _ => 7) 247 1) 248 5) 249 6,
        INT_MAX, INT_MAX, false⟩, ⟨297, 3, 1⟩⟩ 100000).2.ret = some 0 ∧
    (read_from_cbuf32 300 10 []
      ⟨⟨Function.update (Function.update (Function.update (fun _ => 7) 247 1) 248 5) 249 6,
        INT_MAX, INT_MAX, false⟩, ⟨297, 3, 1⟩⟩ 100000).2.bestSolution = 1 ∧
    (read_from_cbuf32 300 10 []
      ⟨⟨Function.update (Function.update (Function.update (fun _ => 7) 247 1) 248 5) 249 6,
        INT_MAX, INT_MAX, false⟩, ⟨297, 3, 1⟩⟩ 100000).2.out =
      [.solution 1, .pair 7 7, .newline] ∧
    (read_from_cbuf32 300 10 []
      ⟨⟨Function.update (Function.update (Function.update (fun _ => 7) 247 1) 248 5) 249 6,
        INT_MAX, INT_MAX, false⟩, ⟨297, 3, 1⟩⟩ 100000).1.cbuf.tail = -2147483646 ∧
    Int.tmod INT_MAX 300 = 247 ∧ (INT_MAX + 1) % 300 = 248 ∧ (INT_MAX + 2) % 300 = 249 ∧
    INT_MAX + 2 * 1 + 1 ≠ -2147483646 := by
  decide

/-- C3, amended: `read_from_cbuf` on an improving record, on the machine, for a tail that stays
in the range of `int`.  The tail `t` satisfies `0 <= t` and `t + 2n + 1 <= INT_MAX`, the cell
at slot `t mod C` holds `n` with `0 < n < best`, and `2n+1` used credits are there: the call
returns 0, sets best to `n`, prints the `n` pairs `(slot[(t+1+2i) mod C], slot[(t+2+2i) mod C])`,
`i = 0..n-1`, in this order (after the line's header and before its newline), and leaves the
tail at `t+2n+1`.  Head, cells and stop are untouched, `2n+1` used credits became free credits,
and any fuel from `5n+4` on gives this result. -/
theorem read_from_cbuf_improving (C n : Nat) (sh : Shared) (best : Int) (fuel : Nat)
    (h0 : 0 ≤ sh.cbuf.tail) (hmax : sh.cbuf.tail + 2 * n + 1 ≤ INT_MAX)
    (hsz : sh.cbuf.data (sh.cbuf.tail % C) = (n : Int)) (hn : 0 < n)
    (hbest : (n : Int) < best) (hused : 2 * n + 1 ≤ sh.sems.sem_used)
    (hfuel : 5 * n + 4 ≤ fuel) :
    (read_from_cbuf32 C fuel [] sh best).2.ret = some 0 ∧
    (read_from_cbuf32 C fuel [] sh best).2.bestSolution = n ∧
    (read_from_cbuf32 C fuel [] sh best).2.out =
      [Output.solution n] ++
      (List.range n).map (fun i : Nat =>
        Output.pair (sh.cbuf.data ((sh.cbuf.tail + 1 + 2 * (i : Int)) % C))
          (sh.cbuf.data ((sh.cbuf.tail + 2 + 2 * (i : Int)) % C))) ++
      [Output.newline] ∧
    (read_from_cbuf32 C fuel [] sh best).1.cbuf.tail = sh.cbuf.tail + 2 * n + 1 ∧
    (read_from_cbuf32 C fuel [] sh best).1.cbuf.data = sh.cbuf.data ∧
    (read_from_cbuf32 C fuel [] sh best).1.cbuf.head = sh.cbuf.head ∧
    (read_from_cbuf32 C fuel [] sh best).1.cbuf.stop = sh.cbuf.stop ∧
    (read_from_cbuf32 C fuel [] sh best).1.sems.sem_used + (2 * n + 1) = sh.sems.sem_used ∧
    (read_from_cbuf32 C fuel [] sh best).1.sems.sem_free = sh.sems.sem_free + (2 * n + 1) ∧
    (read_from_cbuf32 C fuel [] sh best).1.sems.sem_mutex = sh.sems.sem_mutex := by
  have hsz' : sh.cbuf.data (Int.tmod sh.cbuf.tail C) = (n : Int) := by
    rw [tmod_cursor C _ h0]; exact hsz
  have h := read_from_cbuf_improving_exact C n sh best fuel hsz' hn hbest hused hfuel
  have heq : read_from_cbuf32 C fuel [] sh best = read_from_cbuf C fuel [] sh best :=
    runReader32_eq C fuel [] (sh, Reader.init best) h0
      (fun _ => by simp only; rw [hsz']; omega) (by simp [Reader.init])
      (by rw [← read_from_cbuf, h.2.2.2.1]; exact hmax)
  rw [heq]
  refine ⟨h.1, h.2.1, ?_, h.2.2.2⟩
  rw [h.2.2.1]
  congr 2
  simp only [List.bind_eq_flatMap, List.pure_def]
  rw [flatMap_cast, List.map_map]
  apply List.map_congr_left
  intro i _
  have hi : (0 : Int) ≤ (i : Int) := Int.ofNat_nonneg i
  simp only [Function.comp]
  rw [tmod_cursor C _ (by omega), tmod_cursor C _ (by omega)]

/-- Witness of C3 (amended): the record [2,5,6,7,8] at the tail of a buffer of capacity 5, best
1000. -/
theorem read_from_cbuf_improving_witness :
    (read_from_cbuf32 5 14 []
      (write_to_cbuf 5 [2, 5, 6, 7, 8] 21 [] (create_cbuffer_server 5)).1 1000).2.bestSolution = 2 ∧
    (read_from_cbuf32 5 14 []
      (write_to_cbuf 5 [2, 5, 6, 7, 8] 21 [] (create_cbuffer_server 5)).1 1000).2.out =
      [.solution 2, .pair 5 6, .pair 7 8, .newline] := by
  have h := read_from_cbuf_improving 5 2
    (write_to_cbuf 5 [2, 5, 6, 7, 8] 21 [] (create_cbuffer_server 5)).1 1000 14
    (by decide) (by decide) (by decide) (by decide) (by decide) (by decide) (by decide)
  exact ⟨h.2.1, by rw [h.2.2.1]; decide⟩

/-- C4, as the claim states it, fails: the claim admits every tail.  Capacity 300, tail =
`INT_MAX - 1`, slot 246 holds the size 1, three used credits, best 1 (a tie).  The call returns 0
and prints nothing, but `tail += size*2 + 1` leaves -2147483647 in the `int`: the tail has not
advanced by `2n + 1 = 3`. -/
theorem read_from_cbuf_not_improving_overflow :
    (read_from_cbuf32 300 10 []
      ⟨⟨Function.update (fun _ => 7) 246 1, INT_MAX - 1, INT_MAX - 1, false⟩,
        ⟨297, 3, 1⟩⟩ 1).2.ret = some 0 ∧
    (read_from_cbuf32 300 10 []
      ⟨⟨Function.update (fun _ => 7) 246 1, INT_MAX - 1, INT_MAX - 1, false⟩,
        ⟨297, 3, 1⟩⟩ 1).2.out = [] ∧
    (read_from_cbuf32 300 10 []
      ⟨⟨Function.update (fun _ => 7) 246 1, INT_MAX - 1, INT_MAX - 1, false⟩,
        ⟨297, 3, 1⟩⟩ 1).1.cbuf.tail = -2147483647 ∧
    Int.tmod (INT_MAX - 1) 300 = 246 ∧
    INT_MAX - 1 + (2 * 1 + 1) ≠ -2147483647 := by
  decide

/-- C4, amended: `read_from_cbuf` on a record that does not improve, on the machine, for a tail
that stays in the range of `int`.  The tail `t` satisfies `0 <= t` and `t + 2n + 1 <= INT_MAX`,
the cell at slot `t mod C` holds `n` with `n > 0` and `n >= best` (a tie included), and `2n+1`
used credits are there: the call returns 0, leaves best as it was, prints nothing, advances the
tail by exactly `2n+1`, and its semaphore calls are those of the length cell (one wait on used,
one post on free) followed by `n` rounds of two waits on used and two posts on free.  Any fuel
from `4n+4` on gives this result. -/
theorem read_from_cbuf_not_improving (C n : Nat) (sh : Shared) (best : Int) (fuel : Nat)
    (h0 : 0 ≤ sh.cbuf.tail) (hmax : sh.cbuf.tail + (2 * n + 1) ≤ INT_MAX)
    (hsz : sh.cbuf.data (sh.cbuf.tail % C) = (n : Int)) (hn : 0 < n)
    (hbest : best ≤ (n : Int)) (hused : 2 * n + 1 ≤ sh.sems.sem_used)
    (hfuel : 4 * n + 4 ≤ fuel) :
    (read_from_cbuf32 C fuel [] sh best).2.ret = some 0 ∧
    (read_from_cbuf32 C fuel [] sh best).2.bestSolution = best ∧
    (read_from_cbuf32 C fuel [] sh best).2.out = [] ∧
    (read_from_cbuf32 C fuel [] sh best).1.cbuf.tail = sh.cbuf.tail + (2 * n + 1) ∧
    (read_from_cbuf32 C fuel [] sh best).2.log =
      [SemOp.wait .used, SemOp.post .free] ++
      rounds [SemOp.wait .used, SemOp.wait .used, SemOp.post .free, SemOp.post .free] n ∧
    (read_from_cbuf32 C fuel [] sh best).1.sems.sem_used + (2 * n + 1) = sh.sems.sem_used ∧
    (read_from_cbuf32 C fuel [] sh best).1.sems.sem_free = sh.sems.sem_free + (2 * n + 1) ∧
    (read_from_cbuf32 C fuel [] sh best).1.sems.sem_mutex = sh.sems.sem_mutex ∧
    (read_from_cbuf32 C fuel [] sh best).1.cbuf.data = sh.cbuf.data ∧
    (read_from_cbuf32 C fuel [] sh best).1.cbuf.head = sh.cbuf.head ∧
    (read_from_cbuf32 C fuel [] sh best).1.cbuf.stop = sh.cbuf.stop := by
  have hsz' : sh.cbuf.data (Int.tmod sh.cbuf.tail C) = (n : Int) := by
    rw [tmod_cursor C _ h0]; exact hsz
  have h := read_from_cbuf_not_improving_exact C n sh best fuel hsz' hn hbest hused hfuel
  have heq : read_from_cbuf32 C fuel [] sh best = read_from_cbuf C fuel [] sh best :=
    runReader32_eq C fuel [] (sh, Reader.init best) h0
      (fun _ => by simp only; rw [hsz']; omega) (by simp [Reader.init])
      (by rw [← read_from_cbuf, h.2.2.2.1]; exact hmax)
  rw [heq]
  exact h

/-- Witness of C4 (amended): the record [2,5,6,7,8] read with best = 2 (a tie). -/
theorem read_from_cbuf_not_improving_witness :
    (read_from_cbuf32 5 12 []
      (write_to_cbuf 5 [2, 5, 6, 7, 8] 21 [] (create_cbuffer_server 5)).1 2).2.bestSolution = 2 ∧
    (read_from_cbuf32 5 12 []
      (write_to_cbuf 5 [2, 5, 6, 7, 8] 21 [] (create_cbuffer_server 5)).1 2).2.out = [] ∧
    (read_from_cbuf32 5 12 []
      (write_to_cbuf 5 [2, 5, 6, 7, 8] 21 [] (create_cbuffer_server 5)).1 2).1.cbuf.tail = 5 := by
  have h := read_from_cbuf_not_improving 5 2
    (write_to_cbuf 5 [2, 5, 6, 7, 8] 21 [] (create_cbuffer_server 5)).1 2 12
    (by decide) (by decide) (by decide) (by decide) (by decide) (by decide) (by decide)
  exact ⟨h.2.1, h.2.2.1, by rw [h.2.2.2.1]; decide⟩

/-! ### Counts of a write on the machine -/

theorem wcall32_exact (C : Nat) (rec : List Int) (w : Writer) (g : WDone) (b : Bool)
    (h : WCall32 C rec w g b) (hb : b = true) : WCall C rec w g := by
  induction h with
  | entry => exact WCall.entry
  | step err sh sh' w w' g inRange _ hstep ih =>
    simp only [Bool.and_eq_true, decide_eq_true_eq] at hb
    obtain ⟨hb1, h1, h2⟩ := hb
    rw [write_step32_eq C rec err sh w h1 h2] at hstep
    exact WCall.step err sh sh' w w' g (ih hb1) hstep

theorem wcall32_step (C : Nat) (rec : List Int) (err : Bool) (sh sh' : Shared) (w w' : Writer)
    (g g' : WDone) (b b' : Bool) (h : WCall32 C rec w g b)
    (hstep : write_step32 C rec err sh w = some (sh', w'))
    (hg : g' = ⟨g.cells + w.pc.stores, g.advance + (sh'.cbuf.head - sh.cbuf.head),
      g.failed || (err && w.pc.calls)⟩)
    (hb : b' = (b && decide (INT_MIN ≤ sh.cbuf.head ∧ sh.cbuf.head + w.pc.advance ≤ INT_MAX))) :
    WCall32 C rec w' g' b' := by
  subst hg hb
  exact WCall32.step err sh sh' w w' g b h hstep

/-- C14, as the claim states it, fails: head is an `int`, and the amount by which a call
advances it is not the number of cells it wrote once `head += 1` overflows.  Capacity 300, the
terminal record [0], head = `INT_MAX`.  The call makes no failing semaphore call and returns 1;
it has stored one cell (the length cell, at slot 247) and released one used credit, and its
`head += 1` of line 279 has taken head from `INT_MAX` to `INT_MIN`: head has advanced by
-4294967295. -/
theorem write_counts_overflow :
    WCall32 300 [0] ⟨.done 1, 0, 1, [.wait .mutex, .wait .free, .post .used, .post .mutex]⟩
      ⟨1, -4294967295, false⟩ false ∧
    List.count (SemOp.post .used)
      [SemOp.wait .mutex, .wait .free, .post .used, .post .mutex] = 1 ∧
    Writer.ret ⟨.done 1, 0, 1, [.wait .mutex, .wait .free, .post .used, .post .mutex]⟩ = some 1 ∧
    (write_step32 300 [0] false ⟨⟨fun _ => 7, INT_MAX, INT_MAX, false⟩, ⟨299, 0, 0⟩⟩
      ⟨.len, 0, 0, [.wait .mutex, .wait .free]⟩).map (fun p => p.1.cbuf.head) = some INT_MIN ∧
    INT_MIN - INT_MAX = -4294967295 := by
  have h1 : WCall32 300 [0] ⟨.stop0, 0, 0, [.wait .mutex]⟩ ⟨0, 0, false⟩ true :=
    wcall32_step 300 [0] false ⟨⟨fun _ => 7, INT_MAX, INT_MAX, false⟩, ⟨300, 0, 1⟩⟩
      ⟨⟨fun _ => 7, INT_MAX, INT_MAX, false⟩, ⟨300, 0, 0⟩⟩ _ _ _ _ _ _ WCall32.entry rfl
      (by decide) (by decide)
  have h2 : WCall32 300 [0] ⟨.free0, 0, 0, [.wait .mutex]⟩ ⟨0, 0, false⟩ true :=
    wcall32_step 300 [0] false ⟨⟨fun _ => 7, INT_MAX, INT_MAX, false⟩, ⟨300, 0, 0⟩⟩
      ⟨⟨fun _ => 7, INT_MAX, INT_MAX, false⟩, ⟨300, 0, 0⟩⟩ _ _ _ _ _ _ h1 rfl
      (by decide) (by decide)
  have h3 : WCall32 300 [0] ⟨.stop1, 0, 0, [.wait .mutex, .wait .free]⟩ ⟨0, 0, false⟩ true :=
    wcall32_step 300 [0] false ⟨⟨fun _ => 7, INT_MAX, INT_MAX, false⟩, ⟨300, 0, 0⟩⟩
      ⟨⟨fun _ => 7, INT_MAX, INT_MAX, false⟩, ⟨299, 0, 0⟩⟩ _ _ _ _ _ _ h2 rfl
      (by decide) (by decide)
  have h4 : WCall32 300 [0] ⟨.len, 0, 0, [.wait .mutex, .wait .free]⟩ ⟨0, 0, false⟩ true :=
    wcall32_step 300 [0] false ⟨⟨fun _ => 7, INT_MAX, INT_MAX, false⟩, ⟨299, 0, 0⟩⟩
      ⟨⟨fun _ => 7, INT_MAX, INT_MAX, false⟩, ⟨299, 0, 0⟩⟩ _ _ _ _ _ _ h3 rfl
      (by decide) (by decide)
  have h5 : WCall32 300 [0] ⟨.used0, 0, 0, [.wait .mutex, .wait .free]⟩
      ⟨1, -4294967295, false⟩ false :=
    wcall32_step 300 [0] false ⟨⟨fun _ => 7, INT_MAX, INT_MAX, false⟩, ⟨299, 0, 0⟩⟩
      ⟨⟨Function.update (fun _ => 7) 247 0, INT_MIN, INT_MAX, false⟩, ⟨299, 0, 0⟩⟩ _ _ _ _ _ _ h4
      (by
        have e1 : Int.tmod INT_MAX ((300 : Nat) : Int) = 247 := by decide
        have e2 : int32 (INT_MAX + 1) = INT_MIN := by decide
        simp only [write_step32, circularBuffer.store, e1, e2])
      (by decide) (by decide)
  have h6 : WCall32 300 [0] ⟨.unlock, 0, 1, [.wait .mutex, .wait .free, .post .used]⟩
      ⟨1, -4294967295, false⟩ false :=
    wcall32_step 300 [0] false
      ⟨⟨Function.update (fun _ => 7) 247 0, INT_MIN, INT_MAX, false⟩, ⟨299, 0, 0⟩⟩
      ⟨⟨Function.update (fun _ => 7) 247 0, INT_MIN, INT_MAX, false⟩, ⟨299, 1, 0⟩⟩ _ _ _ _ _ _ h5
      rfl (by decide) (by decide)
  have h7 : WCall32 300 [0]
      ⟨.done 1, 0, 1, [.wait .mutex, .wait .free, .post .used, .post .mutex]⟩
      ⟨1, -4294967295, false⟩ false :=
    wcall32_step 300 [0] false
      ⟨⟨Function.update (fun _ => 7) 247 0, INT_MIN, INT_MAX, false⟩, ⟨299, 1, 0⟩⟩
      ⟨⟨Function.update (fun _ => 7) 247 0, INT_MIN, INT_MAX, false⟩, ⟨299, 1, 1⟩⟩ _ _ _ _ _ _ h6
      rfl (by decide) (by decide)
  exact ⟨h7, by decide, rfl, by decide, by decide⟩

/-- C14, amended: a write keeps the counts consistent while head stays in the range of `int`.
A `write_to_cbuf` call has returned, whatever the other processes have done between its steps
and wherever stop was seen, none of its semaphore calls has reported an error, and every
`head += 1` and `head += 2` of the call found and left a head between `INT_MIN` and `INT_MAX`.
Then the call has returned 1 or 0, and the number of used credits it has released (its
`sem_post` calls on used), the number of cells it has stored and the amount by which its steps
have advanced head are the same number. -/
theorem write_counts_consistent (C : Nat) (rec : List Int) (w : Writer) (g : WDone) (r : Int)
    (hcall : WCall32 C rec w g true) (hok : g.failed = false) (hret : w.ret = some r) :
    (r = 1 ∨ r = 0) ∧
    List.count (SemOp.post .used) w.log = g.cells ∧
    g.advance = g.cells :=
  wcall_counts C rec w g r (wcall32_exact C rec w g true hcall rfl) hok hret

/-- Witness of C14 (amended): capacity 3, the record [1,7,8]; the call stores the length cell,
then another process sets stop, and the call sees it at line 296 and returns 0 with one cell
stored, one used credit released and head advanced by one. -/
theorem write_counts_consistent_witness :
    WCall32 3 [1, 7, 8] ⟨.done 0, 1, 1, [.wait .mutex, .wait .free, .post .used, .wait .free,
      .post .mutex]⟩ ⟨1, 1, false⟩ true ∧
    List.count (SemOp.post .used) [SemOp.wait .mutex, .wait .free, .post .used, .wait .free,
      .post .mutex] = 1 :=
  have h : WCall32 3 [1, 7, 8] ⟨.done 0, 1, 1, [.wait .mutex, .wait .free, .post .used,
      .wait .free, .post .mutex]⟩ ⟨1, 1, false⟩ true :=
    @WCall32.step 3 [1, 7, 8] false ⟨⟨fun _ => 0, 1, 0, true⟩, ⟨1, 1, 0⟩⟩ ⟨⟨fun _ => 0, 1, 0, true⟩, ⟨1, 1, 1⟩⟩
      ⟨.abort, 1, 1, [.wait .mutex, .wait .free, .post .used, .wait .free]⟩ _ ⟨1, 1, false⟩ true
     (@WCall32.step 3 [1, 7, 8] false ⟨⟨fun _ => 0, 1, 0, true⟩, ⟨1, 1, 0⟩⟩ ⟨⟨fun _ => 0, 1, 0, true⟩, ⟨1, 1, 0⟩⟩
      ⟨.stop2, 1, 1, [.wait .mutex, .wait .free, .post .used, .wait .free]⟩ _ ⟨1, 1, false⟩ true
     (@WCall32.step 3 [1, 7, 8] false ⟨⟨fun _ => 0, 1, 0, false⟩, ⟨2, 1, 0⟩⟩ ⟨⟨fun _ => 0, 1, 0, false⟩, ⟨1, 1, 0⟩⟩
      ⟨.freeA, 1, 1, [.wait .mutex, .wait .free, .post .used]⟩ _ ⟨1, 1, false⟩ true
     (@WCall32.step 3 [1, 7, 8] false ⟨⟨fun _ => 0, 1, 0, false⟩, ⟨2, 0, 0⟩⟩ ⟨⟨fun _ => 0, 1, 0, false⟩, ⟨2, 1, 0⟩⟩
      ⟨.used0, 1, 0, [.wait .mutex, .wait .free]⟩ _ ⟨1, 1, false⟩ true
     (@WCall32.step 3 [1, 7, 8] false ⟨⟨fun _ => 0, 0, 0, false⟩, ⟨2, 0, 0⟩⟩
      ⟨⟨Function.update (fun _ => 0) 0 1, 1, 0, false⟩, ⟨2, 0, 0⟩⟩
      ⟨.len, 1, 0, [.wait .mutex, .wait .free]⟩ _ ⟨0, 0, false⟩ true
     (@WCall32.step 3 [1, 7, 8] false ⟨⟨fun _ => 0, 0, 0, false⟩, ⟨2, 0, 0⟩⟩ ⟨⟨fun _ => 0, 0, 0, false⟩, ⟨2, 0, 0⟩⟩
      ⟨.stop1, 1, 0, [.wait .mutex, .wait .free]⟩ _ ⟨0, 0, false⟩ true
     (@WCall32.step 3 [1, 7, 8] false ⟨⟨fun _ => 0, 0, 0, false⟩, ⟨3, 0, 0⟩⟩ ⟨⟨fun _ => 0, 0, 0, false⟩, ⟨2, 0, 0⟩⟩
      ⟨.free0, 1, 0, [.wait .mutex]⟩ _ ⟨0, 0, false⟩ true
     (@WCall32.step 3 [1, 7, 8] false ⟨⟨fun _ => 0, 0, 0, false⟩, ⟨3, 0, 0⟩⟩ ⟨⟨fun _ => 0, 0, 0, false⟩, ⟨3, 0, 0⟩⟩
      ⟨.stop0, 0, 0, [.wait .mutex]⟩ _ ⟨0, 0, false⟩ true
     (@WCall32.step 3 [1, 7, 8] false ⟨⟨fun _ => 0, 0, 0, false⟩, ⟨3, 0, 1⟩⟩ ⟨⟨fun _ => 0, 0, 0, false⟩, ⟨3, 0, 0⟩⟩
      Writer.init _ ⟨0, 0, false⟩ true WCall32.entry rfl) rfl) rfl) rfl) rfl) rfl) rfl) rfl) rfl
  ⟨h, (write_counts_consistent 3 [1, 7, 8] _ _ 0 h rfl rfl).2.1⟩

/-! ### The queue invariant on the machine -/

theorem writer_ok_headAt (n : Nat) (w : Writer) (h : w.Ok n) : w.headAt ≤ 2 * n + 1 := by
  obtain ⟨pc, e, i, lg⟩ := w
  cases pc <;> simp only [Writer.Ok] at h <;> simp only [Writer.headAt] <;> omega

theorem runWriter_headAt (C n : Nat) (rec : List Int) (hn : rec.getD 0 0 = (n : Int))
    (fuel : Nat) (sh : Shared) (w : Writer) (hw : w.Ok n) (hstop : sh.cbuf.stop = false) :
    (runWriter C rec fuel [] (sh, w)).1.cbuf.head + w.headAt ≤ sh.cbuf.head + (2 * n + 1 : Nat) := by
  induction fuel generalizing sh w with
  | zero =>
    have := writer_ok_headAt n w hw
    simp only [runWriter]
    omega
  | succ k ih =>
    rw [runWriter_step]
    cases hstep : write_step C rec false sh w with
    | none =>
      have := writer_ok_headAt n w hw
      simp only
      omega
    | some p =>
      obtain ⟨sh', w'⟩ := p
      obtain ⟨hw', hstop', -, -, -, -, hhead, -⟩ :=
        write_step_ok C n rec sh sh' w w' hn hw hstop hstep
      have := ih sh' w' hw' hstop'
      simp only at this ⊢
      omega

theorem runReader_tail_inv (C : Nat) (fuel : Nat) (errs : List Bool) (s : Shared × Reader)
    (hd : s.2.pc = .used0 ∨ s.2.pc = .size → 0 ≤ s.1.cbuf.data (Int.tmod s.1.cbuf.tail C))
    (hs : 0 ≤ s.2.size) :
    ((runReader C fuel errs s).2.pc = .used0 ∨ (runReader C fuel errs s).2.pc = .size →
      0 ≤ (runReader C fuel errs s).1.cbuf.data
        (Int.tmod (runReader C fuel errs s).1.cbuf.tail C)) ∧
    0 ≤ (runReader C fuel errs s).2.size := by
  induction fuel generalizing errs s with
  | zero => exact ⟨hd, hs⟩
  | succ k ih =>
    rw [runReader]
    cases hstep : read_step C (errs.headD false) s.1 s.2 with
    | none => exact ⟨hd, hs⟩
    | some s' =>
      obtain ⟨h1, h2, -⟩ := read_step_tail C _ s.1 s'.1 s.2 s'.2 hstep hd hs
      exact ih errs.tail s' h1 h2

theorem runReader_tail_mono (C : Nat) (a x : Nat) (s : Shared × Reader)
    (hd : s.2.pc = .used0 ∨ s.2.pc = .size → 0 ≤ s.1.cbuf.data (Int.tmod s.1.cbuf.tail C))
    (hs : 0 ≤ s.2.size) :
    (runReader C a [] s).1.cbuf.tail ≤ (runReader C (a + x) [] s).1.cbuf.tail := by
  rw [runReader_add]
  obtain ⟨h1, h2⟩ := runReader_tail_inv C a [] s hd hs
  exact runReader_tail_le C x [] _ h1 h2

theorem reader32_blocked (C : Nat) (fuel : Nat) (sh : Shared) (best : Int)
    (hused : sh.sems.sem_used = 0) :
    read_from_cbuf32 C fuel [] sh best = (sh, Reader.init best) := by
  cases fuel with
  | zero => rfl
  | succ k =>
    simp [read_from_cbuf32, runReader32, read_step32, read_step, Reader.init, sem_wait, hused]

theorem boundary32_exact (C : Nat) (sh : Shared) (q : List (List Int)) (n : Nat)
    (h : Boundary32 C sh q n) (hmax : (n : Int) ≤ INT_MAX) :
    Boundary C sh q ∧ sh.cbuf.head = n := by
  have hmin : INT_MIN ≤ 0 := by decide
  induction h with
  | fresh => exact ⟨Boundary.fresh, rfl⟩
  | write sh q rec fuel n _ hwf hret ih =>
    obtain ⟨hb, hhead⟩ := ih (by push_cast at hmax; omega)
    obtain ⟨hstop, hmutex, -⟩ := boundary_inv C sh q hb
    obtain ⟨hn, hlen⟩ := wellFormed_size rec hwf
    have hbound := runWriter_headAt C (rec.length / 2) rec hn fuel sh Writer.init
      (by simp [Writer.Ok, Writer.init]) hstop
    have heq : write_to_cbuf32 C rec fuel [] sh = write_to_cbuf C rec fuel [] sh :=
      runWriter32_eq C rec fuel [] (sh, Writer.init) (by simp only; omega)
        (by
          rw [show Writer.init.headAt = 0 from rfl] at hbound
          push_cast at hmax hbound
          omega)
    rw [heq] at hret ⊢
    refine ⟨Boundary.write sh q rec fuel hb hwf hret, ?_⟩
    rw [(write_completed C rec fuel sh hwf hstop (by omega) hret).2]
    simp only [hhead]
    push_cast
    rfl
  | read sh q best fuel n _ hret hsize ih =>
    obtain ⟨hb, hhead⟩ := ih hmax
    obtain ⟨hstop, hmutex, htail, hhd, hused, hfree, hlaid, hq⟩ := boundary_inv C sh q hb
    cases q with
    | nil =>
      rw [reader32_blocked C fuel sh best (by simpa [cells] using hused)] at hret
      simp [Reader.ret, Reader.init] at hret
    | cons rec rest =>
      obtain ⟨hn, hlen⟩ := wellFormed_size rec (hq rec (List.mem_cons_self _ _))
      obtain ⟨hcell, -⟩ := hlaid
      rw [cells_cons] at hhd hused
      have hd : (sh, Reader.init best).2.pc = .used0 ∨ (sh, Reader.init best).2.pc = .size →
          0 ≤ (sh, Reader.init best).1.cbuf.data
            (Int.tmod (sh, Reader.init best).1.cbuf.tail C) := by
        intro _
        simp only
        rw [hcell, hn]
        exact Int.ofNat_nonneg _
      have hs : 0 ≤ (sh, Reader.init best).2.size := by simp [Reader.init]
      have hfull : (runReader C (fuel + 7 * (2 * (rec.length / 2) + 1)) []
          (sh, Reader.init best)).1.cbuf.tail ≤ sh.cbuf.head := by
        obtain ⟨⟨d, hd', tl, st⟩, ⟨f, us, m⟩⟩ := sh
        simp only at hcell hused hhd ⊢
        generalize rec.length / 2 = k at hn hlen ⊢
        obtain ⟨u, rfl⟩ : ∃ u, us = u + (2 * k + 1) := ⟨us - (2 * k + 1), by omega⟩
        rcases Nat.eq_zero_or_pos k with h0 | hpos
        · subst h0
          have hterm := reader_full_terminal C d hd' tl st f u m best (fuel + 4)
            (by rw [hcell, hn]; rfl)
          have e : fuel + 7 * (2 * 0 + 1) = 3 + (fuel + 4) := by omega
          rw [e, ← read_from_cbuf]
          rw [show u + (2 * 0 + 1) = u + 1 from rfl, hterm]
          simp only
          omega
        · obtain ⟨o, hcall⟩ := reader_call C d hd' tl st f u m best k fuel
            (by rw [hcell, hn]) hpos
          rw [read_from_cbuf, Nat.add_comm] at hcall
          rw [hcall]
          simp only
          push_cast
          omega
      have hmono := runReader_tail_mono C fuel (7 * (2 * (rec.length / 2) + 1))
        (sh, Reader.init best) hd hs
      have heq : read_from_cbuf32 C fuel [] sh best = read_from_cbuf C fuel [] sh best :=
        runReader32_eq C fuel [] (sh, Reader.init best) htail hd hs (by omega)
      rw [heq] at hret hsize ⊢
      refine ⟨Boundary.read sh (rec :: rest) best fuel hb hret hsize, ?_⟩
      rw [read_from_cbuf, (runReader_frame C fuel [] (sh, Reader.init best)).1]
      exact hhead

/-- C13, amended: the queue invariant at the boundaries between calls on the machine, as long
as no semaphore call fails, no terminal record is read and head has not overflowed.  In every
state reached from the state after `create_cbuffer_server` by completed calls of `write_to_cbuf`
(of well-formed records) and completed calls of `read_from_cbuf` that found a size other than 0,
no semaphore call of which failed, with `q` the records written and not yet read and `n <=
INT_MAX` the number of cells written so far: head is `n`, head - tail is the number of cells of
`q`, it equals the used count, it lies between 0 and C, and free = C - used; moreover the tail
is not negative, stop is false, the mutex is 1, and the length cell of every unread record
stands where the reads will look for it. -/
theorem queue_invariant (C : Nat) (sh : Shared) (q : List (List Int)) (n : Nat)
    (h : Boundary32 C sh q n) (hmax : (n : Int) ≤ INT_MAX) :
    sh.cbuf.head - sh.cbuf.tail = cells q ∧
    sh.sems.sem_used = cells q ∧
    cells q ≤ C ∧
    sh.sems.sem_free = C - sh.sems.sem_used ∧
    sh.cbuf.head = n ∧ 0 ≤ sh.cbuf.tail ∧
    sh.cbuf.stop = false ∧ sh.sems.sem_mutex = 1 ∧
    Laid C sh.cbuf.data sh.cbuf.tail q := by
  obtain ⟨hb, hn⟩ := boundary32_exact C sh q n h hmax
  obtain ⟨hstop, hmutex, htail, hhead, hused, hfree, hlaid, hq⟩ := boundary_inv C sh q hb
  exact ⟨by omega, hused, by omega, by omega, hn, htail, hstop, hmutex, hlaid⟩

/-- Witness of C13 (amended): capacity 3, the record [1,5,6] is written and read. -/
theorem queue_invariant_witness :
    Boundary32 3
      (read_from_cbuf32 3 21 []
        (write_to_cbuf32 3 [1, 5, 6] 21 [] (create_cbuffer_server 3)).1 100000).1 [] 3 ∧
    (read_from_cbuf32 3 21 []
      (write_to_cbuf32 3 [1, 5, 6] 21 [] (create_cbuffer_server 3)).1 100000).1.sems.sem_used = 0 ∧
    Boundary32 3 (write_to_cbuf32 3 [1, 5, 6] 21 [] (create_cbuffer_server 3)).1 [[1, 5, 6]] 3 ∧
    (write_to_cbuf32 3 [1, 5, 6] 21 [] (create_cbuffer_server 3)).1.sems.sem_used = 3 :=
  ⟨Boundary32.read _ [[1, 5, 6]] 100000 21 3
      (Boundary32.write _ [] [1, 5, 6] 21 0 Boundary32.fresh (by decide) (by decide))
      (by decide) (by decide),
   (queue_invariant 3 _ [] 3
     (Boundary32.read _ [[1, 5, 6]] 100000 21 3
       (Boundary32.write _ [] [1, 5, 6] 21 0 Boundary32.fresh (by decide) (by decide))
       (by decide) (by decide)) (by decide)).2.1,
   Boundary32.write _ [] [1, 5, 6] 21 0 Boundary32.fresh (by decide) (by decide),
   (queue_invariant 3 _ [[1, 5, 6]] 3
     (Boundary32.write _ [] [1, 5, 6] 21 0 Boundary32.fresh (by decide) (by decide))
     (by decide)).2.1⟩

/-! ### The consumer loop among the steps of the producers -/

theorem runningMin_length (b : Int) (l : List Int) : (runningMin b l).length = l.length := by
  induction l generalizing b with
  | nil => rfl
  | cons n ns ih => simp [runningMin, ih]

theorem foldl_min_nonneg (b : Int) (l : List Int) (hb : 0 ≤ b) (hl : ∀ x ∈ l, 0 ≤ x) :
    0 ≤ l.foldl min b := by
  induction l generalizing b with
  | nil => exact hb
  | cons n ns ih =>
    simp only [List.foldl_cons]
    exact ih (min b n) (le_min hb (hl n (List.mem_cons_self _ _)))
      (fun x hx => hl x (List.mem_cons_of_mem _ hx))

end Cbuf
